import Mathlib

/-!
Verification of the beelog log-compaction engine against its natural-language
specification.  The Go sources are shallowly embedded: each Lean definition
mirrors one Go function or data structure (names are kept where Lean allows),
machine integers are modelled as `Nat`/`Int`, Go maps as functions with
pointwise update, and fallible code returns `Option`/`Except`.
-/

namespace Beelog

/-- Operation tag of a `pb.Command` (`pb.Command_SET` / `pb.Command_GET`). -/
inductive Op
  | SET
  | GET
deriving DecidableEq, Repr

/-- `pb.Command`: a consensus command `(id, op, key, value)` (`id` is `uint64`). -/
structure Command where
  id : Nat
  op : Op
  key : String
  value : String
deriving DecidableEq, Repr

/-- `State`: a command execution happening on a certain consensus index. -/
structure State where
  ind : Nat
  cmd : Command
deriving DecidableEq, Repr

/-- `ReduceInterval` from config.go. -/
inductive ReduceInterval
  | Immediately
  | Delayed
  | Interval
deriving DecidableEq, Repr

/-- `Reducer` from reduce.go. -/
inductive Reducer
  | GreedyLt
  | GreedyArray
  | GreedyAvl
  | IterBFSAvl
  | IterDFSAvl
  | IterCircBuff
  | IterConcTable
deriving DecidableEq, Repr

/-- `LogConfig` from config.go (`Period` is `uint32`, modelled as `Nat`). -/
structure LogConfig where
  Inmem : Bool
  KeepAll : Bool
  Sync : Bool
  Measure : Bool
  Alg : Reducer
  Tick : ReduceInterval
  Period : Nat
  Fname : String
  ParallelIO : Bool
  SecondFname : String
deriving DecidableEq, Repr

/-- `DefaultLogConfig` from config.go: every unmentioned Go field is its zero value. -/
def DefaultLogConfig : LogConfig :=
  { Inmem := true
    KeepAll := false
    Sync := false
    Measure := false
    Alg := Reducer.GreedyLt
    Tick := ReduceInterval.Delayed
    Period := 0
    Fname := ""
    ParallelIO := false
    SecondFname := "" }

/-- `LogConfig.ValidateConfig` from config.go; `some msg` models a returned error. -/
def ValidateConfig (lc : LogConfig) : Option String :=
  if !lc.Inmem && lc.Fname = "" then
    some "invalid config: if persistent storage (i.e. Inmem == false), config.Fname must be provided"
  else if lc.Tick = ReduceInterval.Interval && lc.Period = 0 then
    some "invalid config: if periodic reduce is set (i.e. Tick == Interval), a config.Period must be provided"
  else if lc.ParallelIO && lc.SecondFname = "" then
    some "invalid config: if parallel io is set (i.e. ParallelIO == true), config.secondFname must be provided"
  else
    none

/-- `strings.LastIndex(l, c)` specialised to a one-character needle: the index of
the last occurrence of `c`, or `-1` when absent. -/
def lastIndexChar (l : List Char) (c : Char) : Int :=
  match l with
  | [] => -1
  | x :: xs =>
    let r := lastIndexChar xs c
    if r ≠ -1 then r + 1
    else if x = c then 0
    else -1

/-- `extractLocation` from conctable.go: computes `strings.LastIndex(fn, "/") + 1`
and returns `fn[:ind]` whenever `ind != -1`, else `"./"`. -/
def extractLocation (fn : String) : String :=
  let ind : Int := lastIndexChar fn.data '/' + 1
  if ind ≠ -1 then String.mk (fn.data.take ind.toNat) else "./"

/-! ### Serialization codec (part_005)

The byte stream is modelled as a `List Nat` of byte values.  ASCII decimal
integers are produced as Go's `fmt.Fprintf("%d", ...)` does and consumed as
`fmt.Fscanf("%d\n", ...)` does on the streams this package produces. -/

/-- Is byte `b` an ASCII decimal digit? -/
def isDigitByte (b : Nat) : Bool := 48 ≤ b && b ≤ 57

/-- Consume a maximal run of ASCII digits, accumulating their value. -/
def readDigits : List Nat → Nat → Nat × List Nat
  | [], acc => (acc, [])
  | b :: bs, acc =>
    if isDigitByte b then readDigits bs (acc * 10 + (b - 48))
    else (acc, b :: bs)

/-- `fmt.Fscanf` `%d` into an unsigned integer: at least one digit required. -/
def parseNat (bs : List Nat) : Option (Nat × List Nat) :=
  match bs with
  | b :: rest => if isDigitByte b then some (readDigits rest (b - 48)) else none
  | [] => none

/-- `fmt.Fscanf` `%d` into a signed integer (an optional leading minus sign). -/
def parseInt (bs : List Nat) : Option (Int × List Nat) :=
  match bs with
  | 45 :: rest => (parseNat rest).map (fun q => (-(q.1 : Int), q.2))
  | _ => (parseNat bs).map (fun q => ((q.1 : Int), q.2))

/-- Expect one exact byte (a literal character of the scan format). -/
def expectByte (b : Nat) (bs : List Nat) : Option (List Nat) :=
  match bs with
  | c :: rest => if c = b then some rest else none
  | [] => none

/-- Little-endian base-10 digits of `v`, computed with `fuel ≥ v`. -/
def decAux : Nat → Nat → List Nat
  | _, 0 => []
  | 0, _ + 1 => []
  | f + 1, v + 1 => (v + 1) % 10 :: decAux f ((v + 1) / 10)

/-- Value of a little-endian digit list. -/
def digitsVal : List Nat → Nat
  | [] => 0
  | d :: ds => d + 10 * digitsVal ds

/-- ASCII decimal rendering of a natural number, as Go's `%d` produces it. -/
def decBytes (v : Nat) : List Nat :=
  if v = 0 then [48] else (decAux v v).reverse.map (fun d => d + 48)

/-- ASCII decimal rendering of a (possibly negative) integer. -/
def intBytes (v : Int) : List Nat :=
  if v < 0 then 45 :: decBytes v.natAbs else decBytes v.toNat

/-- The shared log header `"<first>\n<last>\n<count>\n"`. -/
def headerBytes (p n : Nat) (count : Int) : List Nat :=
  decBytes p ++ [10] ++ decBytes n ++ [10] ++ intBytes count ++ [10]

/-- Byte value of the operation tag. -/
def opByte : Op → Nat
  | Op.GET => 0
  | Op.SET => 1

/-- Inverse of `opByte`. -/
def decodeOp (b : Nat) : Option Op :=
  if b = 0 then some Op.GET else if b = 1 then some Op.SET else none

/-- Modelled from the spec: the individual `pb.Command` wire form
(`proto.Marshal` of package `github.com/Lz-Gustavo/beelog/pb`) is not under
src/.  The spec requires only "a length-delimited structured encoding with
fields id, op, key, value; any stable framed schema suffices as long as it
round-trips", so we frame the four fields with explicit lengths. -/
def encodeCommand (c : Command) : List Nat :=
  [c.id, opByte c.op, c.key.length] ++ c.key.data.map Char.toNat
    ++ [c.value.length] ++ c.value.data.map Char.toNat

/-- Modelled from the spec: inverse of `encodeCommand` (`proto.Unmarshal`). -/
def decodeCommand (raw : List Nat) : Option Command :=
  match raw with
  | i :: ob :: kl :: rest =>
    if kl ≤ rest.length then
      match decodeOp ob, rest.drop kl with
      | some op, vl :: rest2 =>
        if vl = rest2.length then
          some { id := i, op := op,
                 key := String.mk ((rest.take kl).map Char.ofNat),
                 value := String.mk (rest2.map Char.ofNat) }
        else none
      | _, _ => none
    else none
  | _ => none

/-- 32-bit big-endian encoding of a length (`binary.Write` of `int32(len)`). -/
def be32 (v : Nat) : List Nat :=
  [v / 2 ^ 24 % 256, v / 2 ^ 16 % 256, v / 2 ^ 8 % 256, v % 256]

/-- One length-prefixed command frame of the log stream. -/
def frameBytes (c : Command) : List Nat :=
  be32 (encodeCommand c).length ++ encodeCommand c

/-- The literal `"\nEOL\n"` trailer written by `fmt.Fprintln(logWr, "\nEOL")`. -/
def eolBytes : List Nat := [10, 69, 79, 76, 10]

/-- `MarshalLogIntoWriter` from part_005: header, length-prefixed commands,
then the ad-hoc EOL (end-of-log) mark. -/
def MarshalLogIntoWriter (log : List Command) (p n : Nat) : List Nat :=
  headerBytes p n (log.length : Int) ++ (log.map frameBytes).flatten ++ eolBytes

/-- The bytes of `MarshalLogIntoWriter` with the `"\nEOL\n"` trailer absent. -/
def marshalWithoutEOL (log : List Command) (p n : Nat) : List Nat :=
  headerBytes p n (log.length : Int) ++ (log.map frameBytes).flatten

/-- A traditional-dialect log: same header with count `-1`, then
length-prefixed commands until EOF, no trailer. -/
def tradLogBytes (log : List Command) (p n : Nat) : List Nat :=
  headerBytes p n (-1) ++ (log.map frameBytes).flatten

/-- The command loop of `unmarshalBeelog`: reads exactly `ln` frames.
`none` models a hard error (`ErrUnexpectedEOF` on the length read, a negative
`int32` length, or a `proto.Unmarshal` failure); a clean EOF on the length
read breaks the loop, returning what was accumulated plus the remaining
(empty) stream for the EOL check. -/
def unmarshalBeelogLoop : Nat → List Nat → List Command → Option (List Command × List Nat)
  | 0, bs, acc => some (acc, bs)
  | _ + 1, [], acc => some (acc, [])
  | j + 1, b0 :: b1 :: b2 :: b3 :: rest, acc =>
    let len := b0 * 2 ^ 24 + b1 * 2 ^ 16 + b2 * 2 ^ 8 + b3
    if 2 ^ 31 ≤ len then none
    else if rest = [] ∧ len ≠ 0 then some (acc, [])
    else
      -- rd.Read fills at most the available bytes; the tail of raw stays zero
      match decodeCommand (rest.take len ++ List.replicate (len - rest.length) 0) with
      | some c => unmarshalBeelogLoop j (rest.drop len) (acc ++ [c])
      | none => none
  | _ + 1, _, _ => none

/-- `fmt.Fscanf(rd, "\n%s\n", &eol)` followed by the `eol == "EOL"` test:
a newline, a nonempty non-whitespace token equal to `EOL`, then a newline. -/
def eolCheck (bs : List Nat) : Option Unit :=
  match bs with
  | 10 :: rest =>
    let tok := rest.takeWhile (fun b => b ≠ 10 ∧ b ≠ 32 ∧ b ≠ 9)
    if tok = [69, 79, 76] then
      match rest.drop tok.length with
      | 10 :: _ => some ()
      | _ => none
    else none
  | _ => none

/-- `unmarshalBeelog` from part_005: `ln` frames, then the mandatory EOL flag. -/
def unmarshalBeelog (bs : List Nat) (ln : Nat) : Option (List Command) :=
  match unmarshalBeelogLoop ln bs [] with
  | some (cmds, rest) => (eolCheck rest).map (fun _ => cmds)
  | none => none

/-- `unmarshalTradLog` from part_005: frames until EOF (or a truncated length
read, `ErrUnexpectedEOF`, which also breaks); no trailer. -/
def unmarshalTradLog (bs : List Nat) (acc : List Command) : Option (List Command) :=
  match bs with
  | b0 :: b1 :: b2 :: b3 :: rest =>
    let len := b0 * 2 ^ 24 + b1 * 2 ^ 16 + b2 * 2 ^ 8 + b3
    if 2 ^ 31 ≤ len then none
    else if rest = [] ∧ len ≠ 0 then some acc
    else
      match decodeCommand (rest.take len ++ List.replicate (len - rest.length) 0) with
      | some c => unmarshalTradLog (rest.drop len) (acc ++ [c])
      | none => none
  | _ => some acc
termination_by bs.length
decreasing_by
  simp only [List.length_cons, List.length_drop]
  omega

/-- `UnmarshalLogFromReader` from part_005: scan the `"<f>\n<l>\n<n>\n"`
header (`f`, `l` unsigned, `n` signed, each error propagating), then dispatch
on the sign of `n`. -/
def UnmarshalLogFromReader (bs : List Nat) : Option (List Command) :=
  (parseNat bs).bind fun q1 =>
  (expectByte 10 q1.2).bind fun r2 =>
  (parseNat r2).bind fun q2 =>
  (expectByte 10 q2.2).bind fun r3 =>
  (parseInt r3).bind fun q3 =>
  (expectByte 10 q3.2).bind fun r4 =>
  if 0 ≤ q3.1 then unmarshalBeelog r4 q3.1.toNat
  else unmarshalTradLog r4 []

/-! ### Command execution semantics (the KV state machine consuming the log) -/

/-- One step of KV-store execution: a SET updates its key, a GET reads only. -/
def applyCmd (store : String → Option String) (c : Command) : String → Option String :=
  if c.op = Op.SET then fun k => if k = c.key then some c.value else store k else store

/-- Execute a command list in order. -/
def applyCmds (cmds : List Command) (store : String → Option String) : String → Option String :=
  cmds.foldl applyCmd store

/-- The empty KV store. -/
def emptyStore : String → Option String := fun _ => none

/-- The raw command subsequence of `[p, n]`: the commands whose id lies in the
interval, in log order. -/
def rawInterval (cmds : List Command) (p n : Nat) : List Command :=
  cmds.filter (fun c => p ≤ c.id && c.id ≤ n)

/-- A producer delivering strictly increasing consensus ids. -/
def StrictIncIds (cmds : List Command) : Prop :=
  cmds.Pairwise (fun a b => a.id < b.id)

/-- The Go zero value of `pb.Command` (emitted by a reducer only when a key
update chain starts beyond the upper bound, which cannot happen on the
structures built here). -/
def zeroCommand : Command := ⟨0, Op.GET, "", ""⟩

/-! ### ListHT / ArrayHT (list.go, avl.go) -/

/-- `listEntry`: `ptr` is the position of this entry's `State` inside its key's
per-key update list (the Go code stores a pointer to that list node; per-key
lists grow only by `push` at the tail, so the position is stable and following
`next` pointers from it is `List.drop ptr`). -/
structure listEntry where
  ind : Nat
  key : String
  ptr : Nat
deriving DecidableEq, Repr

/-- `stateTable`: key to per-key update list (`list.push` appends at the tail). -/
abbrev stateTable := String → List State

/-- `ListHT`: the main entry list, the state table and the `logData` extents.
`config`, `recentLog` and `count` are omitted: under the default config
(`Delayed`, in-memory) `Log` triggers no reduce, and a reduce would only
rewrite `recentLog` anyway.  `logged` is carried because no `ListHT` method
ever assigns it. -/
structure ListHT where
  entries : List listEntry
  aux : stateTable
  logged : Bool
  first : Nat
  last : Nat

/-- `NewListHT`. -/
def ListHT.init : ListHT :=
  { entries := [], aux := fun _ => [], logged := false, first := 0, last := 0 }

/-- `ListHT.Log` from list.go: GETs only advance `last`; SETs push a new
`State` on the key's update list, set `first` on the first entry, append the
entry and advance `last`. -/
def ListHT.Log (l : ListHT) (cmd : Command) : ListHT :=
  if cmd.op ≠ Op.SET then { l with last := cmd.id }
  else
    let st : State := ⟨cmd.id, cmd⟩
    let entry : listEntry := ⟨cmd.id, cmd.key, (l.aux cmd.key).length⟩
    let aux' : stateTable :=
      fun k => if k = cmd.key then l.aux cmd.key ++ [st] else l.aux k
    let first' := if l.entries = [] then cmd.id else l.first
    { entries := l.entries ++ [entry], aux := aux', logged := l.logged,
      first := first', last := cmd.id }

/-- A `ListHT` built by logging a command sequence. -/
def ListHT.build (cmds : List Command) : ListHT :=
  cmds.foldl ListHT.Log ListHT.init

/-- `findMidInList` on positions: the slow/fast pointer walk over the segment
`[s, l]` (`s < l`) stops with the slow pointer at `s + (l - s - 1) / 2`. -/
def findMidInList (s l : Nat) : Nat := s + (l - s - 1) / 2

/-- The loop of `ListHT.searchEntryNodeByIndex` over positions `[s, l]` of the
entry-id list `ids`, entered only when `s < l`; returns the position of the
node the Go loop returns (an exact match or the last computed mid). -/
def searchLoop (ids : List Nat) (p : Nat) (s l : Nat) : Nat :=
  if _h : s < l then
    let m := findMidInList s l
    let v := ids.getD m 0
    if v = p then m
    else if v < p then (if m + 1 = l then m else searchLoop ids p (m + 1) l)
    else (if m = s then m else searchLoop ids p s m)
  else 0
termination_by l - s
decreasing_by
  all_goals
    unfold findMidInList
    omega

/-- `ListHT.searchEntryNodeByIndex`: with fewer than two entries the loop never
runs and the Go function returns its zero-valued `mid` pointer, i.e. `nil`
(`none` here); otherwise the position of the returned node. -/
def searchEntryNodeByIndex (l : ListHT) (ind : Nat) : Option Nat :=
  if l.entries.length < 2 then none
  else some (searchLoop (l.entries.map listEntry.ind) ind 0 (l.entries.length - 1))

/-- The `phi` accumulation of the greedy reducers: follow the update chain
while `State.ind ≤ n`, keeping the last command seen (the `pb.Command` zero
value when the body never runs). -/
def chainPhi (chain : List State) (n : Nat) : Command :=
  match (chain.takeWhile (fun st => st.ind ≤ n)).getLast? with
  | some st => st.cmd
  | none => zeroCommand

/-- The shared walk of `GreedyListHT` / `GreedyArrayHT` (their Go loop bodies
are identical): stop at the first entry beyond `n`; for each first-seen key
emit the last update of that key's chain within the bound.  `vis` is the
per-key `visited` flag set, empty at start because `resetVisitedValues` runs
first. -/
def greedyWalk (aux : stateTable) (n : Nat) :
    List listEntry → List String → List Command → List Command
  | [], _, log => log
  | e :: rest, vis, log =>
    if n < e.ind then log
    else if e.key ∈ vis then greedyWalk aux n rest vis log
    else greedyWalk aux n rest (e.key :: vis) (log ++ [chainPhi ((aux e.key).drop e.ptr) n])

/-- `GreedyListHT` from part_007: binary search for the lower bound, then the
greedy walk. -/
def GreedyListHT (l : ListHT) (p n : Nat) : List Command :=
  match searchEntryNodeByIndex l p with
  | none => []
  | some j => greedyWalk l.aux n (l.entries.drop j) [] []

/-- `ArrayHT` from avl.go: same `logData` remarks as for `ListHT`. -/
structure ArrayHT where
  arr : List listEntry
  aux : stateTable
  logged : Bool
  first : Nat
  last : Nat

/-- `NewArrayHT`. -/
def ArrayHT.init : ArrayHT :=
  { arr := [], aux := fun _ => [], logged := false, first := 0, last := 0 }

/-- `ArrayHT.Log` from avl.go: same shape as `ListHT.Log`, appending to the
entry array. -/
def ArrayHT.Log (ar : ArrayHT) (cmd : Command) : ArrayHT :=
  if cmd.op ≠ Op.SET then { ar with last := cmd.id }
  else
    let st : State := ⟨cmd.id, cmd⟩
    let entry : listEntry := ⟨cmd.id, cmd.key, (ar.aux cmd.key).length⟩
    let aux' : stateTable :=
      fun k => if k = cmd.key then ar.aux cmd.key ++ [st] else ar.aux k
    let first' := if ar.arr.length = 0 then cmd.id else ar.first
    { arr := ar.arr ++ [entry], aux := aux', logged := ar.logged,
      first := first', last := cmd.id }

/-- An `ArrayHT` built by logging a command sequence. -/
def ArrayHT.build (cmds : List Command) : ArrayHT :=
  cmds.foldl ArrayHT.Log ArrayHT.init

/-- The loop of `ArrayHT.searchEntryPosByIndex` on `int64` cursors
(`prev` is the running value of the Go `mid` variable, zero-initialised). -/
def arraySearchLoop (ids : List Nat) (p : Nat) (s l prev : Int) : Int :=
  if _h : s < l then
    let m := s + (l - s) / 2
    let v := ids.getD m.toNat 0
    if v = p then m
    else if v < p then arraySearchLoop ids p (m + 1) l m
    else arraySearchLoop ids p s (m - 1) m
  else prev
termination_by (l - s).toNat
decreasing_by
  all_goals omega

/-- `ArrayHT.searchEntryPosByIndex` from avl.go. -/
def searchEntryPosByIndex (ar : ArrayHT) (ind : Nat) : Nat :=
  (arraySearchLoop (ar.arr.map listEntry.ind) ind 0 ((ar.arr.length : Int) - 1) 0).toNat

/-- `GreedyArrayHT` from part_007: binary search then the greedy walk. -/
def GreedyArrayHT (ar : ArrayHT) (p n : Nat) : List Command :=
  greedyWalk ar.aux n (ar.arr.drop (searchEntryPosByIndex ar p)) [] []

/-! ### AVLTreeHT (avl.go) -/

/-- An `avlTreeEntry` pointer: `nil` or a node `(left, ind, key, ptr, height,
right)`.  As for lists, `ptr` is the position of the entry's `State` in its
key's update list. -/
inductive avlTree
  | nil
  | node (left : avlTree) (ind : Nat) (key : String) (ptr : Nat)
         (height : Nat) (right : avlTree)
deriving DecidableEq, Repr

/-- `getHeight` from avl.go. -/
def getHeight : avlTree → Nat
  | .nil => 0
  | .node _ _ _ _ h _ => h

/-- `getBalanceFactor` from avl.go. -/
def getBalanceFactor : avlTree → Int
  | .nil => 0
  | .node l _ _ _ _ r => (getHeight l : Int) - (getHeight r : Int)

/-- `node.ind` through a possibly-nil pointer; the `0` fallback stands for the
nil dereference Go would crash on, unreachable behind the balance guards
(a balance factor above 1 forces a non-nil left child and symmetrically). -/
def treeInd : avlTree → Nat
  | .nil => 0
  | .node _ i _ _ _ _ => i

/-- `AVLTreeHT.rightRotate`: heights of the two rotated nodes are recomputed,
the root's first.  The fallback row is the nil dereference of `root.left`,
unreachable behind the balance guard. -/
def rightRotate : avlTree → avlTree
  | .node (.node ll li lk lp _ gson) i k p _ r =>
    let root2 := avlTree.node gson i k p (max (getHeight gson) (getHeight r) + 1) r
    avlTree.node ll li lk lp (max (getHeight ll) (getHeight root2) + 1) root2
  | t => t

/-- `AVLTreeHT.leftRotate`, mirror image of `rightRotate`. -/
def leftRotate : avlTree → avlTree
  | .node l i k p _ (.node gson ri rk rp _ rr) =>
    let root2 := avlTree.node l i k p (max (getHeight l) (getHeight gson) + 1) gson
    avlTree.node root2 ri rk rp (max (getHeight root2) (getHeight rr) + 1) rr
  | t => t

/-- The height update and four rebalancing cases at the end of `recurInsert`.
`nInd` is the inserted node's index. -/
def rebalanceInsert (root : avlTree) (nInd : Nat) : avlTree :=
  match root with
  | .nil => .nil
  | .node l i k p h r =>
    let balance := getBalanceFactor (avlTree.node l i k p h r)
    if 1 < balance ∧ nInd < treeInd l then rightRotate (avlTree.node l i k p h r)
    else if balance < -1 ∧ treeInd r < nInd then leftRotate (avlTree.node l i k p h r)
    else if 1 < balance ∧ treeInd l < nInd then
      rightRotate (avlTree.node (leftRotate l) i k p h r)
    else if balance < -1 ∧ nInd < treeInd r then
      leftRotate (avlTree.node l i k p h (rightRotate r))
    else avlTree.node l i k p h r

/-- `AVLTreeHT.recurInsert` from avl.go.  A `.nil` result signals the
duplicate-index failure (Go returns a nil pointer); note that on the two
recursive paths the possibly-nil result is assigned into `root.left` /
`root.right` unconditionally, exactly as the Go code does. -/
def recurInsert : avlTree → Nat → String → Nat → avlTree
  | .nil, nInd, nKey, nPtr => .node .nil nInd nKey nPtr 1 .nil
  | .node l i k p _ r, nInd, nKey, nPtr =>
    if nInd < i then
      let l2 := recurInsert l nInd nKey nPtr
      rebalanceInsert (avlTree.node l2 i k p (1 + max (getHeight l2) (getHeight r)) r) nInd
    else if i < nInd then
      let r2 := recurInsert r nInd nKey nPtr
      rebalanceInsert (avlTree.node l i k p (1 + max (getHeight l) (getHeight r2)) r2) nInd
    else
      .nil

/-- `AVLTreeHT` state; `config`, `recentLog` and `count` are omitted for the
same reason as in `ListHT` (default `Delayed` config: `mayTriggerReduce` is a
no-op and reduces only rewrite `recentLog`).  `logged` is never assigned by
any `AVLTreeHT` method. -/
structure AVLTreeHT where
  root : avlTree
  aux : stateTable
  len : Nat
  logged : Bool
  first : Nat
  last : Nat

/-- `NewAVLTreeHT`. -/
def AVLTreeHT.init : AVLTreeHT :=
  { root := .nil, aux := fun _ => [], len := 0, logged := false, first := 0, last := 0 }

/-- `AVLTreeHT.insert` from avl.go: root case sets `first`; otherwise a
non-nil `recurInsert` result is installed, `false` reports the duplicate. -/
def AVLTreeHT.insert (av : AVLTreeHT) (nInd : Nat) (nKey : String) (nPtr : Nat) :
    AVLTreeHT × Bool :=
  match av.root with
  | .nil =>
    ({ av with root := .node .nil nInd nKey nPtr 1 .nil, len := av.len + 1,
               first := nInd }, true)
  | .node l i k p h r =>
    let rt := recurInsert (.node l i k p h r) nInd nKey nPtr
    if rt = .nil then (av, false)
    else ({ av with root := rt, len := av.len + 1 }, true)

/-- `AVLTreeHT.Log` from avl.go: a GET only advances `last`; a SET first pushes
the new `State` on the key's update list, then inserts the tree entry; on
duplicate index the error is returned with the update list already extended
and `last` not yet advanced. -/
def AVLTreeHT.Log (av : AVLTreeHT) (cmd : Command) : AVLTreeHT × Option String :=
  if cmd.op ≠ Op.SET then ({ av with last := cmd.id }, none)
  else
    let st : State := ⟨cmd.id, cmd⟩
    let nPtr := (av.aux cmd.key).length
    let aux' : stateTable :=
      fun k => if k = cmd.key then av.aux cmd.key ++ [st] else av.aux k
    match AVLTreeHT.insert { av with aux := aux' } cmd.id cmd.key nPtr with
    | (av2, true) => ({ av2 with last := cmd.id }, none)
    | (av2, false) => (av2, some "cannot insert equal keys on BSTs")

/-- An `AVLTreeHT` built by logging a command sequence (errors discarded, as
the callers do on a correct producer). -/
def AVLTreeHT.build (cmds : List Command) : AVLTreeHT :=
  cmds.foldl (fun av c => (AVLTreeHT.Log av c).1) AVLTreeHT.init

/-- `greedyRecur` from part_007, threading the visited set and the log. -/
def greedyRecur (aux : stateTable) (p n : Nat) :
    avlTree → List String → List Command → List String × List Command
  | .nil, vis, log => (vis, log)
  | .node l i k ptr _ r, vis, log =>
    let s1 :=
      if k ∉ vis ∧ p ≤ i ∧ i ≤ n then
        (k :: vis, log ++ [chainPhi ((aux k).drop ptr) n])
      else (vis, log)
    let s2 := if p < i then greedyRecur aux p n l s1.1 s1.2 else s1
    if i < n then greedyRecur aux p n r s2.1 s2.2 else s2

/-- `GreedyAVLTreeHT` from part_007. -/
def GreedyAVLTreeHT (avl : AVLTreeHT) (p n : Nat) : List Command :=
  (greedyRecur avl.aux p n avl.root [] []).2

/-- Size of a tree, the termination measure of the iterative traversals. -/
def treeSize : avlTree → Nat
  | .nil => 0
  | .node l _ _ _ _ r => 1 + treeSize l + treeSize r

/-- The loop of `IterBFSAVLTreeHT`: FIFO queue seeded with the root; `none`
models the nil dereference when the popped pointer is nil (only possible for
the seed on an empty tree, since children are pushed behind nil guards). -/
def iterBFSLoop (aux : stateTable) (p n : Nat) :
    List avlTree → List String → List Command → Option (List Command)
  | [], _, log => some log
  | .nil :: _, _, _ => none
  | (.node l i k ptr _ r) :: rest, vis, log =>
    let s1 :=
      if k ∉ vis ∧ p ≤ i ∧ i ≤ n then
        (k :: vis, log ++ [chainPhi ((aux k).drop ptr) n])
      else (vis, log)
    let q1 := if p < i ∧ l ≠ avlTree.nil then rest ++ [l] else rest
    let q2 := if i < n ∧ r ≠ avlTree.nil then q1 ++ [r] else q1
    iterBFSLoop aux p n q2 s1.1 s1.2
termination_by queue => (queue.map treeSize).sum
decreasing_by
  simp only [List.map_cons, List.sum_cons]
  split <;> split <;>
    simp_all [List.map_append, List.sum_append, treeSize] <;> omega

/-- `IterBFSAVLTreeHT` from part_007. -/
def IterBFSAVLTreeHT (avl : AVLTreeHT) (p n : Nat) : Option (List Command) :=
  iterBFSLoop avl.aux p n [avl.root] [] []

/-- The loop of `IterDFSAVLTreeHT`: LIFO — pops `queue[len-1]`, pushes at the
back; same nil-dereference modelling as BFS. -/
def iterDFSLoop (aux : stateTable) (p n : Nat) (queue : List avlTree)
    (vis : List String) (log : List Command) : Option (List Command) :=
  match hq : queue.getLast? with
  | none => some log
  | some .nil => none
  | some (.node l i k ptr ht r) =>
    let front := queue.dropLast
    let s1 :=
      if k ∉ vis ∧ p ≤ i ∧ i ≤ n then
        (k :: vis, log ++ [chainPhi ((aux k).drop ptr) n])
      else (vis, log)
    let q1 := if p < i ∧ l ≠ avlTree.nil then front ++ [l] else front
    let q2 := if i < n ∧ r ≠ avlTree.nil then q1 ++ [r] else q1
    iterDFSLoop aux p n q2 s1.1 s1.2
termination_by (queue.map treeSize).sum
decreasing_by
  have hne : queue ≠ [] := by
    intro h0
    rw [h0] at hq
    simp at hq
  have hlast : queue.getLast hne = avlTree.node l i k ptr ht r := by
    have hg := List.getLast?_eq_getLast queue hne
    rw [hg] at hq
    exact Option.some_inj.mp hq
  have hsplit : queue = queue.dropLast ++ [avlTree.node l i k ptr ht r] := by
    conv_lhs => rw [← List.dropLast_append_getLast hne, hlast]
  conv_rhs => rw [hsplit]
  split <;> split <;>
    simp only [List.map_append, List.sum_append, List.map_cons, List.sum_cons,
      List.map_nil, List.sum_nil, treeSize] <;> omega

/-- `IterDFSAVLTreeHT` from part_007. -/
def IterDFSAVLTreeHT (avl : AVLTreeHT) (p n : Nat) : Option (List Command) :=
  iterDFSLoop avl.aux p n [avl.root] [] []

/-! ### CircBuffHT (part_004) -/

/-- `buffEntry`: a list entry without the state-table shortcut pointer. -/
structure buffEntry where
  ind : Nat
  key : String
deriving DecidableEq, Repr

/-- `modInt` from conctable.go on `Int`; for the positive divisors used here
the adjusted result coincides with Go's truncated `%` plus the correction. -/
def modInt (a b : Int) : Int :=
  let r := a % b
  if 0 ≤ r then r else r + b

/-- `minStateTable`: latest state per key (`none` for an absent Go map key). -/
abbrev minStateTable := String → Option State

/-- `CircBuffHT` under the default (`Delayed`, in-memory) configuration.
`issued` counts the `reduceReq` channel sends (each one schedules exactly one
reduce in `handleReduce`); the `reduceReq` payload copies and the persistence
side are not needed by the claims. -/
structure CircBuffHT where
  buff : List buffEntry
  aux : minStateTable
  cur : Nat
  cap : Nat
  len : Nat
  first : Nat
  last : Nat
  count : Nat
  issued : Nat

/-- `NewCircBuffHTWithConfig` with capacity `cap`: a zero-valued fixed-size
buffer and an empty table. -/
def CircBuffHT.init (cap : Nat) : CircBuffHT :=
  { buff := List.replicate cap ⟨0, ""⟩, aux := fun _ => none, cur := 0,
    cap := cap, len := 0, first := 0, last := 0, count := 0, issued := 0 }

/-- `CircBuffHT.resetBuffState`. -/
def CircBuffHT.resetBuffState (cb : CircBuffHT) : CircBuffHT :=
  { cb with len := 0, count := 0, first := 0, last := 0 }

/-- `CircBuffHT.mayTriggerReduce` under the `Delayed` tick: on `len == cap`
the state is reset and one reduce is scheduled on the channel; the `Interval`
branch is not taken. -/
def CircBuffHT.mayTriggerReduce (cb : CircBuffHT) : CircBuffHT :=
  if cb.len = cb.cap then
    { cb.resetBuffState with issued := cb.issued + 1 }
  else cb

/-- `CircBuffHT.Log` under the `Delayed` tick: the in-mutex mutation, then the
early return while the buffer is not full, else `mayTriggerReduce` on the
copy. -/
def CircBuffHT.Log (cb : CircBuffHT) (cmd : Command) : CircBuffHT :=
  let cb1 :=
    if cmd.op ≠ Op.SET then { cb with last := cmd.id }
    else
      let entry : buffEntry := ⟨cmd.id, cmd.key⟩
      let st : State := ⟨cmd.id, cmd⟩
      let aux' : minStateTable := fun k => if k = cmd.key then some st else cb.aux k
      let first' := if cb.len = 0 then cmd.id else cb.first
      { cb with
        aux := aux', first := first',
        buff := cb.buff.set cb.cur entry,
        cur := (modInt ((cb.cur : Int) + 1) ((cb.cap : Int))).toNat,
        last := cmd.id, len := cb.len + 1 }
  if cb1.len ≠ cb1.cap then cb1
  else cb1.mayTriggerReduce

/-- A `CircBuffHT` built by logging a command sequence. -/
def CircBuffHT.build (cap : Nat) (cmds : List Command) : CircBuffHT :=
  cmds.foldl CircBuffHT.Log (CircBuffHT.init cap)

/-- The loop of `IterCircBuffHT` over a state copy: newest to oldest, emitting
the table state of each first-seen key (a missing table key reads the Go map
zero value). -/
def iterCircLoop (cp : CircBuffHT) (i : Nat) (vis : List String)
    (log : List Command) : List Command :=
  if i < cp.len then
    let pos := (modInt ((cp.cur : Int) - 1 - (i : Int)) ((cp.cap : Int))).toNat
    let ent := cp.buff.getD pos ⟨0, ""⟩
    let st := (cp.aux ent.key).getD ⟨0, zeroCommand⟩
    if ent.key ∈ vis then iterCircLoop cp (i + 1) vis log
    else iterCircLoop cp (i + 1) (ent.key :: vis) (log ++ [st.cmd])
  else log
termination_by cp.len - i

/-- `IterCircBuffHT` from part_007 (`createStateCopy` copies exactly the
fields read here, so the copy is the structure itself). -/
def IterCircBuffHT (cp : CircBuffHT) : List Command :=
  iterCircLoop cp 0 [] []

/-! ### ConcTable (conctable.go) -/

/-- `resetOnImmediately` from conctable.go. -/
def resetOnImmediately : Nat := 4000

/-- The `logData` fields of one ConcTable view that the claims observe. -/
structure ViewLog where
  logged : Bool
  first : Nat
  last : Nat
  count : Nat
deriving DecidableEq, Repr

instance : Inhabited ViewLog := ⟨⟨false, 0, 0, 0⟩⟩

/-- The ConcTable state observed by the claims: per-view tables and log data,
the cursor, the shared config fields, and the persister's local Immediately
counter. -/
structure ConcTable where
  views : List minStateTable
  logs : List ViewLog
  concLevel : Nat
  current : Nat
  tick : ReduceInterval
  period : Nat
  persistCount : Nat

/-- `NewConcTableWithConfig`. -/
def ConcTable.init (concLevel : Nat) (tick : ReduceInterval) (period : Nat) : ConcTable :=
  { views := List.replicate concLevel (fun _ => none),
    logs := List.replicate concLevel default,
    concLevel := concLevel, current := 0, tick := tick, period := period,
    persistCount := 0 }

/-- `ConcTable.advanceCurrentView`: `current ← modInt(current - concLevel + 1,
concLevel)`. -/
def ConcTable.advanceCurrentView (ct : ConcTable) : ConcTable :=
  { ct with current :=
      (modInt ((ct.current : Int) - (ct.concLevel : Int) + 1) ((ct.concLevel : Int))).toNat }

/-- `ConcTable.willRequireReduceOnView`: returns `(willReduce, advance)` and
the state with the view's Interval counter updated. -/
def ConcTable.willRequireReduceOnView (ct : ConcTable) (wrt : Bool) (id : Nat) :
    (Bool × Bool) × ConcTable :=
  if wrt ∧ ct.tick = ReduceInterval.Immediately then ((true, false), ct)
  else if ct.tick ≠ ReduceInterval.Interval then ((false, false), ct)
  else
    let lg := ct.logs.getD id default
    let cnt := lg.count + 1
    if ct.period ≤ cnt then
      ((true, true), { ct with logs := ct.logs.set id { lg with count := 0 } })
    else
      ((false, false), { ct with logs := ct.logs.set id { lg with count := cnt } })

/-- `ConcTable.Log` from conctable.go: capture the current view, compute
`(willReduce, advance)`, rotate if needed, then apply the command on the
captured view (set `first`/`logged` on the first command of the view, store
the state on a write, advance `last`).  The `loggerReq` send is the separate
`reduceLog` operation below, sequenced by the op list. -/
def ConcTable.LogCmd (ct : ConcTable) (cmd : Command) : ConcTable :=
  let wrt := cmd.op = Op.SET
  let cur := ct.current
  let res := ct.willRequireReduceOnView wrt cur
  let advance := res.1.2
  let ct1 := res.2
  let ct2 := if advance then ct1.advanceCurrentView else ct1
  let lg := ct2.logs.getD cur default
  let lg1 := if lg.logged = false then { lg with first := cmd.id, logged := true } else lg
  let lg2 := { lg1 with last := cmd.id }
  let views' :=
    if wrt then
      ct2.views.set cur
        (fun k => if k = cmd.key then some ⟨cmd.id, cmd⟩ else (ct2.views.getD cur (fun _ => none)) k)
    else ct2.views
  { ct2 with logs := ct2.logs.set cur lg2, views := views' }

/-- `ConcTable.resetViewState`: fresh view table, zeroed extents, `logged`
cleared (the Interval counter is untouched). -/
def ConcTable.resetViewState (ct : ConcTable) (id : Nat) : ConcTable :=
  let lg := ct.logs.getD id default
  { ct with
    views := ct.views.set id (fun _ => none),
    logs := ct.logs.set id { lg with logged := false, first := 0, last := 0 } }

/-- `ConcTable.reduceLog` (the persister routine's state effect): under
`Immediately` the persistent state is reset only every `resetOnImmediately`
commands; otherwise the view is reset after each persist. -/
def ConcTable.reduceLog (ct : ConcTable) (id : Nat) : ConcTable :=
  if ct.tick = ReduceInterval.Immediately then
    let cnt := ct.persistCount + 1
    if cnt < resetOnImmediately then { ct with persistCount := cnt }
    else ConcTable.resetViewState { ct with persistCount := 0 } id
  else ConcTable.resetViewState ct id

/-- One operation issued against a ConcTable: a producer `Log` or a persister
pass over a view. -/
inductive CTOp
  | log (cmd : Command)
  | reduce (id : Nat)

/-- Apply one operation. -/
def ConcTable.applyOp (ct : ConcTable) (op : CTOp) : ConcTable :=
  match op with
  | .log cmd => ct.LogCmd cmd
  | .reduce id => ct.reduceLog id

/-- Apply a sequence of operations. -/
def ConcTable.applyOps (ct : ConcTable) (ops : List CTOp) : ConcTable :=
  ops.foldl ConcTable.applyOp ct

/-- The command ids of the `log` operations of a sequence, in order. -/
def ctOpIds (ops : List CTOp) : List Nat :=
  ops.filterMap (fun op => match op with | .log c => some c.id | .reduce _ => none)

/-- The C8 invariant on one view's log data. -/
def viewInv (lg : ViewLog) : Prop :=
  (lg.logged = true → lg.first ≤ lg.last) ∧
  (lg.logged = false → lg.first = 0 ∧ lg.last = 0)

/-! ### ApplyReduceAlgo (part_007), per structure/algorithm pair -/

/-- `ApplyReduceAlgo` on a `ListHT` with the matching `GreedyLt` reducer:
empty structures are rejected before the reducer runs. -/
def ApplyReduceAlgoList (l : ListHT) (p n : Nat) : Except String (List Command) :=
  if l.entries.length < 1 then Except.error "empty structure"
  else Except.ok (GreedyListHT l p n)

/-- `ApplyReduceAlgo` on an `ArrayHT` with the matching `GreedyArray` reducer. -/
def ApplyReduceAlgoArray (ar : ArrayHT) (p n : Nat) : Except String (List Command) :=
  if ar.arr.length < 1 then Except.error "empty structure"
  else Except.ok (GreedyArrayHT ar p n)

/-- `ApplyReduceAlgo` on an `AVLTreeHT` with the `GreedyAvl` reducer. -/
def ApplyReduceAlgoAvl (avl : AVLTreeHT) (p n : Nat) : Except String (List Command) :=
  if avl.len < 1 then Except.error "empty structure"
  else Except.ok (GreedyAVLTreeHT avl p n)

/-! ### Spec-side helper functions (used to state the claims) -/

/-- The SET commands of a log, in order. -/
def allSets (cmds : List Command) : List Command :=
  cmds.filter (fun c => c.op == Op.SET)

/-- The SET commands on one key, in order. -/
def setsOn (cmds : List Command) (k : String) : List Command :=
  cmds.filter (fun c => c.op == Op.SET && c.key == k)

/-- The `State` recorded for a write command. -/
def mkState (c : Command) : State := ⟨c.id, c⟩

/-- The `(ind, key, ptr)` data of every node of a tree, root first. -/
def treeNodes : avlTree → List (Nat × String × Nat)
  | .nil => []
  | .node l i k p _ r => (i, k, p) :: (treeNodes l ++ treeNodes r)

/-- The indexes stored in a tree. -/
def treeIndsL (t : avlTree) : List Nat := (treeNodes t).map (fun x => x.1)

/-- The binary-search-tree ordering invariant. -/
def Ordered : avlTree → Prop
  | .nil => True
  | .node l i _ _ _ r =>
    (∀ j ∈ treeIndsL l, j < i) ∧ (∀ j ∈ treeIndsL r, i < j) ∧ Ordered l ∧ Ordered r

/-- Everything the reducer proofs need about an `AVLTreeHT` built from a log
`cmds`: BST order; `aux` holds exactly the per-key SET chains; tree nodes and
SETs are in `(id, key)` bijection; every node's `ptr` points at its own
`State` inside its key chain; `first`/`last` bound the SET ids / all ids; and
`len` counts the SETs. -/
def AvlWF (cmds : List Command) (av : AVLTreeHT) : Prop :=
  Ordered av.root ∧
  (∀ k, av.aux k = (setsOn cmds k).map mkState) ∧
  (∀ x ∈ treeNodes av.root, ∃ c ∈ allSets cmds, x.1 = c.id ∧ x.2.1 = c.key) ∧
  (∀ c ∈ allSets cmds, ∃ x ∈ treeNodes av.root, x.1 = c.id ∧ x.2.1 = c.key) ∧
  (∀ x ∈ treeNodes av.root,
    ∃ st tail, (av.aux x.2.1).drop x.2.2 = st :: tail ∧ st.ind = x.1) ∧
  (∀ c ∈ allSets cmds, av.first ≤ c.id) ∧
  (∀ c ∈ cmds, c.id ≤ av.last) ∧
  av.len = (allSets cmds).length

/-- What the iterative-traversal proofs assume of every tree sitting in the
work queue: non-nil (the Go code dereferences it), BST-ordered, and its nodes
agree with the canonical per-key command on `[p, n]`. -/
def QueueInv (aux : stateTable) (p n : Nat) (canon : String → Command)
    (t : avlTree) : Prop :=
  t ≠ avlTree.nil ∧ Ordered t ∧
  ∀ x ∈ treeNodes t, p ≤ x.1 → x.1 ≤ n →
    chainPhi ((aux x.2.1).drop x.2.2) n = canon x.2.1

instance : Inhabited Command := ⟨zeroCommand⟩

/-! ### Codec lemmas -/

theorem decAux_val (f : Nat) : ∀ v, v ≤ f → digitsVal (decAux f v) = v := by
  induction f with
  | zero =>
    intro v hv
    interval_cases v
    simp [decAux, digitsVal]
  | succ f ih =>
    intro v hv
    match v with
    | 0 => simp [decAux, digitsVal]
    | w + 1 =>
      have hdiv : (w + 1) / 10 ≤ f := by
        have := Nat.div_lt_self (Nat.succ_pos w) (by norm_num : 1 < 10)
        omega
      simp only [decAux, digitsVal, ih _ hdiv]
      omega

theorem decAux_digit_lt (f : Nat) : ∀ v, ∀ d ∈ decAux f v, d < 10 := by
  induction f with
  | zero =>
    intro v d hd
    match v with
    | 0 => simp [decAux] at hd
    | _ + 1 => simp [decAux] at hd
  | succ f ih =>
    intro v d hd
    match v with
    | 0 => simp [decAux] at hd
    | w + 1 =>
      simp only [decAux, List.mem_cons] at hd
      rcases hd with h | h
      · subst h; exact Nat.mod_lt _ (by norm_num)
      · exact ih _ _ h

theorem digitsVal_append_singleton (L : List Nat) (d : Nat) :
    digitsVal (L ++ [d]) = digitsVal L + d * 10 ^ L.length := by
  induction L with
  | nil => simp [digitsVal]
  | cons x xs ih =>
    simp only [List.cons_append, digitsVal, List.append_eq, List.length_cons]
    rw [ih]
    ring

theorem foldl_digitsVal (L : List Nat) (a : Nat) :
    L.foldl (fun x d => x * 10 + d) a = a * 10 ^ L.length + digitsVal L.reverse := by
  induction L generalizing a with
  | nil => simp [digitsVal]
  | cons d T ih =>
    simp only [List.foldl_cons, ih, List.reverse_cons, digitsVal_append_singleton,
      List.length_reverse, List.length_cons]
    ring

theorem foldl_map48 (T : List Nat) (a : Nat) :
    (T.map (fun d => d + 48)).foldl (fun x d => x * 10 + (d - 48)) a =
      T.foldl (fun x d => x * 10 + d) a := by
  induction T generalizing a with
  | nil => rfl
  | cons d T ih => simp only [List.map_cons, List.foldl_cons, Nat.add_sub_cancel, ih]

theorem readDigits_append (ds : List Nat) :
    ∀ (rest : List Nat) (acc : Nat), (∀ b ∈ ds, isDigitByte b = true) →
    (∀ b, rest.head? = some b → isDigitByte b = false) →
    readDigits (ds ++ rest) acc = (ds.foldl (fun a d => a * 10 + (d - 48)) acc, rest) := by
  induction ds with
  | nil =>
    intro rest acc _ hrest
    match rest with
    | [] => rfl
    | b :: r =>
      have hb := hrest b rfl
      simp [readDigits, hb]
  | cons d ds ih =>
    intro rest acc hds hrest
    have hd : isDigitByte d = true := hds d (List.mem_cons_self d ds)
    simp only [List.cons_append, readDigits, hd, if_pos, List.foldl_cons]
    exact ih rest _ (fun b hb => hds b (List.mem_cons_of_mem _ hb)) hrest

theorem decBytes_digits (v : Nat) : ∀ b ∈ decBytes v, isDigitByte b = true := by
  intro b hb
  unfold decBytes at hb
  split at hb
  · simp at hb
    subst hb
    decide
  · simp only [List.mem_map, List.mem_reverse] at hb
    obtain ⟨d, hd, rfl⟩ := hb
    have := decAux_digit_lt v v d hd
    simp [isDigitByte]
    omega

theorem parseNat_decBytes (v : Nat) (rest : List Nat)
    (hrest : ∀ b, rest.head? = some b → isDigitByte b = false) :
    parseNat (decBytes v ++ rest) = some (v, rest) := by
  by_cases hv : v = 0
  · subst hv
    have h := readDigits_append [] rest 0 (by simp) hrest
    simp only [List.nil_append, List.foldl_nil] at h
    simp [decBytes, parseNat, isDigitByte, h]
  · have hne : decAux v v ≠ [] := by
      match v, hv with
      | w + 1, _ => simp [decAux]
    rcases hR : (decAux v v).reverse with _ | ⟨d0, T⟩
    · exact absurd (by simpa using congrArg List.reverse hR) hne
    have hd0 : d0 < 10 := by
      have : d0 ∈ (decAux v v).reverse := by rw [hR]; exact List.mem_cons_self _ _
      exact decAux_digit_lt v v d0 (List.mem_reverse.mp this)
    have hT : ∀ d ∈ T, d < 10 := by
      intro d hd
      have : d ∈ (decAux v v).reverse := by rw [hR]; exact List.mem_cons_of_mem _ hd
      exact decAux_digit_lt v v d (List.mem_reverse.mp this)
    have hval : digitsVal (T.reverse ++ [d0]) = v := by
      have h1 : decAux v v = T.reverse ++ [d0] := by
        have := congrArg List.reverse hR
        simpa using this
      rw [← h1]
      exact decAux_val v v le_rfl
    have hvval : d0 * 10 ^ T.length + digitsVal T.reverse = v := by
      rw [digitsVal_append_singleton, List.length_reverse] at hval
      omega
    have hbytes : decBytes v = (d0 + 48) :: T.map (fun d => d + 48) := by
      simp [decBytes, hv, hR]
    rw [hbytes]
    have hdig : isDigitByte (d0 + 48) = true := by simp [isDigitByte]; omega
    simp only [List.cons_append, parseNat, hdig, if_pos]
    have hrd := readDigits_append (T.map (fun d => d + 48)) rest (d0 + 48 - 48)
      (by
        intro b hb
        simp only [List.mem_map] at hb
        obtain ⟨d, hd, rfl⟩ := hb
        have := hT d hd
        simp [isDigitByte]; omega)
      hrest
    rw [hrd, foldl_map48, foldl_digitsVal]
    simp only [Nat.add_sub_cancel]
    rw [hvval]

theorem parseNat_decBytes_newline (v : Nat) (rest : List Nat) :
    parseNat (decBytes v ++ 10 :: rest) = some (v, 10 :: rest) :=
  parseNat_decBytes v (10 :: rest) (by intro b hb; simp at hb; subst hb; decide)

theorem parseInt_intBytes_newline (c : Int) (rest : List Nat) :
    parseInt (intBytes c ++ 10 :: rest) = some (c, 10 :: rest) := by
  by_cases hc : c < 0
  · have h1 : intBytes c = 45 :: decBytes c.natAbs := by simp [intBytes, hc]
    rw [h1]
    simp only [List.cons_append, parseInt, parseNat_decBytes_newline, Option.map_some',
      Option.some.injEq, Prod.mk.injEq]
    exact ⟨by omega, trivial⟩
  · have h1 : intBytes c = decBytes c.toNat := by simp [intBytes, hc]
    rw [h1]
    have hform : ∃ b bs, decBytes c.toNat ++ 10 :: rest = b :: bs ∧ isDigitByte b = true ∧ b ≠ 45 := by
      rcases hd : decBytes c.toNat with _ | ⟨b, bs⟩
      · exfalso
        unfold decBytes at hd
        split at hd
        · simp at hd
        · have := congrArg List.length hd
          simp at this
          rcases hc2 : c.toNat with _ | w
          · simp_all
          · rw [hc2] at this
            simp [decAux] at this
      · refine ⟨b, bs ++ 10 :: rest, by simp [hd], ?_, ?_⟩
        · exact decBytes_digits c.toNat b (by rw [hd]; exact List.mem_cons_self _ _)
        · have := decBytes_digits c.toNat b (by rw [hd]; exact List.mem_cons_self _ _)
          simp [isDigitByte] at this
          omega
    obtain ⟨b, bs, heq, hdig, hne⟩ := hform
    rw [heq]
    have : parseInt (b :: bs) = (parseNat (b :: bs)).map (fun q => ((q.1 : Int), q.2)) := by
      unfold parseInt
      split
      · rename_i heq2
        rw [List.cons.injEq] at heq2
        exact absurd heq2.1 (by omega)
      · rfl
    rw [this, ← heq, parseNat_decBytes_newline]
    simp only [Option.map_some', Option.some.injEq, Prod.mk.injEq]
    exact ⟨by omega, trivial⟩

theorem expectByte_self (b : Nat) (rest : List Nat) : expectByte b (b :: rest) = some rest := by
  simp [expectByte]

theorem decode_encode (c : Command) : decodeCommand (encodeCommand c) = some c := by
  have hkey : (List.map Char.toNat c.key.data).length = c.key.length := by
    rw [List.length_map]; rfl
  have hval : (List.map Char.toNat c.value.data).length = c.value.length := by
    rw [List.length_map]; rfl
  have hop : decodeOp (opByte c.op) = some c.op := by
    cases c.op <;> rfl
  have hE : encodeCommand c = c.id :: opByte c.op :: c.key.length ::
      (List.map Char.toNat c.key.data ++
        c.value.length :: List.map Char.toNat c.value.data) := by
    simp [encodeCommand, List.append_assoc]
  have htake := @List.take_left' Nat (List.map Char.toNat c.key.data)
    (c.value.length :: List.map Char.toNat c.value.data) c.key.length hkey
  have hdrop := @List.drop_left' Nat (List.map Char.toNat c.key.data)
    (c.value.length :: List.map Char.toNat c.value.data) c.key.length hkey
  have hle : c.key.length ≤ (List.map Char.toNat c.key.data ++
      c.value.length :: List.map Char.toNat c.value.data).length := by
    rw [List.length_append, List.length_cons]
    omega
  have hchar : ∀ L : List Char, List.map Char.ofNat (List.map Char.toNat L) = L := by
    intro L
    rw [List.map_map]
    have hco : (Char.ofNat ∘ Char.toNat) = id := funext Char.ofNat_toNat
    rw [hco, List.map_id]
  rw [hE]
  simp only [decodeCommand]
  rw [if_pos hle, hop, hdrop]
  simp only [if_pos hval.symm, htake, hchar, Option.some.injEq]

theorem be32_reconstruct (v : Nat) (h : v < 2 ^ 32) :
    v / 2 ^ 24 % 256 * 2 ^ 24 + v / 2 ^ 16 % 256 * 2 ^ 16 + v / 2 ^ 8 % 256 * 2 ^ 8 + v % 256
      = v := by
  omega

theorem encodeCommand_ne_nil (c : Command) : encodeCommand c ≠ [] := by
  simp [encodeCommand]

theorem unmarshalBeelogLoop_frames (cmds : List Command) :
    ∀ (tail : List Nat) (acc : List Command),
    (∀ c ∈ cmds, (encodeCommand c).length < 2 ^ 31) →
    unmarshalBeelogLoop cmds.length ((cmds.map frameBytes).flatten ++ tail) acc
      = some (acc ++ cmds, tail) := by
  induction cmds with
  | nil => intro tail acc _; simp [unmarshalBeelogLoop]
  | cons c cs ih =>
    intro tail acc h
    have hc : (encodeCommand c).length < 2 ^ 31 := h c (List.mem_cons_self _ _)
    have hrec := be32_reconstruct (encodeCommand c).length (by omega)
    simp only [List.map_cons, List.flatten_cons, frameBytes, be32, List.cons_append,
      List.append_assoc, List.length_cons]
    rw [unmarshalBeelogLoop]
    simp only [List.nil_append]
    rw [hrec]
    rw [if_neg (by omega)]
    have hne : encodeCommand c ++ ((cs.map frameBytes).flatten ++ tail) ≠ [] := by
      intro hcontra
      exact encodeCommand_ne_nil c (List.append_eq_nil.mp hcontra).1
    rw [if_neg (by intro hcontra; exact hne hcontra.1)]
    have hlen : (encodeCommand c).length ≤
        (encodeCommand c ++ ((cs.map frameBytes).flatten ++ tail)).length := by
      simp
    have htake : (encodeCommand c ++ ((cs.map frameBytes).flatten ++ tail)).take
        (encodeCommand c).length = encodeCommand c := List.take_left _ _
    have hdrop : (encodeCommand c ++ ((cs.map frameBytes).flatten ++ tail)).drop
        (encodeCommand c).length = (cs.map frameBytes).flatten ++ tail := List.drop_left _ _
    have hpad : (encodeCommand c).length -
        (encodeCommand c ++ ((cs.map frameBytes).flatten ++ tail)).length = 0 := by
      omega
    rw [htake, hdrop, hpad]
    simp only [List.replicate_zero, List.append_nil, decode_encode]
    rw [ih tail (acc ++ [c]) (fun x hx => h x (List.mem_cons_of_mem _ hx))]
    simp

theorem unmarshalTradLog_frames (cmds : List Command) :
    ∀ (acc : List Command), (∀ c ∈ cmds, (encodeCommand c).length < 2 ^ 31) →
    unmarshalTradLog ((cmds.map frameBytes).flatten) acc = some (acc ++ cmds) := by
  induction cmds with
  | nil => intro acc _; simp [unmarshalTradLog]
  | cons c cs ih =>
    intro acc h
    have hc : (encodeCommand c).length < 2 ^ 31 := h c (List.mem_cons_self _ _)
    have hrec := be32_reconstruct (encodeCommand c).length (by omega)
    simp only [List.map_cons, List.flatten_cons, frameBytes, be32, List.cons_append,
      List.append_assoc]
    rw [unmarshalTradLog]
    simp only [List.nil_append]
    rw [hrec]
    rw [if_neg (by omega)]
    have hne : encodeCommand c ++ (cs.map frameBytes).flatten ≠ [] := by
      intro hcontra
      exact encodeCommand_ne_nil c (List.append_eq_nil.mp hcontra).1
    rw [if_neg (by intro hcontra; exact hne hcontra.1)]
    have htake : (encodeCommand c ++ (cs.map frameBytes).flatten).take
        (encodeCommand c).length = encodeCommand c := List.take_left _ _
    have hdrop : (encodeCommand c ++ (cs.map frameBytes).flatten).drop
        (encodeCommand c).length = (cs.map frameBytes).flatten := List.drop_left _ _
    have hpad : (encodeCommand c).length -
        (encodeCommand c ++ (cs.map frameBytes).flatten).length = 0 := by
      simp [List.length_append]
    rw [htake, hdrop, hpad]
    simp only [List.replicate_zero, List.append_nil, decode_encode]
    rw [ih (acc ++ [c]) (fun x hx => h x (List.mem_cons_of_mem _ hx))]
    simp

theorem eolCheck_eolBytes : eolCheck eolBytes = some () := by decide

theorem eolCheck_nil : eolCheck [] = none := by decide

theorem unmarshal_header (p n : Nat) (c : Int) (body : List Nat) :
    UnmarshalLogFromReader (headerBytes p n c ++ body) =
      if 0 ≤ c then unmarshalBeelog body c.toNat else unmarshalTradLog body [] := by
  have hshape : headerBytes p n c ++ body =
      decBytes p ++ 10 :: (decBytes n ++ 10 :: (intBytes c ++ 10 :: body)) := by
    simp [headerBytes, List.append_assoc]
  rw [hshape]
  simp only [UnmarshalLogFromReader, parseNat_decBytes_newline, parseInt_intBytes_newline,
    expectByte_self, Option.some_bind]

theorem unmarshal_marshal_eq (cmds : List Command) (p n : Nat)
    (h : ∀ c ∈ cmds, (encodeCommand c).length < 2 ^ 31) :
    UnmarshalLogFromReader (MarshalLogIntoWriter cmds p n) = some cmds := by
  have hshape : MarshalLogIntoWriter cmds p n =
      headerBytes p n (cmds.length : Int) ++ ((cmds.map frameBytes).flatten ++ eolBytes) := by
    simp [MarshalLogIntoWriter, List.append_assoc]
  rw [hshape, unmarshal_header]
  rw [if_pos (by positivity)]
  unfold unmarshalBeelog
  have hlen : ((cmds.length : Int)).toNat = cmds.length := by simp
  rw [hlen, unmarshalBeelogLoop_frames cmds eolBytes [] h]
  simp [eolCheck_eolBytes]

theorem unmarshal_noEOL_eq (cmds : List Command) (p n : Nat)
    (h : ∀ c ∈ cmds, (encodeCommand c).length < 2 ^ 31) :
    UnmarshalLogFromReader (marshalWithoutEOL cmds p n) = none := by
  have hshape : marshalWithoutEOL cmds p n =
      headerBytes p n (cmds.length : Int) ++ ((cmds.map frameBytes).flatten ++ []) := by
    simp [marshalWithoutEOL]
  rw [hshape, unmarshal_header]
  rw [if_pos (by positivity)]
  unfold unmarshalBeelog
  have hlen : ((cmds.length : Int)).toNat = cmds.length := by simp
  rw [hlen, unmarshalBeelogLoop_frames cmds [] [] h]
  simp [eolCheck_nil]

theorem unmarshal_trad_eq (cmds : List Command) (p n : Nat)
    (h : ∀ c ∈ cmds, (encodeCommand c).length < 2 ^ 31) :
    UnmarshalLogFromReader (tradLogBytes cmds p n) = some cmds := by
  rw [tradLogBytes, unmarshal_header]
  rw [if_neg (by omega)]
  rw [unmarshalTradLog_frames cmds [] h]
  simp

/-- C7: `ValidateConfig` returns an error iff one of the three rules is violated:
`Inmem` false with empty `Fname`, `Tick = Interval` with `Period = 0`, or
`ParallelIO` with empty `SecondFname`; every other configuration validates. -/
theorem validateConfig_error_iff (lc : LogConfig) :
    (ValidateConfig lc).isSome = true ↔
      ((lc.Inmem = false ∧ lc.Fname = "") ∨
       (lc.Tick = ReduceInterval.Interval ∧ lc.Period = 0) ∨
       (lc.ParallelIO = true ∧ lc.SecondFname = "")) := by
  unfold ValidateConfig
  rcases hI : lc.Inmem <;> rcases hP : lc.ParallelIO <;>
    rcases hT : lc.Tick <;> simp [hI, hP, hT] <;>
    by_cases hF : lc.Fname = "" <;>
    by_cases hS : lc.SecondFname = "" <;>
    by_cases hPer : lc.Period = 0 <;>
    simp [hF, hS, hPer]

/-- C9: on a file name with no slash, `extractLocation` returns the empty string,
not `"./"`: the guard `ind != -1` can never fail after the `+ 1`, so the
documented `"./"` branch is unreachable. -/
theorem extractLocation_no_slash_empty :
    extractLocation "foo.bar" = "" ∧ extractLocation "foo.bar" ≠ "./" := by
  constructor <;> decide

/-- C2: serializing any command list with `MarshalLogIntoWriter` and
deserializing the bytes with `UnmarshalLogFromReader` returns exactly the same
commands in the same order (commands of encoded size below `2^31`, the limit
of the `int32` length prefix). -/
theorem marshal_unmarshal_roundtrip (cmds : List Command) (p n : Nat)
    (h : ∀ c ∈ cmds, (encodeCommand c).length < 2 ^ 31) :
    UnmarshalLogFromReader (MarshalLogIntoWriter cmds p n) = some cmds :=
  unmarshal_marshal_eq cmds p n h

/-- Witness for C2 at a concrete two-command log. -/
theorem marshal_unmarshal_roundtrip_witness :
    UnmarshalLogFromReader (MarshalLogIntoWriter
        [⟨1, Op.SET, "a", "x"⟩, ⟨2, Op.GET, "b", ""⟩] 1 2)
      = some [⟨1, Op.SET, "a", "x"⟩, ⟨2, Op.GET, "b", ""⟩] :=
  marshal_unmarshal_roundtrip [⟨1, Op.SET, "a", "x"⟩, ⟨2, Op.GET, "b", ""⟩] 1 2 (by decide)

/-- C3 counterexample: the compacted bytes `"0\n5\n0\n"` (count field 0, no
`"\nEOL\n"` trailer) make `UnmarshalLogFromReader` fail even though the claim
predicts failure only when count > 0. -/
theorem unmarshal_count_zero_no_trailer_fails :
    UnmarshalLogFromReader (marshalWithoutEOL ([] : List Command) 0 5) = none ∧
    marshalWithoutEOL ([] : List Command) 0 5 = headerBytes 0 5 0 := by
  constructor <;> decide

/-- C3 (amended): `UnmarshalLogFromReader` fails on compacted-dialect input
exactly when the `"\nEOL\n"` trailer is absent, for every count ≥ 0 (count = 0
included); with the trailer present it succeeds, and traditional-dialect input
(count = -1, no trailer) succeeds. -/
theorem unmarshal_eol_mandatory :
    (∀ (cmds : List Command) (p n : Nat),
      (∀ c ∈ cmds, (encodeCommand c).length < 2 ^ 31) →
      UnmarshalLogFromReader (marshalWithoutEOL cmds p n) = none) ∧
    (∀ (cmds : List Command) (p n : Nat),
      (∀ c ∈ cmds, (encodeCommand c).length < 2 ^ 31) →
      UnmarshalLogFromReader (MarshalLogIntoWriter cmds p n) = some cmds) ∧
    (∀ (cmds : List Command) (p n : Nat),
      (∀ c ∈ cmds, (encodeCommand c).length < 2 ^ 31) →
      UnmarshalLogFromReader (tradLogBytes cmds p n) = some cmds) :=
  ⟨unmarshal_noEOL_eq, unmarshal_marshal_eq, unmarshal_trad_eq⟩

/-- C10: when the duplicated id sits deeper than the root (here ids 1,2,3 are
logged, the tree is rebalanced to root 2, and id 1 is logged again), the nil
returned by the inner `recurInsert` is assigned into `root.left`, so `Log`
returns NO error, increments `len`, silently drops the subtree holding id 1,
and has already extended the per-key update list of the new key "d". -/
theorem avlLog_deep_duplicate_no_error :
    (AVLTreeHT.Log
        (AVLTreeHT.build [⟨1, Op.SET, "a", "1"⟩, ⟨2, Op.SET, "b", "2"⟩, ⟨3, Op.SET, "c", "3"⟩])
        ⟨1, Op.SET, "d", "9"⟩).2 = none ∧
    (AVLTreeHT.Log
        (AVLTreeHT.build [⟨1, Op.SET, "a", "1"⟩, ⟨2, Op.SET, "b", "2"⟩, ⟨3, Op.SET, "c", "3"⟩])
        ⟨1, Op.SET, "d", "9"⟩).1.root
      = avlTree.node avlTree.nil 2 "b" 0 2
          (avlTree.node avlTree.nil 3 "c" 0 1 avlTree.nil) ∧
    (AVLTreeHT.Log
        (AVLTreeHT.build [⟨1, Op.SET, "a", "1"⟩, ⟨2, Op.SET, "b", "2"⟩, ⟨3, Op.SET, "c", "3"⟩])
        ⟨1, Op.SET, "d", "9"⟩).1.len = 4 ∧
    (AVLTreeHT.Log
        (AVLTreeHT.build [⟨1, Op.SET, "a", "1"⟩, ⟨2, Op.SET, "b", "2"⟩, ⟨3, Op.SET, "c", "3"⟩])
        ⟨1, Op.SET, "d", "9"⟩).1.aux "d" = [⟨1, ⟨1, Op.SET, "d", "9"⟩⟩] := by
  refine ⟨by decide, by decide, by decide, by decide⟩

/-- C6 counterexample: with capacity 2, logging `cap + 1 = 3` distinct SETs
leaves the structure one insertion into the NEXT window (`len = 1`,
`first = last = 3`), because the reset already fired on the `cap`-th
insertion; one reduce has been issued. -/
theorem circbuff_cap_plus_one_not_reset :
    (CircBuffHT.build 2 [⟨1, Op.SET, "a", "1"⟩, ⟨2, Op.SET, "b", "2"⟩, ⟨3, Op.SET, "c", "3"⟩]).issued = 1 ∧
    (CircBuffHT.build 2 [⟨1, Op.SET, "a", "1"⟩, ⟨2, Op.SET, "b", "2"⟩, ⟨3, Op.SET, "c", "3"⟩]).len = 1 ∧
    (CircBuffHT.build 2 [⟨1, Op.SET, "a", "1"⟩, ⟨2, Op.SET, "b", "2"⟩, ⟨3, Op.SET, "c", "3"⟩]).first = 3 ∧
    (CircBuffHT.build 2 [⟨1, Op.SET, "a", "1"⟩, ⟨2, Op.SET, "b", "2"⟩, ⟨3, Op.SET, "c", "3"⟩]).last = 3 := by
  refine ⟨by decide, by decide, by decide, by decide⟩

theorem circbuff_log_set (cb : CircBuffHT) (c : Command) (hc : c.op = Op.SET) :
    (cb.Log c) =
      (let cb1 :=
        { cb with
          aux := fun k => if k = c.key then some ⟨c.id, c⟩ else cb.aux k
          first := if cb.len = 0 then c.id else cb.first
          buff := cb.buff.set cb.cur ⟨c.id, c.key⟩
          cur := (modInt ((cb.cur : Int) + 1) ((cb.cap : Int))).toNat
          last := c.id
          len := cb.len + 1 }
      if cb1.len ≠ cb1.cap then cb1 else cb1.mayTriggerReduce) := by
  simp [CircBuffHT.Log, hc]

theorem circbuff_partial (cap : Nat) (cmds : List Command) :
    (∀ c ∈ cmds, c.op = Op.SET) → cmds.length < cap →
    (CircBuffHT.build cap cmds).len = cmds.length ∧
    (CircBuffHT.build cap cmds).issued = 0 ∧
    (CircBuffHT.build cap cmds).cap = cap := by
  induction cmds using List.reverseRecOn with
  | nil => intro _ _; exact ⟨rfl, rfl, rfl⟩
  | append_singleton front c ih =>
    intro hset hlt
    have hfront : front.length < cap := by
      simp [List.length_append] at hlt
      omega
    obtain ⟨h1, h2, h3⟩ := ih (fun x hx => hset x (List.mem_append_left _ hx)) hfront
    have hc : c.op = Op.SET := hset c (List.mem_append_right _ (List.mem_singleton_self c))
    unfold CircBuffHT.build at h1 h2 h3 ⊢
    rw [List.foldl_append]
    simp only [List.foldl_cons, List.foldl_nil]
    rw [circbuff_log_set _ c hc]
    simp only []
    rw [if_pos]
    · refine ⟨?_, ?_, ?_⟩ <;> simp [h1, h2, h3, List.length_append]
    · simp only [h1, h3]
      simp [List.length_append] at hlt
      omega

/-- C6 (amended): with capacity `cap ≥ 1`, logging `cap` SET commands on
distinct keys with strictly increasing ids issues exactly one reduce and
resets the structure state (`first = last = 0`, `len = 0`): the reset fires on
the insertion that fills the buffer (`len == cap`), not one insertion later. -/
theorem circbuff_cap_reset (cap : Nat) (cmds : List Command)
    (hcap : 1 ≤ cap) (hlen : cmds.length = cap)
    (hset : ∀ c ∈ cmds, c.op = Op.SET)
    (_hinc : StrictIncIds cmds)
    (_hkeys : cmds.Pairwise (fun a b => a.key ≠ b.key)) :
    (CircBuffHT.build cap cmds).issued = 1 ∧
    (CircBuffHT.build cap cmds).len = 0 ∧
    (CircBuffHT.build cap cmds).first = 0 ∧
    (CircBuffHT.build cap cmds).last = 0 := by
  rcases List.eq_nil_or_concat cmds with hnil | ⟨front, c, rfl⟩
  · subst hnil
    simp at hlen
    omega
  · simp only [List.concat_eq_append] at hlen hset ⊢
    have hfront : front.length < cap := by
      simp [List.length_append] at hlen
      omega
    obtain ⟨h1, h2, h3⟩ := circbuff_partial cap front
      (fun x hx => hset x (List.mem_append_left _ hx)) hfront
    have hc : c.op = Op.SET := hset c (List.mem_append_right _ (List.mem_singleton_self c))
    have hfull : front.length + 1 = cap := by
      simp [List.length_append] at hlen
      omega
    unfold CircBuffHT.build at h1 h2 h3 ⊢
    rw [List.foldl_append]
    simp only [List.foldl_cons, List.foldl_nil]
    rw [circbuff_log_set _ c hc]
    simp only []
    rw [if_neg (by simp [h1, h3, hfull])]
    simp [CircBuffHT.mayTriggerReduce, CircBuffHT.resetBuffState, h1, h2, h3, hfull]

/-- Witness for C6 (amended) at capacity 2 with two distinct SETs. -/
theorem circbuff_cap_reset_witness :
    (CircBuffHT.build 2 [⟨1, Op.SET, "a", "1"⟩, ⟨2, Op.SET, "b", "2"⟩]).issued = 1 ∧
    (CircBuffHT.build 2 [⟨1, Op.SET, "a", "1"⟩, ⟨2, Op.SET, "b", "2"⟩]).len = 0 ∧
    (CircBuffHT.build 2 [⟨1, Op.SET, "a", "1"⟩, ⟨2, Op.SET, "b", "2"⟩]).first = 0 ∧
    (CircBuffHT.build 2 [⟨1, Op.SET, "a", "1"⟩, ⟨2, Op.SET, "b", "2"⟩]).last = 0 :=
  circbuff_cap_reset 2 [⟨1, Op.SET, "a", "1"⟩, ⟨2, Op.SET, "b", "2"⟩]
    (by decide) (by decide) (by decide)
    (by constructor
        · intro b hb
          simp at hb
          subst hb
          decide
        · constructor
          · intro b hb
            simp at hb
          · constructor)
    (by constructor
        · intro b hb
          simp at hb
          subst hb
          decide
        · constructor
          · intro b hb
            simp at hb
          · constructor)

/-- C8 counterexample: a `ListHT` carries `logData` but `ListHT.Log` never
assigns `logged`, so after one SET the structure has `logged = false` while
`first = last = 1`, violating the claimed invariant for log structures in
general. -/
theorem listht_logged_invariant_fails :
    (ListHT.build [⟨1, Op.SET, "a", "1"⟩]).logged = false ∧
    (ListHT.build [⟨1, Op.SET, "a", "1"⟩]).last = 1 := by
  exact ⟨by decide, by decide⟩

/-- C5 counterexample: on a `ListHT` holding SETs with ids 1 and 2
(`last = 2`), reducing over `[10, 10]` with `p > last` returns a NON-empty
command list: the binary search lands on the nearest node and the walk emits
its key states, because `GreedyListHT` never compares entry ids with `p`. -/
theorem greedyList_p_above_last_nonempty :
    (ListHT.build [⟨1, Op.SET, "a", "1"⟩, ⟨2, Op.SET, "b", "2"⟩]).last = 2 ∧
    ApplyReduceAlgoList (ListHT.build [⟨1, Op.SET, "a", "1"⟩, ⟨2, Op.SET, "b", "2"⟩]) 10 10
      = Except.ok [⟨1, Op.SET, "a", "1"⟩, ⟨2, Op.SET, "b", "2"⟩] ∧
    ([⟨1, Op.SET, "a", "1"⟩, ⟨2, Op.SET, "b", "2"⟩] : List Command) ≠ [] := by
  refine ⟨by decide, ?_, by decide⟩
  simp [ApplyReduceAlgoList, GreedyListHT, searchEntryNodeByIndex, searchLoop, findMidInList,
    ListHT.build, ListHT.Log, ListHT.init, greedyWalk, chainPhi, zeroCommand]

/-! ### ConcTable invariant lemmas (C8) -/

/-- `viewInv` together with the bound on `last` by every future command id. -/
def GoodLogs (ids : List Nat) (logs : List ViewLog) : Prop :=
  ∀ lg ∈ logs, viewInv lg ∧ (lg.logged = true → ∀ i ∈ ids, lg.last < i)

theorem viewInv_default : viewInv (default : ViewLog) := by
  constructor <;> intro h
  · simp [default] at h
  · exact ⟨rfl, rfl⟩

theorem goodLogs_mono {ids ids' : List Nat} {logs : List ViewLog}
    (hsub : ∀ i ∈ ids', i ∈ ids) (h : GoodLogs ids logs) : GoodLogs ids' logs := by
  intro lg hlg
  exact ⟨(h lg hlg).1, fun hl i hi => (h lg hlg).2 hl i (hsub i hi)⟩

theorem goodLogs_getD {ids : List Nat} {logs : List ViewLog} (h : GoodLogs ids logs) (j : Nat) :
    viewInv (logs.getD j default) ∧
    ((logs.getD j default).logged = true → ∀ i ∈ ids, (logs.getD j default).last < i) := by
  by_cases hj : j < logs.length
  · have hmem : logs.getD j default ∈ logs := by
      rw [List.getD_eq_getElem _ _ hj]
      exact List.getElem_mem hj
    exact h _ hmem
  · rw [List.getD_eq_default _ _ (by omega)]
    exact ⟨viewInv_default, fun hl => by simp [default] at hl⟩

theorem goodLogs_set {ids : List Nat} {logs : List ViewLog} {j : Nat} {lg' : ViewLog}
    (h : GoodLogs ids logs)
    (h' : viewInv lg' ∧ (lg'.logged = true → ∀ i ∈ ids, lg'.last < i)) :
    GoodLogs ids (logs.set j lg') := by
  intro lg hlg
  rcases List.mem_or_eq_of_mem_set hlg with hin | rfl
  · exact h lg hin
  · exact h'

theorem willRequire_logs_good {ids : List Nat} (ct : ConcTable) (wrt : Bool) (id : Nat)
    (h : GoodLogs ids ct.logs) :
    GoodLogs ids ((ct.willRequireReduceOnView wrt id).2).logs := by
  unfold ConcTable.willRequireReduceOnView
  split
  · exact h
  · split
    · exact h
    · have hg := goodLogs_getD h id
      simp only []
      split
      · refine goodLogs_set h ?_
        constructor
        · exact ⟨fun hl => (hg.1.1 hl), fun hl => (hg.1.2 hl)⟩
        · exact fun hl i hi => hg.2 hl i hi
      · refine goodLogs_set h ?_
        constructor
        · exact ⟨fun hl => (hg.1.1 hl), fun hl => (hg.1.2 hl)⟩
        · exact fun hl i hi => hg.2 hl i hi

theorem logCmd_logs (ct : ConcTable) (cmd : Command) :
    (ct.LogCmd cmd).logs =
      (let ct1 := (ct.willRequireReduceOnView (cmd.op = Op.SET) ct.current).2
       let lg := ct1.logs.getD ct.current default
       let lg1 := if lg.logged = false then { lg with first := cmd.id, logged := true } else lg
       ct1.logs.set ct.current { lg1 with last := cmd.id }) := by
  unfold ConcTable.LogCmd
  simp only [ConcTable.advanceCurrentView]
  split <;> rfl

theorem logCmd_good {ids : List Nat} (ct : ConcTable) (cmd : Command)
    (h : GoodLogs (cmd.id :: ids) ct.logs) (hlt : ∀ i ∈ ids, cmd.id < i) :
    GoodLogs ids (ct.LogCmd cmd).logs := by
  rw [logCmd_logs]
  simp only []
  have h1 : GoodLogs (cmd.id :: ids)
      ((ct.willRequireReduceOnView (cmd.op = Op.SET) ct.current).2).logs :=
    willRequire_logs_good ct _ _ h
  have hg := goodLogs_getD h1 ct.current
  refine goodLogs_set (goodLogs_mono (fun i hi => List.mem_cons_of_mem _ hi) h1) ?_
  by_cases hlogged :
      (((ct.willRequireReduceOnView (cmd.op = Op.SET) ct.current).2).logs.getD
        ct.current default).logged = false
  · rw [if_pos hlogged]
    constructor
    · constructor
      · intro _
        exact le_refl cmd.id
      · intro hcontra
        exact Bool.noConfusion hcontra
    · intro _ i hi
      exact hlt i hi
  · rw [if_neg hlogged]
    have hltrue :
        (((ct.willRequireReduceOnView (cmd.op = Op.SET) ct.current).2).logs.getD
          ct.current default).logged = true := by
      simpa using hlogged
    have hfl := hg.1.1 hltrue
    have hbound := hg.2 hltrue cmd.id (List.mem_cons_self _ _)
    constructor
    · constructor
      · intro _
        show (((ct.willRequireReduceOnView (cmd.op = Op.SET) ct.current).2).logs.getD
          ct.current default).first ≤ cmd.id
        omega
      · intro hcontra
        exact absurd hcontra hlogged
    · intro _ i hi
      exact hlt i hi

theorem resetView_good {ids : List Nat} (ct : ConcTable) (id : Nat)
    (h : GoodLogs ids ct.logs) :
    GoodLogs ids (ct.resetViewState id).logs := by
  unfold ConcTable.resetViewState
  refine goodLogs_set h ?_
  constructor
  · constructor
    · intro hcontra
      simp at hcontra
    · intro _
      exact ⟨rfl, rfl⟩
  · intro hcontra
    simp at hcontra

theorem reduceLog_good {ids : List Nat} (ct : ConcTable) (id : Nat)
    (h : GoodLogs ids ct.logs) :
    GoodLogs ids (ct.reduceLog id).logs := by
  unfold ConcTable.reduceLog
  split
  · simp only []
    split
    · exact h
    · exact resetView_good _ _ h
  · exact resetView_good _ _ h

theorem ct_good_aux (ops : List CTOp) :
    ∀ ct : ConcTable, GoodLogs (ctOpIds ops) ct.logs →
    (ctOpIds ops).Pairwise (· < ·) →
    ∀ lg ∈ (ConcTable.applyOps ct ops).logs, viewInv lg := by
  induction ops with
  | nil =>
    intro ct h _ lg hlg
    exact (h lg hlg).1
  | cons op ops ih =>
    intro ct h hp
    cases op with
    | log cmd =>
      have hid : ctOpIds (CTOp.log cmd :: ops) = cmd.id :: ctOpIds ops := rfl
      rw [hid] at h hp
      have hlt : ∀ i ∈ ctOpIds ops, cmd.id < i := (List.pairwise_cons.mp hp).1
      exact ih (ct.LogCmd cmd) (logCmd_good ct cmd h hlt) (List.pairwise_cons.mp hp).2
    | reduce id =>
      have hid : ctOpIds (CTOp.reduce id :: ops) = ctOpIds ops := rfl
      rw [hid] at h hp
      exact ih (ct.reduceLog id) (reduceLog_good ct id h) hp

/-- C8 (amended): for a `ConcTable` and any interleaving of producer `Log`
calls (with strictly increasing command ids) and persister reduce passes, each
view's log data always satisfies the invariant: `logged → first ≤ last` and
`¬logged → first = last = 0`.  The claim's quantification over "every
structure carrying logData" fails (see the `ListHT` counterexample: only
`ConcTable` ever assigns `logged`). -/
theorem conctable_extents_invariant (concLevel : Nat) (tick : ReduceInterval)
    (period : Nat) (ops : List CTOp)
    (hinc : (ctOpIds ops).Pairwise (· < ·)) :
    ∀ lg ∈ (ConcTable.applyOps (ConcTable.init concLevel tick period) ops).logs,
      viewInv lg := by
  apply ct_good_aux ops _ _ hinc
  intro lg hlg
  have : lg = default := List.eq_of_mem_replicate hlg
  subst this
  exact ⟨viewInv_default, fun hl => by simp [default] at hl⟩

/-- Witness for C8 (amended): two logs and a persister pass on view 0. -/
theorem conctable_extents_invariant_witness :
    viewInv ((ConcTable.applyOps (ConcTable.init 2 ReduceInterval.Delayed 0)
        [CTOp.log ⟨1, Op.SET, "a", "v"⟩, CTOp.log ⟨2, Op.GET, "a", ""⟩,
         CTOp.reduce 0]).logs.getD 0 default) :=
  conctable_extents_invariant 2 ReduceInterval.Delayed 0
    [CTOp.log ⟨1, Op.SET, "a", "v"⟩, CTOp.log ⟨2, Op.GET, "a", ""⟩, CTOp.reduce 0]
    (by simp [ctOpIds])
    ((ConcTable.applyOps (ConcTable.init 2 ReduceInterval.Delayed 0)
        [CTOp.log ⟨1, Op.SET, "a", "v"⟩, CTOp.log ⟨2, Op.GET, "a", ""⟩,
         CTOp.reduce 0]).logs.getD 0 default)
    (by decide)

/-- Witness for C3 (amended) at a concrete one-command log. -/
theorem unmarshal_eol_mandatory_witness :
    UnmarshalLogFromReader (marshalWithoutEOL [⟨3, Op.SET, "k", "v"⟩] 3 3) = none ∧
    UnmarshalLogFromReader (MarshalLogIntoWriter [⟨3, Op.SET, "k", "v"⟩] 3 3)
      = some [⟨3, Op.SET, "k", "v"⟩] ∧
    UnmarshalLogFromReader (tradLogBytes [⟨3, Op.SET, "k", "v"⟩] 3 3)
      = some [⟨3, Op.SET, "k", "v"⟩] :=
  ⟨unmarshal_eol_mandatory.1 [⟨3, Op.SET, "k", "v"⟩] 3 3 (by decide),
   unmarshal_eol_mandatory.2.1 [⟨3, Op.SET, "k", "v"⟩] 3 3 (by decide),
   unmarshal_eol_mandatory.2.2 [⟨3, Op.SET, "k", "v"⟩] 3 3 (by decide)⟩

/-! ### List/Array build characterization -/

theorem listLog_set (l : ListHT) (c : Command) (hc : c.op = Op.SET) :
    l.Log c = { entries := l.entries ++ [⟨c.id, c.key, (l.aux c.key).length⟩],
                aux := fun k => if k = c.key then l.aux c.key ++ [⟨c.id, c⟩] else l.aux k,
                logged := l.logged,
                first := if l.entries = [] then c.id else l.first,
                last := c.id } := by
  simp [ListHT.Log, hc]

theorem listLog_get (l : ListHT) (c : Command) (hc : c.op ≠ Op.SET) :
    l.Log c = { l with last := c.id } := by
  simp [ListHT.Log, hc]

theorem arrayLog_set (ar : ArrayHT) (c : Command) (hc : c.op = Op.SET) :
    ar.Log c = { arr := ar.arr ++ [⟨c.id, c.key, (ar.aux c.key).length⟩],
                 aux := fun k => if k = c.key then ar.aux c.key ++ [⟨c.id, c⟩] else ar.aux k,
                 logged := ar.logged,
                 first := if ar.arr.length = 0 then c.id else ar.first,
                 last := c.id } := by
  simp [ArrayHT.Log, hc]

theorem arrayLog_get (ar : ArrayHT) (c : Command) (hc : c.op ≠ Op.SET) :
    ar.Log c = { ar with last := c.id } := by
  simp [ArrayHT.Log, hc]

theorem listBuild_append (cmds : List Command) (c : Command) :
    ListHT.build (cmds ++ [c]) = (ListHT.build cmds).Log c := by
  unfold ListHT.build
  rw [List.foldl_append]
  rfl

theorem arrayBuild_append (cmds : List Command) (c : Command) :
    ArrayHT.build (cmds ++ [c]) = (ArrayHT.build cmds).Log c := by
  unfold ArrayHT.build
  rw [List.foldl_append]
  rfl

theorem op_beq_false (c : Command) (hc : c.op ≠ Op.SET) : (c.op == Op.SET) = false := by
  rcases hop : c.op
  · exact absurd hop hc
  · rfl

theorem setsOn_append_set (cmds : List Command) (c : Command) (hc : c.op = Op.SET) (k : String) :
    setsOn (cmds ++ [c]) k =
      setsOn cmds k ++ (if c.key = k then [c] else []) := by
  unfold setsOn
  rw [List.filter_append]
  congr 1
  by_cases hk : c.key = k <;> simp [hk, hc]

theorem setsOn_append_get (cmds : List Command) (c : Command) (hc : c.op ≠ Op.SET) (k : String) :
    setsOn (cmds ++ [c]) k = setsOn cmds k := by
  unfold setsOn
  rw [List.filter_append]
  simp [op_beq_false c hc]

theorem allSets_append_set (cmds : List Command) (c : Command) (hc : c.op = Op.SET) :
    allSets (cmds ++ [c]) = allSets cmds ++ [c] := by
  unfold allSets
  rw [List.filter_append]
  simp [hc]

theorem allSets_append_get (cmds : List Command) (c : Command) (hc : c.op ≠ Op.SET) :
    allSets (cmds ++ [c]) = allSets cmds := by
  unfold allSets
  rw [List.filter_append]
  simp [op_beq_false c hc]

theorem listBuild_aux_eq (cmds : List Command) :
    ∀ k, (ListHT.build cmds).aux k = (setsOn cmds k).map mkState := by
  induction cmds using List.reverseRecOn with
  | nil => intro k; rfl
  | append_singleton front c ih =>
    intro k
    rw [listBuild_append]
    by_cases hop : c.op = Op.SET
    · rw [listLog_set _ c hop]
      by_cases hk : k = c.key
      · subst hk
        simp only [if_pos rfl]
        rw [setsOn_append_set front c hop c.key, if_pos rfl, List.map_append, ih]
        rfl
      · simp only [if_neg hk]
        rw [setsOn_append_set front c hop k, if_neg (fun hh => hk hh.symm)]
        simp [ih]
    · rw [listLog_get _ c hop, setsOn_append_get front c hop k]
      exact ih k

theorem listBuild_entries_eq (cmds : List Command) :
    (ListHT.build cmds).entries.map (fun e => (e.ind, e.key)) =
      (allSets cmds).map (fun c => (c.id, c.key)) := by
  induction cmds using List.reverseRecOn with
  | nil => rfl
  | append_singleton front c ih =>
    rw [listBuild_append]
    by_cases hop : c.op = Op.SET
    · rw [listLog_set _ c hop, allSets_append_set front c hop]
      simp only [List.map_append, ih]
      rfl
    · rw [listLog_get _ c hop, allSets_append_get front c hop]
      exact ih

theorem listBuild_ptr (cmds : List Command) :
    ∀ e ∈ (ListHT.build cmds).entries, ∃ st tail,
      ((ListHT.build cmds).aux e.key).drop e.ptr = st :: tail ∧ st.ind = e.ind := by
  induction cmds using List.reverseRecOn with
  | nil => intro e he; exact absurd he (by simp [ListHT.build, ListHT.init])
  | append_singleton front c ih =>
    intro e he
    rw [listBuild_append] at he ⊢
    by_cases hop : c.op = Op.SET
    · rw [listLog_set _ c hop] at he ⊢
      simp only [List.mem_append, List.mem_singleton] at he
      rcases he with he | rfl
      · obtain ⟨st, tail, hdrop, hind⟩ := ih e he
        by_cases hk : e.key = c.key
        · rw [hk] at hdrop
          have hlt : e.ptr < ((ListHT.build front).aux c.key).length := by
            have := congrArg List.length hdrop
            simp [List.length_drop] at this
            omega
          refine ⟨st, tail ++ [⟨c.id, c⟩], ?_, hind⟩
          simp only []
          rw [hk, if_pos rfl, List.drop_append_of_le_length (le_of_lt hlt), hdrop]
          rfl
        · refine ⟨st, tail, ?_, hind⟩
          simp only []
          rw [if_neg hk]
          exact hdrop
      · refine ⟨⟨c.id, c⟩, [], ?_, rfl⟩
        simp [List.drop_left]

    · rw [listLog_get _ c hop] at he ⊢
      exact ih e he

theorem listBuild_last_ge (cmds : List Command) (hinc : StrictIncIds cmds) :
    ∀ c ∈ cmds, c.id ≤ (ListHT.build cmds).last := by
  intro c hc
  have hlast : ∀ (front : List Command) (c0 : Command),
      (ListHT.build (front ++ [c0])).last = c0.id := by
    intro front c0
    rw [listBuild_append]
    by_cases hop : c0.op = Op.SET
    · rw [listLog_set _ c0 hop]
    · rw [listLog_get _ c0 hop]
  rcases List.eq_nil_or_concat cmds with rfl | ⟨front, c0, rfl⟩
  · exact absurd hc (by simp)
  · simp only [List.concat_eq_append] at hc hinc ⊢
    rw [hlast front c0]
    rcases List.mem_append.mp hc with hin | hin
    · exact le_of_lt ((List.pairwise_append.mp hinc).2.2 c hin c0 (List.mem_singleton_self _))
    · rw [List.mem_singleton.mp hin]

theorem listBuild_first_le (cmds : List Command) :
    StrictIncIds cmds →
    ∀ e ∈ (ListHT.build cmds).entries, (ListHT.build cmds).first ≤ e.ind := by
  induction cmds using List.reverseRecOn with
  | nil => intro _ e he; exact absurd he (by simp [ListHT.build, ListHT.init])
  | append_singleton front c ih =>
    intro hinc e he
    have hincf : StrictIncIds front :=
      List.Pairwise.sublist (List.sublist_append_left _ _) hinc
    rw [listBuild_append] at he ⊢
    by_cases hop : c.op = Op.SET
    · rw [listLog_set _ c hop] at he ⊢
      simp only [List.mem_append, List.mem_singleton] at he
      by_cases hemp : (ListHT.build front).entries = []
      · rw [if_pos hemp]
        rcases he with he | rfl
        · rw [hemp] at he
          exact absurd he (by simp)
        · exact le_refl c.id
      · rw [if_neg hemp]
        rcases he with he | rfl
        · exact ih hincf e he
        · obtain ⟨e0, he0⟩ := List.exists_mem_of_ne_nil _ hemp
          have h1 := ih hincf e0 he0
          have h2 : (e0.ind, e0.key) ∈ (allSets front).map (fun x => (x.id, x.key)) := by
            rw [← listBuild_entries_eq]
            exact List.mem_map_of_mem _ he0
          simp only [List.mem_map] at h2
          obtain ⟨c0, hc0, hpair⟩ := h2
          have hc0mem : c0 ∈ front := List.mem_of_mem_filter hc0
          have hlt : c0.id < c.id :=
            (List.pairwise_append.mp hinc).2.2 c0 hc0mem c (List.mem_singleton_self _)
          have he0ind : e0.ind = c0.id := by
            have := congrArg Prod.fst hpair
            simpa using this.symm
          simp only []
          omega
    · rw [listLog_get _ c hop] at he ⊢
      exact ih hincf e he

theorem arrayBuild_entries_eq (cmds : List Command) :
    (ArrayHT.build cmds).arr.map (fun e => (e.ind, e.key)) =
      (allSets cmds).map (fun c => (c.id, c.key)) := by
  induction cmds using List.reverseRecOn with
  | nil => rfl
  | append_singleton front c ih =>
    rw [arrayBuild_append]
    by_cases hop : c.op = Op.SET
    · rw [arrayLog_set _ c hop, allSets_append_set front c hop]
      simp only [List.map_append, ih]
      rfl
    · rw [arrayLog_get _ c hop, allSets_append_get front c hop]
      exact ih

theorem arrayBuild_first_le (cmds : List Command) :
    StrictIncIds cmds →
    ∀ e ∈ (ArrayHT.build cmds).arr, (ArrayHT.build cmds).first ≤ e.ind := by
  induction cmds using List.reverseRecOn with
  | nil => intro _ e he; exact absurd he (by simp [ArrayHT.build, ArrayHT.init])
  | append_singleton front c ih =>
    intro hinc e he
    have hincf : StrictIncIds front :=
      List.Pairwise.sublist (List.sublist_append_left _ _) hinc
    rw [arrayBuild_append] at he ⊢
    by_cases hop : c.op = Op.SET
    · rw [arrayLog_set _ c hop] at he ⊢
      simp only [List.mem_append, List.mem_singleton] at he
      by_cases hemp : (ArrayHT.build front).arr.length = 0
      · rw [if_pos hemp]
        rcases he with he | rfl
        · rw [List.length_eq_zero.mp hemp] at he
          exact absurd he (by simp)
        · exact le_refl c.id
      · rw [if_neg hemp]
        rcases he with he | rfl
        · exact ih hincf e he
        · have hne0 : (ArrayHT.build front).arr ≠ [] := by
            intro hh
            rw [hh] at hemp
            exact hemp rfl
          obtain ⟨e0, he0⟩ := List.exists_mem_of_ne_nil _ hne0
          have h1 := ih hincf e0 he0
          have h2 : (e0.ind, e0.key) ∈ (allSets front).map (fun x => (x.id, x.key)) := by
            rw [← arrayBuild_entries_eq]
            exact List.mem_map_of_mem _ he0
          simp only [List.mem_map] at h2
          obtain ⟨c0, hc0, hpair⟩ := h2
          have hc0mem : c0 ∈ front := List.mem_of_mem_filter hc0
          have hlt : c0.id < c.id :=
            (List.pairwise_append.mp hinc).2.2 c0 hc0mem c (List.mem_singleton_self _)
          have he0ind : e0.ind = c0.id := by
            have := congrArg Prod.fst hpair
            simpa using this.symm
          simp only []
          omega
    · rw [arrayLog_get _ c hop] at he ⊢
      exact ih hincf e he

theorem greedyWalk_break (aux : stateTable) (n : Nat) (e : listEntry) (rest : List listEntry)
    (hn : n < e.ind) (vis : List String) (log : List Command) :
    greedyWalk aux n (e :: rest) vis log = log := by
  unfold greedyWalk
  rw [if_pos hn]

theorem greedyListHT_n_lt_first (cmds : List Command) (p n : Nat)
    (hinc : StrictIncIds cmds) (hn : n < (ListHT.build cmds).first) :
    GreedyListHT (ListHT.build cmds) p n = [] := by
  unfold GreedyListHT
  cases hs : searchEntryNodeByIndex (ListHT.build cmds) p with
  | none => rfl
  | some j =>
    simp only []
    cases hd : (ListHT.build cmds).entries.drop j with
    | nil => rfl
    | cons e rest =>
      have he : e ∈ (ListHT.build cmds).entries := by
        have : e ∈ (ListHT.build cmds).entries.drop j := by
          rw [hd]
          exact List.mem_cons_self _ _
        exact List.mem_of_mem_drop this
      have hfirst := listBuild_first_le cmds hinc e he
      exact greedyWalk_break _ _ _ _ (by omega) [] []

theorem greedyArrayHT_n_lt_first (cmds : List Command) (p n : Nat)
    (hinc : StrictIncIds cmds) (hn : n < (ArrayHT.build cmds).first) :
    GreedyArrayHT (ArrayHT.build cmds) p n = [] := by
  unfold GreedyArrayHT
  cases hd : (ArrayHT.build cmds).arr.drop (searchEntryPosByIndex (ArrayHT.build cmds) p) with
  | nil => rfl
  | cons e rest =>
    have he : e ∈ (ArrayHT.build cmds).arr := by
      have : e ∈ (ArrayHT.build cmds).arr.drop (searchEntryPosByIndex (ArrayHT.build cmds) p) := by
        rw [hd]
        exact List.mem_cons_self _ _
      exact List.mem_of_mem_drop this
    have hfirst := arrayBuild_first_le cmds hinc e he
    exact greedyWalk_break _ _ _ _ (by omega) [] []

/-! ### AVL rotation and insertion lemmas -/

theorem treeNodes_nil_iff (t : avlTree) : treeNodes t = [] ↔ t = avlTree.nil := by
  cases t <;> simp [treeNodes]

theorem treeIndsL_node (l : avlTree) (i : Nat) (k : String) (p h : Nat) (r : avlTree) :
    treeIndsL (avlTree.node l i k p h r) = i :: (treeIndsL l ++ treeIndsL r) := by
  simp [treeIndsL, treeNodes]

theorem rightRotate_mem (t : avlTree) :
    ∀ x, x ∈ treeNodes (rightRotate t) ↔ x ∈ treeNodes t := by
  intro x
  cases t with
  | nil => rfl
  | node l i k p h r =>
    cases l with
    | nil => rfl
    | node ll li lk lp lh gson =>
      simp only [rightRotate, treeNodes, List.mem_cons, List.mem_append]
      tauto

theorem leftRotate_mem (t : avlTree) :
    ∀ x, x ∈ treeNodes (leftRotate t) ↔ x ∈ treeNodes t := by
  intro x
  cases t with
  | nil => rfl
  | node l i k p h r =>
    cases r with
    | nil => rfl
    | node gson ri rk rp rh rr =>
      simp only [leftRotate, treeNodes, List.mem_cons, List.mem_append]
      tauto

theorem indsL_iff_of_nodes_iff {t t' : avlTree}
    (h : ∀ x, x ∈ treeNodes t' ↔ x ∈ treeNodes t) :
    ∀ j, j ∈ treeIndsL t' ↔ j ∈ treeIndsL t := by
  intro j
  simp only [treeIndsL, List.mem_map]
  constructor
  · rintro ⟨x, hx, rfl⟩
    exact ⟨x, (h x).mp hx, rfl⟩
  · rintro ⟨x, hx, rfl⟩
    exact ⟨x, (h x).mpr hx, rfl⟩

theorem rightRotate_inds (t : avlTree) :
    ∀ j, j ∈ treeIndsL (rightRotate t) ↔ j ∈ treeIndsL t :=
  indsL_iff_of_nodes_iff (rightRotate_mem t)

theorem leftRotate_inds (t : avlTree) :
    ∀ j, j ∈ treeIndsL (leftRotate t) ↔ j ∈ treeIndsL t :=
  indsL_iff_of_nodes_iff (leftRotate_mem t)

theorem rightRotate_ordered (t : avlTree) (h : Ordered t) : Ordered (rightRotate t) := by
  cases t with
  | nil => exact h
  | node l i k p hh r =>
    cases l with
    | nil => exact h
    | node ll li lk lp lh gson =>
      obtain ⟨hl, hr, hol, hor⟩ := h
      obtain ⟨hll, hgson, holl, hogson⟩ := hol
      have hli : li < i := hl li (by rw [treeIndsL_node]; exact List.mem_cons_self _ _)
      refine ⟨hll, ?_, holl, ?_, hr, hogson, hor⟩
      · intro j hj
        rw [treeIndsL_node] at hj
        rcases List.mem_cons.mp hj with rfl | hj
        · exact hli
        · rcases List.mem_append.mp hj with hj | hj
          · exact hgson j hj
          · exact lt_trans hli (hr j hj)
      · intro j hj
        refine hl j ?_
        rw [treeIndsL_node]
        exact List.mem_cons_of_mem _ (List.mem_append_right _ hj)

theorem leftRotate_ordered (t : avlTree) (h : Ordered t) : Ordered (leftRotate t) := by
  cases t with
  | nil => exact h
  | node l i k p hh r =>
    cases r with
    | nil => exact h
    | node gson ri rk rp rh rr =>
      obtain ⟨hl, hr, hol, hor⟩ := h
      obtain ⟨hgson, hrr, hogson, horr⟩ := hor
      have hri : i < ri := hr ri (by rw [treeIndsL_node]; exact List.mem_cons_self _ _)
      refine ⟨?_, hrr, ⟨hl, ?_, hol, hogson⟩, horr⟩
      · intro j hj
        rw [treeIndsL_node] at hj
        rcases List.mem_cons.mp hj with rfl | hj
        · exact hri
        · rcases List.mem_append.mp hj with hj | hj
          · exact lt_trans (hl j hj) hri
          · exact hgson j hj
      · intro j hj
        refine hr j ?_
        rw [treeIndsL_node]
        exact List.mem_cons_of_mem _ (List.mem_append_left _ hj)

theorem rebalance_mem (t : avlTree) (nInd : Nat) :
    ∀ x, x ∈ treeNodes (rebalanceInsert t nInd) ↔ x ∈ treeNodes t := by
  intro x
  cases t with
  | nil => rfl
  | node l i k p h r =>
    simp only [rebalanceInsert]
    split_ifs <;>
      simp only [rightRotate_mem, leftRotate_mem, treeNodes, List.mem_cons,
        List.mem_append] <;> tauto

theorem rebalance_ordered (t : avlTree) (hord : Ordered t) (nInd : Nat) :
    Ordered (rebalanceInsert t nInd) := by
  cases t with
  | nil => exact hord
  | node l i k p h r =>
    obtain ⟨hl, hr, hol, hor⟩ := hord
    simp only [rebalanceInsert]
    split_ifs
    · exact rightRotate_ordered _ ⟨hl, hr, hol, hor⟩
    · exact leftRotate_ordered _ ⟨hl, hr, hol, hor⟩
    · refine rightRotate_ordered _ ⟨?_, hr, leftRotate_ordered l hol, hor⟩
      intro j hj
      exact hl j ((leftRotate_inds l j).mp hj)
    · refine leftRotate_ordered _ ⟨hl, ?_, hol, rightRotate_ordered r hor⟩
      intro j hj
      exact hr j ((rightRotate_inds r j).mp hj)
    · exact ⟨hl, hr, hol, hor⟩

theorem indsL_of_insert {t9 t : avlTree} {a : Nat} {b : String} {c : Nat}
    (h : ∀ x, x ∈ treeNodes t9 ↔ x = (a, b, c) ∨ x ∈ treeNodes t) :
    ∀ j, j ∈ treeIndsL t9 ↔ j = a ∨ j ∈ treeIndsL t := by
  intro j
  simp only [treeIndsL, List.mem_map]
  constructor
  · rintro ⟨x, hx, rfl⟩
    rcases (h x).mp hx with rfl | hx2
    · exact Or.inl rfl
    · exact Or.inr ⟨x, hx2, rfl⟩
  · intro hj
    rcases hj with hj | ⟨x, hx, rfl⟩
    · exact ⟨(a, b, c), (h _).mpr (Or.inl rfl), hj.symm⟩
    · exact ⟨x, (h x).mpr (Or.inr hx), rfl⟩

theorem recurInsert_spec (nInd : Nat) (nKey : String) (nPtr : Nat) :
    ∀ t : avlTree, Ordered t → nInd ∉ treeIndsL t →
      Ordered (recurInsert t nInd nKey nPtr) ∧
      (∀ x, x ∈ treeNodes (recurInsert t nInd nKey nPtr) ↔
        x = (nInd, nKey, nPtr) ∨ x ∈ treeNodes t) := by
  intro t
  induction t with
  | nil =>
    intro _ _
    constructor
    · exact ⟨by simp [treeIndsL, treeNodes], by simp [treeIndsL, treeNodes],
        trivial, trivial⟩
    · intro x
      simp [recurInsert, treeNodes]
  | node l i k p h r ihl ihr =>
    intro hord hfresh
    have hne : nInd ≠ i := by
      intro hh
      exact hfresh (by rw [treeIndsL_node, hh]; exact List.mem_cons_self _ _)
    have hfl : nInd ∉ treeIndsL l := by
      intro hh
      exact hfresh (by
        rw [treeIndsL_node]
        exact List.mem_cons_of_mem _ (List.mem_append_left _ hh))
    have hfr : nInd ∉ treeIndsL r := by
      intro hh
      exact hfresh (by
        rw [treeIndsL_node]
        exact List.mem_cons_of_mem _ (List.mem_append_right _ hh))
    obtain ⟨hl, hr, hol, hor⟩ := hord
    simp only [recurInsert]
    by_cases h1 : nInd < i
    · rw [if_pos h1]
      obtain ⟨hOl, hMl⟩ := ihl hol hfl
      have hIl := indsL_of_insert hMl
      constructor
      · refine rebalance_ordered _ ?_ nInd
        refine ⟨?_, hr, hOl, hor⟩
        intro j hj
        rcases (hIl j).mp hj with rfl | hj2
        · exact h1
        · exact hl j hj2
      · intro x
        rw [rebalance_mem]
        simp only [treeNodes, List.mem_cons, List.mem_append, hMl x]
        tauto
    · rw [if_neg h1]
      have h2 : i < nInd := by omega
      rw [if_pos h2]
      obtain ⟨hOr, hMr⟩ := ihr hor hfr
      have hIr := indsL_of_insert hMr
      constructor
      · refine rebalance_ordered _ ?_ nInd
        refine ⟨hl, ?_, hol, hOr⟩
        intro j hj
        rcases (hIr j).mp hj with rfl | hj2
        · exact h2
        · exact hr j hj2
      · intro x
        rw [rebalance_mem]
        simp only [treeNodes, List.mem_cons, List.mem_append, hMr x]
        tauto

/-! ### AVL build invariant -/

theorem avlBuild_append (front : List Command) (c : Command) :
    AVLTreeHT.build (front ++ [c]) = (AVLTreeHT.Log (AVLTreeHT.build front) c).1 := by
  unfold AVLTreeHT.build
  rw [List.foldl_append]
  rfl

theorem avlLog_get (av : AVLTreeHT) (c : Command) (hop : c.op ≠ Op.SET) :
    AVLTreeHT.Log av c = ({ av with last := c.id }, none) := by
  unfold AVLTreeHT.Log
  rw [if_pos hop]

theorem avlLog_set_nil (av : AVLTreeHT) (c : Command) (hop : c.op = Op.SET)
    (hroot : av.root = .nil) :
    AVLTreeHT.Log av c =
      ({ av with
          aux := fun k => if k = c.key then av.aux c.key ++ [⟨c.id, c⟩] else av.aux k,
          root := .node .nil c.id c.key ((av.aux c.key).length) 1 .nil,
          len := av.len + 1,
          first := c.id,
          last := c.id }, none) := by
  simp only [AVLTreeHT.Log, AVLTreeHT.insert, hroot, hop, ne_eq, not_true_eq_false,
    if_false]

theorem avlLog_set_node (av : AVLTreeHT) (c : Command) (hop : c.op = Op.SET)
    (l : avlTree) (i : Nat) (k0 : String) (p0 h0 : Nat) (r : avlTree)
    (hroot : av.root = .node l i k0 p0 h0 r)
    (hnn : recurInsert (.node l i k0 p0 h0 r) c.id c.key ((av.aux c.key).length) ≠ .nil) :
    AVLTreeHT.Log av c =
      ({ av with
          aux := fun k => if k = c.key then av.aux c.key ++ [⟨c.id, c⟩] else av.aux k,
          root := recurInsert (.node l i k0 p0 h0 r) c.id c.key ((av.aux c.key).length),
          len := av.len + 1,
          last := c.id }, none) := by
  simp only [AVLTreeHT.Log, AVLTreeHT.insert, hroot, hop, ne_eq, not_true_eq_false,
    if_false]
  rw [if_neg hnn]

theorem avlBuild_wf (cmds : List Command) :
    StrictIncIds cmds → AvlWF cmds (AVLTreeHT.build cmds) := by
  induction cmds using List.reverseRecOn with
  | nil =>
    intro _
    exact ⟨trivial, fun k => rfl,
      fun x hx => absurd hx (by simp [AVLTreeHT.build, AVLTreeHT.init, treeNodes]),
      fun c hc => absurd hc (by simp [allSets]),
      fun x hx => absurd hx (by simp [AVLTreeHT.build, AVLTreeHT.init, treeNodes]),
      fun c hc => absurd hc (by simp [allSets]),
      fun c hc => absurd hc (List.not_mem_nil c), rfl⟩
  | append_singleton front c ih =>
    intro hinc
    have hinc2 : (front ++ [c]).Pairwise (fun a b => a.id < b.id) := hinc
    obtain ⟨hincf, -, hlt0⟩ := List.pairwise_append.mp hinc2
    have hlt : ∀ c0 ∈ front, c0.id < c.id := fun c0 hm => hlt0 c0 hm c (by simp)
    obtain ⟨o1, o2, o3, o4, o5, o6, o7, o8⟩ := ih hincf
    rw [avlBuild_append]
    by_cases hop : c.op = Op.SET
    · cases hroot : (AVLTreeHT.build front).root with
      | nil =>
        rw [avlLog_set_nil _ _ hop hroot]
        refine ⟨?_, ?_, ?_, ?_, ?_, ?_, ?_, ?_⟩
        · exact ⟨by simp [treeIndsL, treeNodes], by simp [treeIndsL, treeNodes],
            trivial, trivial⟩
        · intro k
          rw [setsOn_append_set _ _ hop k]
          show (if k = c.key then (AVLTreeHT.build front).aux c.key ++ [⟨c.id, c⟩]
            else (AVLTreeHT.build front).aux k) = _
          by_cases hk : k = c.key
          · subst hk
            simp [o2, mkState]
          · rw [if_neg hk, if_neg (fun hh => hk hh.symm)]
            simp [o2]
        · intro x hx
          rw [allSets_append_set _ _ hop]
          simp only [treeNodes, List.append_nil, List.mem_cons,
            List.not_mem_nil, or_false] at hx
          subst hx
          exact ⟨c, List.mem_append_right _ (by simp), rfl, rfl⟩
        · rw [allSets_append_set _ _ hop]
          intro c0 hc0
          rcases List.mem_append.mp hc0 with hc0 | hc0
          · obtain ⟨x, hx, -⟩ := o4 c0 hc0
            rw [hroot] at hx
            exact absurd hx (by simp [treeNodes])
          · rw [List.mem_singleton.mp hc0]
            exact ⟨(c.id, c.key, ((AVLTreeHT.build front).aux c.key).length),
              by simp [treeNodes], rfl, rfl⟩
        · intro x hx
          simp only [treeNodes, List.append_nil, List.mem_cons,
            List.not_mem_nil, or_false] at hx
          subst hx
          refine ⟨⟨c.id, c⟩, [], ?_, rfl⟩
          show (if c.key = c.key then (AVLTreeHT.build front).aux c.key ++ [⟨c.id, c⟩]
            else (AVLTreeHT.build front).aux c.key).drop
              ((AVLTreeHT.build front).aux c.key).length = _
          rw [if_pos rfl, List.drop_left]
        · rw [allSets_append_set _ _ hop]
          intro c0 hc0
          rcases List.mem_append.mp hc0 with hc0 | hc0
          · obtain ⟨x, hx, -⟩ := o4 c0 hc0
            rw [hroot] at hx
            exact absurd hx (by simp [treeNodes])
          · rw [List.mem_singleton.mp hc0]
        · intro c0 hc0
          rcases List.mem_append.mp hc0 with hc0 | hc0
          · exact le_of_lt (hlt c0 hc0)
          · rw [List.mem_singleton.mp hc0]
        · rw [allSets_append_set _ _ hop]
          simp [o8]
      | node l i k0 p0 h0 r =>
        have hfresh : c.id ∉ treeIndsL (avlTree.node l i k0 p0 h0 r) := by
          intro hj
          simp only [treeIndsL, List.mem_map] at hj
          obtain ⟨x, hx, hx1⟩ := hj
          obtain ⟨c1, hc1, he1, -⟩ := o3 x (by rw [hroot]; exact hx)
          have := hlt c1 (List.mem_of_mem_filter hc1)
          omega
        obtain ⟨hT2o, hT2m⟩ := recurInsert_spec c.id c.key
          (((AVLTreeHT.build front).aux c.key).length) (avlTree.node l i k0 p0 h0 r)
          (hroot ▸ o1) hfresh
        have hnn : recurInsert (avlTree.node l i k0 p0 h0 r) c.id c.key
            (((AVLTreeHT.build front).aux c.key).length) ≠ .nil := by
          intro hE
          have := (hT2m (c.id, c.key, (((AVLTreeHT.build front).aux c.key).length))).mpr
            (Or.inl rfl)
          rw [hE] at this
          exact absurd this (by simp [treeNodes])
        rw [avlLog_set_node _ _ hop _ _ _ _ _ _ hroot hnn]
        refine ⟨hT2o, ?_, ?_, ?_, ?_, ?_, ?_, ?_⟩
        · intro k
          rw [setsOn_append_set _ _ hop k]
          show (if k = c.key then (AVLTreeHT.build front).aux c.key ++ [⟨c.id, c⟩]
            else (AVLTreeHT.build front).aux k) = _
          by_cases hk : k = c.key
          · subst hk
            simp [o2, mkState]
          · rw [if_neg hk, if_neg (fun hh => hk hh.symm)]
            simp [o2]
        · intro x hx
          rw [allSets_append_set _ _ hop]
          rcases (hT2m x).mp hx with rfl | hx2
          · exact ⟨c, List.mem_append_right _ (by simp), rfl, rfl⟩
          · obtain ⟨c1, hc1, he⟩ := o3 x (by rw [hroot]; exact hx2)
            exact ⟨c1, List.mem_append_left _ hc1, he⟩
        · rw [allSets_append_set _ _ hop]
          intro c0 hc0
          rcases List.mem_append.mp hc0 with hc0 | hc0
          · obtain ⟨x, hx, he⟩ := o4 c0 hc0
            rw [hroot] at hx
            exact ⟨x, (hT2m x).mpr (Or.inr hx), he⟩
          · rw [List.mem_singleton.mp hc0]
            exact ⟨(c.id, c.key, (((AVLTreeHT.build front).aux c.key).length)),
              (hT2m _).mpr (Or.inl rfl), rfl, rfl⟩
        · intro x hx
          rcases (hT2m x).mp hx with rfl | hx2
          · refine ⟨⟨c.id, c⟩, [], ?_, rfl⟩
            show (if c.key = c.key then (AVLTreeHT.build front).aux c.key ++ [⟨c.id, c⟩]
              else (AVLTreeHT.build front).aux c.key).drop
                ((AVLTreeHT.build front).aux c.key).length = _
            rw [if_pos rfl, List.drop_left]
          · obtain ⟨st0, tl0, hdrop, hind⟩ := o5 x (by rw [hroot]; exact hx2)
            by_cases hk : x.2.1 = c.key
            · have hlen : x.2.2 < ((AVLTreeHT.build front).aux x.2.1).length := by
                by_contra hge
                rw [List.drop_eq_nil_of_le (by omega)] at hdrop
                exact List.noConfusion hdrop
              refine ⟨st0, tl0 ++ [⟨c.id, c⟩], ?_, hind⟩
              show (if x.2.1 = c.key then (AVLTreeHT.build front).aux c.key ++ [⟨c.id, c⟩]
                else (AVLTreeHT.build front).aux x.2.1).drop x.2.2 = _
              rw [if_pos hk, ← hk, List.drop_append_of_le_length (le_of_lt hlen), hdrop]
              simp
            · refine ⟨st0, tl0, ?_, hind⟩
              show (if x.2.1 = c.key then (AVLTreeHT.build front).aux c.key ++ [⟨c.id, c⟩]
                else (AVLTreeHT.build front).aux x.2.1).drop x.2.2 = _
              rw [if_neg hk]
              exact hdrop
        · rw [allSets_append_set _ _ hop]
          intro c0 hc0
          rcases List.mem_append.mp hc0 with hc0 | hc0
          · exact o6 c0 hc0
          · rw [List.mem_singleton.mp hc0]
            obtain ⟨c1, hc1, -, -⟩ := o3 (i, k0, p0)
              (by rw [hroot]; exact List.mem_cons_self _ _)
            have h1 := o6 c1 hc1
            have h2 := hlt c1 (List.mem_of_mem_filter hc1)
            show (AVLTreeHT.build front).first ≤ c.id
            omega
        · intro c0 hc0
          rcases List.mem_append.mp hc0 with hc0 | hc0
          · exact le_of_lt (hlt c0 hc0)
          · rw [List.mem_singleton.mp hc0]
        · rw [allSets_append_set _ _ hop]
          simp [o8]
    · rw [avlLog_get _ _ hop]
      refine ⟨o1, ?_, ?_, ?_, o5, ?_, ?_, ?_⟩
      · intro k
        rw [setsOn_append_get _ _ hop]
        exact o2 k
      · rw [allSets_append_get _ _ hop]
        exact o3
      · rw [allSets_append_get _ _ hop]
        exact o4
      · rw [allSets_append_get _ _ hop]
        exact o6
      · intro c0 hc0
        rcases List.mem_append.mp hc0 with hc0 | hc0
        · exact le_of_lt (hlt c0 hc0)
        · rw [List.mem_singleton.mp hc0]
      · rw [allSets_append_get _ _ hop]
        exact o8

theorem greedyRecur_empty (aux : stateTable) (p n : Nat) :
    ∀ t : avlTree, (∀ i ∈ treeIndsL t, i < p ∨ n < i) →
      ∀ vis log, greedyRecur aux p n t vis log = (vis, log) := by
  intro t
  induction t with
  | nil => intro _ vis log; rfl
  | node l i k ptr h r ihl ihr =>
    intro hout vis log
    have hi := hout i (by rw [treeIndsL_node]; exact List.mem_cons_self _ _)
    have hl2 : ∀ j ∈ treeIndsL l, j < p ∨ n < j := fun j hj =>
      hout j (by
        rw [treeIndsL_node]
        exact List.mem_cons_of_mem _ (List.mem_append_left _ hj))
    have hr2 : ∀ j ∈ treeIndsL r, j < p ∨ n < j := fun j hj =>
      hout j (by
        rw [treeIndsL_node]
        exact List.mem_cons_of_mem _ (List.mem_append_right _ hj))
    have hcond : ¬(k ∉ vis ∧ p ≤ i ∧ i ≤ n) := by
      rintro ⟨-, h2, h3⟩
      omega
    simp only [greedyRecur, if_neg hcond]
    split_ifs <;> simp [ihl hl2, ihr hr2]

theorem avlBuild_bounds (cmds : List Command) (hinc : StrictIncIds cmds) :
    ∀ j ∈ treeIndsL (AVLTreeHT.build cmds).root,
      (AVLTreeHT.build cmds).first ≤ j ∧ j ≤ (AVLTreeHT.build cmds).last := by
  obtain ⟨-, -, o3, -, -, o6, o7, -⟩ := avlBuild_wf cmds hinc
  intro j hj
  simp only [treeIndsL, List.mem_map] at hj
  obtain ⟨x, hx, rfl⟩ := hj
  obtain ⟨c1, hc1, he1, -⟩ := o3 x hx
  rw [he1]
  exact ⟨o6 c1 hc1, o7 c1 (List.mem_of_mem_filter hc1)⟩

/-- C5: the spec's out-of-range emptiness happens as stated only for the AVL
reducer; on `ListHT`/`ArrayHT` the `p > last` half fails (see the
counterexample), so the amended claim keeps both disjuncts for the AVL reducer
and only `n < first` for the list and array reducers. -/
theorem reduce_out_of_range_empty :
    (∀ (cmds : List Command) (p n : Nat), StrictIncIds cmds →
      1 ≤ (AVLTreeHT.build cmds).len →
      ((AVLTreeHT.build cmds).last < p ∨ n < (AVLTreeHT.build cmds).first) →
      ApplyReduceAlgoAvl (AVLTreeHT.build cmds) p n = Except.ok []) ∧
    (∀ (cmds : List Command) (p n : Nat), StrictIncIds cmds →
      1 ≤ (ListHT.build cmds).entries.length → n < (ListHT.build cmds).first →
      ApplyReduceAlgoList (ListHT.build cmds) p n = Except.ok []) ∧
    (∀ (cmds : List Command) (p n : Nat), StrictIncIds cmds →
      1 ≤ (ArrayHT.build cmds).arr.length → n < (ArrayHT.build cmds).first →
      ApplyReduceAlgoArray (ArrayHT.build cmds) p n = Except.ok []) := by
  refine ⟨?_, ?_, ?_⟩
  · intro cmds p n hinc hlen hrange
    have hout : ∀ i ∈ treeIndsL (AVLTreeHT.build cmds).root, i < p ∨ n < i := by
      intro i hi
      obtain ⟨h1, h2⟩ := avlBuild_bounds cmds hinc i hi
      omega
    unfold ApplyReduceAlgoAvl
    rw [if_neg (by omega)]
    unfold GreedyAVLTreeHT
    rw [greedyRecur_empty _ _ _ _ hout [] []]
  · intro cmds p n hinc hlen hn
    unfold ApplyReduceAlgoList
    rw [if_neg (by omega), greedyListHT_n_lt_first cmds p n hinc hn]
  · intro cmds p n hinc hlen hn
    unfold ApplyReduceAlgoArray
    rw [if_neg (by omega), greedyArrayHT_n_lt_first cmds p n hinc hn]

theorem reduce_out_of_range_empty_witness :
    ApplyReduceAlgoAvl
      (AVLTreeHT.build [⟨1, Op.SET, "a", "1"⟩, ⟨2, Op.SET, "b", "2"⟩]) 5 6
      = Except.ok [] ∧
    ApplyReduceAlgoList
      (ListHT.build [⟨1, Op.SET, "a", "1"⟩, ⟨2, Op.SET, "b", "2"⟩]) 0 0
      = Except.ok [] ∧
    ApplyReduceAlgoArray
      (ArrayHT.build [⟨1, Op.SET, "a", "1"⟩, ⟨2, Op.SET, "b", "2"⟩]) 0 0
      = Except.ok [] :=
  ⟨reduce_out_of_range_empty.1 [⟨1, Op.SET, "a", "1"⟩, ⟨2, Op.SET, "b", "2"⟩] 5 6
      (by unfold StrictIncIds; decide) (by decide) (by decide),
   reduce_out_of_range_empty.2.1 [⟨1, Op.SET, "a", "1"⟩, ⟨2, Op.SET, "b", "2"⟩] 0 0
      (by unfold StrictIncIds; decide) (by decide) (by decide),
   reduce_out_of_range_empty.2.2 [⟨1, Op.SET, "a", "1"⟩, ⟨2, Op.SET, "b", "2"⟩] 0 0
      (by unfold StrictIncIds; decide) (by decide) (by decide)⟩

/-! ### Traversal characterization (C4) -/

theorem treeNodes_node_mem_left {x : Nat × String × Nat} {l : avlTree} {i : Nat}
    {k : String} {ptr h : Nat} {r : avlTree} (hx : x ∈ treeNodes l) :
    x ∈ treeNodes (avlTree.node l i k ptr h r) :=
  List.mem_cons_of_mem _ (List.mem_append_left _ hx)

theorem treeNodes_node_mem_right {x : Nat × String × Nat} {l : avlTree} {i : Nat}
    {k : String} {ptr h : Nat} {r : avlTree} (hx : x ∈ treeNodes r) :
    x ∈ treeNodes (avlTree.node l i k ptr h r) :=
  List.mem_cons_of_mem _ (List.mem_append_right _ hx)

/-- One pruned step of the greedy AVL walk: a guarded recursive call either
recurses (and the subtree characterization applies) or skips a subtree whose
indexes are all out of `[p, n]`. -/
theorem greedyStep (aux : stateTable) (p n : Nat) (canon : String → Command)
    (t : avlTree)
    (ih : ∀ vis log, ∃ ks : List String,
      greedyRecur aux p n t vis log = (ks.reverse ++ vis, log ++ ks.map canon) ∧
      ks.Nodup ∧
      (∀ k2, k2 ∈ ks ↔ k2 ∉ vis ∧
        ∃ x ∈ treeNodes t, x.2.1 = k2 ∧ p ≤ x.1 ∧ x.1 ≤ n))
    (cond : Prop) [Decidable cond]
    (hcond : ¬cond → ∀ x ∈ treeNodes t, ¬(p ≤ x.1 ∧ x.1 ≤ n)) :
    ∀ vis log, ∃ ks : List String,
      (if cond then greedyRecur aux p n t vis log else (vis, log)) =
        (ks.reverse ++ vis, log ++ ks.map canon) ∧
      ks.Nodup ∧
      (∀ k2, k2 ∈ ks ↔ k2 ∉ vis ∧
        ∃ x ∈ treeNodes t, x.2.1 = k2 ∧ p ≤ x.1 ∧ x.1 ≤ n) := by
  intro vis log
  by_cases hc : cond
  · rw [if_pos hc]
    exact ih vis log
  · rw [if_neg hc]
    refine ⟨[], by simp, List.nodup_nil, fun k2 => ?_⟩
    simp only [List.not_mem_nil, false_iff]
    rintro ⟨-, x, hx, -, hpx, hnx⟩
    exact hcond hc x hx ⟨hpx, hnx⟩

theorem greedyRecur_char (aux : stateTable) (p n : Nat) (canon : String → Command) :
    ∀ t : avlTree, Ordered t →
      (∀ x ∈ treeNodes t, p ≤ x.1 → x.1 ≤ n →
        chainPhi ((aux x.2.1).drop x.2.2) n = canon x.2.1) →
      ∀ vis log, ∃ ks : List String,
        greedyRecur aux p n t vis log = (ks.reverse ++ vis, log ++ ks.map canon) ∧
        ks.Nodup ∧
        (∀ k2, k2 ∈ ks ↔ k2 ∉ vis ∧
          ∃ x ∈ treeNodes t, x.2.1 = k2 ∧ p ≤ x.1 ∧ x.1 ≤ n) := by
  intro t
  induction t with
  | nil =>
    intro _ _ vis log
    exact ⟨[], by simp [greedyRecur], List.nodup_nil, fun k2 => by simp [treeNodes]⟩
  | node l i k ptr h r ihl ihr =>
    intro hord hcanon vis log
    obtain ⟨hordl1, hordr1, hordl, hordr⟩ := hord
    have hcanonL : ∀ x ∈ treeNodes l, p ≤ x.1 → x.1 ≤ n →
        chainPhi ((aux x.2.1).drop x.2.2) n = canon x.2.1 :=
      fun x hx => hcanon x (treeNodes_node_mem_left hx)
    have hcanonR : ∀ x ∈ treeNodes r, p ≤ x.1 → x.1 ≤ n →
        chainPhi ((aux x.2.1).drop x.2.2) n = canon x.2.1 :=
      fun x hx => hcanon x (treeNodes_node_mem_right hx)
    have hcondL : ¬(p < i) → ∀ x ∈ treeNodes l, ¬(p ≤ x.1 ∧ x.1 ≤ n) := by
      intro hnp x hx hin
      have := hordl1 x.1 (List.mem_map_of_mem _ hx)
      omega
    have hcondR : ¬(i < n) → ∀ x ∈ treeNodes r, ¬(p ≤ x.1 ∧ x.1 ≤ n) := by
      intro hnn x hx hin
      have := hordr1 x.1 (List.mem_map_of_mem _ hx)
      omega
    by_cases hc0 : k ∉ vis ∧ p ≤ i ∧ i ≤ n
    · have hck : chainPhi ((aux k).drop ptr) n = canon k :=
        hcanon (i, k, ptr) (List.mem_cons_self _ _) hc0.2.1 hc0.2.2
      simp only [greedyRecur, if_pos hc0, hck]
      obtain ⟨ksl, heql, hndl, hmeml⟩ :=
        greedyStep aux p n canon l (ihl hordl hcanonL) (p < i) hcondL
          (k :: vis) (log ++ [canon k])
      rw [heql]
      simp only []
      obtain ⟨ksr, heqr, hndr, hmemr⟩ :=
        greedyStep aux p n canon r (ihr hordr hcanonR) (i < n) hcondR
          (ksl.reverse ++ (k :: vis)) ((log ++ [canon k]) ++ ksl.map canon)
      rw [heqr]
      refine ⟨k :: (ksl ++ ksr), ?_, ?_, ?_⟩
      · simp [List.reverse_cons, List.reverse_append, List.map_append,
          List.append_assoc]
      · have hknl : k ∉ ksl := fun hkm => ((hmeml k).mp hkm).1 (List.mem_cons_self _ _)
        have hknr : k ∉ ksr := fun hkm => ((hmemr k).mp hkm).1 (by simp)
        have hdisj : ∀ a ∈ ksl, a ∉ ksr := fun a ha har =>
          ((hmemr a).mp har).1 (List.mem_append_left _ (List.mem_reverse.mpr ha))
        refine List.nodup_cons.mpr ⟨?_, List.Nodup.append hndl hndr hdisj⟩
        simp [hknl, hknr]
      · intro k2
        constructor
        · intro hk2
          rcases List.mem_cons.mp hk2 with rfl | hk2
          · exact ⟨hc0.1, (i, k2, ptr), List.mem_cons_self _ _, rfl, hc0.2.1, hc0.2.2⟩
          · rcases List.mem_append.mp hk2 with hk2 | hk2
            · obtain ⟨hnv, x, hx, hkey, hp2, hn2⟩ := (hmeml k2).mp hk2
              exact ⟨fun hv => hnv (List.mem_cons_of_mem _ hv), x,
                treeNodes_node_mem_left hx, hkey, hp2, hn2⟩
            · obtain ⟨hnv, x, hx, hkey, hp2, hn2⟩ := (hmemr k2).mp hk2
              exact ⟨fun hv => hnv (List.mem_append_right _
                  (List.mem_cons_of_mem _ hv)), x,
                treeNodes_node_mem_right hx, hkey, hp2, hn2⟩
        · rintro ⟨hnv, x, hx, hkey, hp2, hn2⟩
          have hx2 : x ∈ (i, k, ptr) :: (treeNodes l ++ treeNodes r) := hx
          rcases List.mem_cons.mp hx2 with hx0 | hx1
          · refine List.mem_cons.mpr (Or.inl ?_)
            rw [hx0] at hkey
            exact hkey.symm
          · rcases List.mem_append.mp hx1 with hxl | hxr
            · by_cases hkk : k2 = k
              · exact List.mem_cons.mpr (Or.inl hkk)
              · refine List.mem_cons_of_mem _ (List.mem_append_left _ ?_)
                refine (hmeml k2).mpr ⟨?_, x, hxl, hkey, hp2, hn2⟩
                intro hm
                rcases List.mem_cons.mp hm with hm | hm
                · exact hkk hm
                · exact hnv hm
            · by_cases hkk : k2 = k
              · exact List.mem_cons.mpr (Or.inl hkk)
              · by_cases hkl : k2 ∈ ksl
                · exact List.mem_cons_of_mem _ (List.mem_append_left _ hkl)
                · refine List.mem_cons_of_mem _ (List.mem_append_right _ ?_)
                  refine (hmemr k2).mpr ⟨?_, x, hxr, hkey, hp2, hn2⟩
                  intro hm
                  rcases List.mem_append.mp hm with hm | hm
                  · exact hkl (List.mem_reverse.mp hm)
                  · rcases List.mem_cons.mp hm with hm | hm
                    · exact hkk hm
                    · exact hnv hm
    · simp only [greedyRecur, if_neg hc0]
      obtain ⟨ksl, heql, hndl, hmeml⟩ :=
        greedyStep aux p n canon l (ihl hordl hcanonL) (p < i) hcondL vis log
      rw [heql]
      simp only []
      obtain ⟨ksr, heqr, hndr, hmemr⟩ :=
        greedyStep aux p n canon r (ihr hordr hcanonR) (i < n) hcondR
          (ksl.reverse ++ vis) (log ++ ksl.map canon)
      rw [heqr]
      refine ⟨ksl ++ ksr, ?_, ?_, ?_⟩
      · simp [List.reverse_append, List.map_append, List.append_assoc]
      · exact List.Nodup.append hndl hndr (fun a ha har =>
          ((hmemr a).mp har).1 (List.mem_append_left _ (List.mem_reverse.mpr ha)))
      · intro k2
        constructor
        · intro hk2
          rcases List.mem_append.mp hk2 with hk2 | hk2
          · obtain ⟨hnv, x, hx, hkey, hp2, hn2⟩ := (hmeml k2).mp hk2
            exact ⟨hnv, x, treeNodes_node_mem_left hx, hkey, hp2, hn2⟩
          · obtain ⟨hnv, x, hx, hkey, hp2, hn2⟩ := (hmemr k2).mp hk2
            exact ⟨fun hv => hnv (List.mem_append_right _ hv), x,
              treeNodes_node_mem_right hx, hkey, hp2, hn2⟩
        · rintro ⟨hnv, x, hx, hkey, hp2, hn2⟩
          have hx2 : x ∈ (i, k, ptr) :: (treeNodes l ++ treeNodes r) := hx
          rcases List.mem_cons.mp hx2 with hx0 | hx1
          · exfalso
            have hk2k : k = k2 := by rw [hx0] at hkey; exact hkey
            have hip : p ≤ i := by rw [hx0] at hp2; exact hp2
            have hin : i ≤ n := by rw [hx0] at hn2; exact hn2
            exact hc0 ⟨fun hkv => hnv (hk2k ▸ hkv), hip, hin⟩
          · rcases List.mem_append.mp hx1 with hxl | hxr
            · exact List.mem_append_left _
                ((hmeml k2).mpr ⟨hnv, x, hxl, hkey, hp2, hn2⟩)
            · by_cases hkl : k2 ∈ ksl
              · exact List.mem_append_left _ hkl
              · refine List.mem_append_right _ ?_
                refine (hmemr k2).mpr ⟨?_, x, hxr, hkey, hp2, hn2⟩
                intro hm
                rcases List.mem_append.mp hm with hm | hm
                · exact hkl (List.mem_reverse.mp hm)
                · exact hnv hm

theorem ne_nil_of_mem_nodes {x : Nat × String × Nat} {t : avlTree}
    (hx : x ∈ treeNodes t) : t ≠ avlTree.nil := by
  intro h0
  rw [h0] at hx
  exact absurd hx (by simp [treeNodes])

theorem takeWhile_append_all {α : Type} (p : α → Bool) (a b : List α)
    (h : ∀ x ∈ a, p x = true) :
    (a ++ b).takeWhile p = a ++ b.takeWhile p := by
  induction a with
  | nil => rfl
  | cons x xs ih =>
    rw [List.cons_append, List.takeWhile_cons_of_pos (h x (List.mem_cons_self _ _)),
      ih (fun y hy => h y (List.mem_cons_of_mem _ hy)), List.cons_append]

theorem chainPhi_drop_eq (chain : List State) (ptr : Nat) (st : State)
    (tail : List State) (n : Nat) (hsplit : chain.drop ptr = st :: tail)
    (hinc : chain.Pairwise (fun a b => a.ind < b.ind)) (hst : st.ind ≤ n) :
    chainPhi (chain.drop ptr) n = chainPhi chain n := by
  have hchain : chain = chain.take ptr ++ (st :: tail) := by
    rw [← hsplit, List.take_append_drop]
  have hpw := hchain ▸ hinc
  have hall : ∀ x ∈ chain.take ptr, (decide (x.ind ≤ n)) = true := by
    intro x hx
    have hxs : x.ind < st.ind :=
      (List.pairwise_append.mp hpw).2.2 x hx st (List.mem_cons_self _ _)
    simp only [decide_eq_true_eq]
    omega
  have h2 : (st :: tail).takeWhile (fun s => decide (s.ind ≤ n)) ≠ [] := by
    rw [List.takeWhile_cons_of_pos (by simp only [decide_eq_true_eq]; omega)]
    exact List.cons_ne_nil _ _
  unfold chainPhi
  rw [hsplit]
  conv_rhs => rw [hchain]
  rw [takeWhile_append_all _ _ _ hall, List.getLast?_append_of_ne_nil _ h2]

theorem chainPhi_mem_key (chain : List State) (n : Nat) (k : String)
    (hkeys : ∀ st ∈ chain, st.cmd.key = k)
    (hne : chain.takeWhile (fun st => st.ind ≤ n) ≠ []) :
    (chainPhi chain n).key = k := by
  unfold chainPhi
  cases hG : (chain.takeWhile (fun st => st.ind ≤ n)).getLast? with
  | none => exact absurd (List.getLast?_eq_none_iff.mp hG) hne
  | some st =>
    have h1 : st ∈ chain.takeWhile (fun st => decide (st.ind ≤ n)) :=
      List.mem_of_getLast?_eq_some hG
    exact hkeys st (List.takeWhile_subset _ h1)

theorem takeWhile_ne_nil_of_le (n : Nat) (chain : List State)
    (hp : chain.Pairwise (fun a b => a.ind < b.ind)) (st : State)
    (hmem : st ∈ chain) (hle : st.ind ≤ n) :
    chain.takeWhile (fun s => s.ind ≤ n) ≠ [] := by
  cases chain with
  | nil => exact absurd hmem (List.not_mem_nil st)
  | cons a tl =>
    have ha : a.ind ≤ n := by
      rcases List.mem_cons.mp hmem with rfl | hm
      · exact hle
      · have := (List.pairwise_cons.mp hp).1 st hm
        omega
    rw [List.takeWhile_cons_of_pos (by simp only [decide_eq_true_eq]; omega)]
    exact List.cons_ne_nil _ _

theorem iterBFSLoop_char (aux : stateTable) (p n : Nat) (canon : String → Command) :
    ∀ (N : Nat) (queue : List avlTree), (queue.map treeSize).sum ≤ N →
      (∀ t ∈ queue, QueueInv aux p n canon t) →
      ∀ vis log, ∃ ks : List String,
        iterBFSLoop aux p n queue vis log = some (log ++ ks.map canon) ∧
        ks.Nodup ∧
        (∀ k2, k2 ∈ ks ↔ k2 ∉ vis ∧
          ∃ t ∈ queue, ∃ x ∈ treeNodes t, x.2.1 = k2 ∧ p ≤ x.1 ∧ x.1 ≤ n) := by
  intro N
  induction N with
  | zero =>
    intro queue hsz hq vis log
    cases queue with
    | nil =>
      exact ⟨[], by simp [iterBFSLoop], List.nodup_nil, fun k2 => by simp⟩
    | cons t rest =>
      exfalso
      obtain ⟨hne, -, -⟩ := hq t (List.mem_cons_self _ _)
      cases t with
      | nil => exact hne rfl
      | node l i k ptr h r =>
        simp [treeSize] at hsz
  | succ N ih =>
    intro queue hsz hq vis log
    cases queue with
    | nil =>
      exact ⟨[], by simp [iterBFSLoop], List.nodup_nil, fun k2 => by simp⟩
    | cons t rest =>
      obtain ⟨hne, hordt, hcanont⟩ := hq t (List.mem_cons_self _ _)
      cases t with
      | nil => exact absurd rfl hne
      | node l i k ptr h r =>
        obtain ⟨hordl1, hordr1, hordl, hordr⟩ := hordt
        have hcanonL : ∀ x ∈ treeNodes l, p ≤ x.1 → x.1 ≤ n →
            chainPhi ((aux x.2.1).drop x.2.2) n = canon x.2.1 :=
          fun x hx => hcanont x (treeNodes_node_mem_left hx)
        have hcanonR : ∀ x ∈ treeNodes r, p ≤ x.1 → x.1 ≤ n →
            chainPhi ((aux x.2.1).drop x.2.2) n = canon x.2.1 :=
          fun x hx => hcanont x (treeNodes_node_mem_right hx)
        have hsz2 : treeSize l + treeSize r + (rest.map treeSize).sum ≤ N := by
          simp only [List.map_cons, List.sum_cons, treeSize] at hsz
          omega
        simp only [iterBFSLoop]
        generalize hQ :
          (if i < n ∧ r ≠ avlTree.nil then
            (if p < i ∧ l ≠ avlTree.nil then rest ++ [l] else rest) ++ [r]
          else if p < i ∧ l ≠ avlTree.nil then rest ++ [l] else rest) = Q
        have hQsub : ∀ t2 ∈ Q,
            t2 ∈ rest ∨ (t2 = l ∧ p < i ∧ l ≠ avlTree.nil) ∨
              (t2 = r ∧ i < n ∧ r ≠ avlTree.nil) := by
          intro t2 ht2
          rw [← hQ] at ht2
          clear hQ
          split_ifs at ht2 with h1 h2 h3
          all_goals
            first
            | (simp only [List.mem_append, List.mem_singleton] at ht2; tauto)
            | tauto
        have hQrest : ∀ t2 ∈ rest, t2 ∈ Q := by
          intro t2 ht2
          rw [← hQ]
          split_ifs <;> simp [ht2]
        have hQl : p < i → l ≠ avlTree.nil → l ∈ Q := by
          intro h1 h2
          rw [← hQ]
          split_ifs with hA hB hC
          · exact List.mem_append_left _ (List.mem_append_right _ (List.mem_cons_self _ _))
          · exact absurd ⟨h1, h2⟩ hB
          · exact List.mem_append_right _ (List.mem_cons_self _ _)
          · exact absurd ⟨h1, h2⟩ hC
        have hQr : i < n → r ≠ avlTree.nil → r ∈ Q := by
          intro h1 h2
          rw [← hQ]
          split_ifs with hA hB
          · exact List.mem_append_right _ (List.mem_cons_self _ _)
          · exact List.mem_append_right _ (List.mem_cons_self _ _)
          · exact absurd ⟨h1, h2⟩ hA
          · exact absurd ⟨h1, h2⟩ hA
        have hQsz : (Q.map treeSize).sum ≤ N := by
          rw [← hQ]
          split_ifs
          all_goals
            first
            | (simp only [List.map_append, List.sum_append, List.map_cons,
                List.sum_cons, List.map_nil, List.sum_nil]; omega)
            | omega
        have hQinv : ∀ t2 ∈ Q, QueueInv aux p n canon t2 := by
          intro t2 ht2
          rcases hQsub t2 ht2 with h2 | ⟨rfl, -, hnl⟩ | ⟨rfl, -, hnr⟩
          · exact hq t2 (List.mem_cons_of_mem _ h2)
          · exact ⟨hnl, hordl, hcanonL⟩
          · exact ⟨hnr, hordr, hcanonR⟩
        by_cases hc0 : k ∉ vis ∧ p ≤ i ∧ i ≤ n
        · have hck : chainPhi ((aux k).drop ptr) n = canon k :=
            hcanont (i, k, ptr) (List.mem_cons_self _ _) hc0.2.1 hc0.2.2
          simp only [if_pos hc0, hck]
          obtain ⟨ks2, heq2, hnd2, hmem2⟩ :=
            ih Q hQsz hQinv (k :: vis) (log ++ [canon k])
          rw [heq2]
          refine ⟨k :: ks2, by simp, ?_, ?_⟩
          · exact List.nodup_cons.mpr
              ⟨fun hkm => ((hmem2 k).mp hkm).1 (List.mem_cons_self _ _), hnd2⟩
          · intro k2
            constructor
            · intro hk2
              rcases List.mem_cons.mp hk2 with rfl | hk2
              · exact ⟨hc0.1, _, List.mem_cons_self _ _, (i, k2, ptr),
                  List.mem_cons_self _ _, rfl, hc0.2.1, hc0.2.2⟩
              · obtain ⟨hnv, t2, ht2, x, hx, hkey, hp2, hn2⟩ := (hmem2 k2).mp hk2
                rcases hQsub t2 ht2 with h2 | ⟨rfl, -, -⟩ | ⟨rfl, -, -⟩
                · exact ⟨fun hv => hnv (List.mem_cons_of_mem _ hv), t2,
                    List.mem_cons_of_mem _ h2, x, hx, hkey, hp2, hn2⟩
                · exact ⟨fun hv => hnv (List.mem_cons_of_mem _ hv), _,
                    List.mem_cons_self _ _, x, treeNodes_node_mem_left hx,
                    hkey, hp2, hn2⟩
                · exact ⟨fun hv => hnv (List.mem_cons_of_mem _ hv), _,
                    List.mem_cons_self _ _, x, treeNodes_node_mem_right hx,
                    hkey, hp2, hn2⟩
            · rintro ⟨hnv, t2, ht2, x, hx, hkey, hp2, hn2⟩
              by_cases hkk : k2 = k
              · exact List.mem_cons.mpr (Or.inl hkk)
              · have hnv1 : k2 ∉ k :: vis := by
                  intro hm
                  rcases List.mem_cons.mp hm with hm | hm
                  · exact hkk hm
                  · exact hnv hm
                refine List.mem_cons_of_mem _ ?_
                rcases List.mem_cons.mp ht2 with rfl | ht2
                · have hx2 : x ∈ (i, k, ptr) :: (treeNodes l ++ treeNodes r) := hx
                  rcases List.mem_cons.mp hx2 with hx0 | hx1
                  · exfalso
                    rw [hx0] at hkey
                    exact hkk hkey.symm
                  · rcases List.mem_append.mp hx1 with hxl | hxr
                    · refine (hmem2 k2).mpr ⟨hnv1, l, ?_, x, hxl, hkey, hp2, hn2⟩
                      refine hQl ?_ (ne_nil_of_mem_nodes hxl)
                      have := hordl1 x.1 (List.mem_map_of_mem _ hxl)
                      omega
                    · refine (hmem2 k2).mpr ⟨hnv1, r, ?_, x, hxr, hkey, hp2, hn2⟩
                      refine hQr ?_ (ne_nil_of_mem_nodes hxr)
                      have := hordr1 x.1 (List.mem_map_of_mem _ hxr)
                      omega
                · exact (hmem2 k2).mpr ⟨hnv1, t2, hQrest t2 ht2, x, hx, hkey, hp2, hn2⟩
        · simp only [if_neg hc0]
          obtain ⟨ks2, heq2, hnd2, hmem2⟩ := ih Q hQsz hQinv vis log
          rw [heq2]
          refine ⟨ks2, rfl, hnd2, ?_⟩
          intro k2
          constructor
          · intro hk2
            obtain ⟨hnv, t2, ht2, x, hx, hkey, hp2, hn2⟩ := (hmem2 k2).mp hk2
            rcases hQsub t2 ht2 with h2 | ⟨rfl, -, -⟩ | ⟨rfl, -, -⟩
            · exact ⟨hnv, t2, List.mem_cons_of_mem _ h2, x, hx, hkey, hp2, hn2⟩
            · exact ⟨hnv, _, List.mem_cons_self _ _, x,
                treeNodes_node_mem_left hx, hkey, hp2, hn2⟩
            · exact ⟨hnv, _, List.mem_cons_self _ _, x,
                treeNodes_node_mem_right hx, hkey, hp2, hn2⟩
          · rintro ⟨hnv, t2, ht2, x, hx, hkey, hp2, hn2⟩
            rcases List.mem_cons.mp ht2 with rfl | ht2
            · have hx2 : x ∈ (i, k, ptr) :: (treeNodes l ++ treeNodes r) := hx
              rcases List.mem_cons.mp hx2 with hx0 | hx1
              · exfalso
                have hk2k : k = k2 := by rw [hx0] at hkey; exact hkey
                have hip : p ≤ i := by rw [hx0] at hp2; exact hp2
                have hin : i ≤ n := by rw [hx0] at hn2; exact hn2
                exact hc0 ⟨fun hkv => hnv (hk2k ▸ hkv), hip, hin⟩
              · rcases List.mem_append.mp hx1 with hxl | hxr
                · refine (hmem2 k2).mpr ⟨hnv, l, ?_, x, hxl, hkey, hp2, hn2⟩
                  refine hQl ?_ (ne_nil_of_mem_nodes hxl)
                  have := hordl1 x.1 (List.mem_map_of_mem _ hxl)
                  omega
                · refine (hmem2 k2).mpr ⟨hnv, r, ?_, x, hxr, hkey, hp2, hn2⟩
                  refine hQr ?_ (ne_nil_of_mem_nodes hxr)
                  have := hordr1 x.1 (List.mem_map_of_mem _ hxr)
                  omega
            · exact (hmem2 k2).mpr ⟨hnv, t2, hQrest t2 ht2, x, hx, hkey, hp2, hn2⟩

theorem iterDFSLoop_concat (aux : stateTable) (p n : Nat) (front0 : List avlTree)
    (l : avlTree) (i : Nat) (k : String) (ptr ht : Nat) (r : avlTree)
    (vis : List String) (log : List Command) :
    iterDFSLoop aux p n (front0 ++ [avlTree.node l i k ptr ht r]) vis log =
      (let s1 := if k ∉ vis ∧ p ≤ i ∧ i ≤ n
        then (k :: vis, log ++ [chainPhi ((aux k).drop ptr) n]) else (vis, log)
       let q1 := if p < i ∧ l ≠ avlTree.nil then front0 ++ [l] else front0
       let q2 := if i < n ∧ r ≠ avlTree.nil then q1 ++ [r] else q1
       iterDFSLoop aux p n q2 s1.1 s1.2) := by
  rw [iterDFSLoop]
  split
  · next heq => exact absurd heq (by simp [List.getLast?_concat])
  · next heq =>
    rw [List.getLast?_concat] at heq
    exact absurd heq.symm (by simp)
  · next l2 i2 k2 ptr2 ht2 r2 heq =>
    rw [List.getLast?_concat] at heq
    simp only [Option.some.injEq, avlTree.node.injEq] at heq
    obtain ⟨h1, h2, h3, h4, h5, h6⟩ := heq
    subst h1; subst h2; subst h3; subst h4; subst h5; subst h6
    simp only [List.dropLast_concat]

theorem iterDFSLoop_char (aux : stateTable) (p n : Nat) (canon : String → Command) :
    ∀ (N : Nat) (queue : List avlTree), (queue.map treeSize).sum ≤ N →
      (∀ t ∈ queue, QueueInv aux p n canon t) →
      ∀ vis log, ∃ ks : List String,
        iterDFSLoop aux p n queue vis log = some (log ++ ks.map canon) ∧
        ks.Nodup ∧
        (∀ k2, k2 ∈ ks ↔ k2 ∉ vis ∧
          ∃ t ∈ queue, ∃ x ∈ treeNodes t, x.2.1 = k2 ∧ p ≤ x.1 ∧ x.1 ≤ n) := by
  intro N
  induction N with
  | zero =>
    intro queue hsz hq vis log
    rcases List.eq_nil_or_concat queue with rfl | ⟨front0, t, rfl⟩
    · exact ⟨[], by simp [iterDFSLoop], List.nodup_nil, fun k2 => by simp⟩
    · simp only [List.concat_eq_append] at hsz hq ⊢
      exfalso
      obtain ⟨hne, -, -⟩ := hq t (List.mem_append_right _ (List.mem_cons_self _ _))
      cases t with
      | nil => exact hne rfl
      | node l i k ptr h r =>
        simp [treeSize, List.sum_append] at hsz
  | succ N ih =>
    intro queue hsz hq vis log
    rcases List.eq_nil_or_concat queue with rfl | ⟨front0, t, rfl⟩
    · exact ⟨[], by simp [iterDFSLoop], List.nodup_nil, fun k2 => by simp⟩
    · simp only [List.concat_eq_append] at hsz hq ⊢
      obtain ⟨hne, hordt, hcanont⟩ :=
        hq t (List.mem_append_right _ (List.mem_cons_self _ _))
      cases t with
      | nil => exact absurd rfl hne
      | node l i k ptr h r =>
        obtain ⟨hordl1, hordr1, hordl, hordr⟩ := hordt
        have hcanonL : ∀ x ∈ treeNodes l, p ≤ x.1 → x.1 ≤ n →
            chainPhi ((aux x.2.1).drop x.2.2) n = canon x.2.1 :=
          fun x hx => hcanont x (treeNodes_node_mem_left hx)
        have hcanonR : ∀ x ∈ treeNodes r, p ≤ x.1 → x.1 ≤ n →
            chainPhi ((aux x.2.1).drop x.2.2) n = canon x.2.1 :=
          fun x hx => hcanont x (treeNodes_node_mem_right hx)
        have hsz2 : treeSize l + treeSize r + (front0.map treeSize).sum ≤ N := by
          simp only [List.map_append, List.sum_append, List.map_cons,
            List.sum_cons, List.map_nil, List.sum_nil, treeSize] at hsz
          omega
        rw [iterDFSLoop_concat]
        simp only []
        generalize hQ :
          (if i < n ∧ r ≠ avlTree.nil then
            (if p < i ∧ l ≠ avlTree.nil then front0 ++ [l] else front0) ++ [r]
          else if p < i ∧ l ≠ avlTree.nil then front0 ++ [l] else front0) = Q
        have hQsub : ∀ t2 ∈ Q,
            t2 ∈ front0 ∨ (t2 = l ∧ p < i ∧ l ≠ avlTree.nil) ∨
              (t2 = r ∧ i < n ∧ r ≠ avlTree.nil) := by
          intro t2 ht2
          rw [← hQ] at ht2
          clear hQ
          split_ifs at ht2 with h1 h2 h3
          all_goals
            first
            | (simp only [List.mem_append, List.mem_singleton] at ht2; tauto)
            | tauto
        have hQrest : ∀ t2 ∈ front0, t2 ∈ Q := by
          intro t2 ht2
          rw [← hQ]
          split_ifs <;> simp [ht2]
        have hQl : p < i → l ≠ avlTree.nil → l ∈ Q := by
          intro h1 h2
          rw [← hQ]
          split_ifs with hA hB hC
          · exact List.mem_append_left _ (List.mem_append_right _ (List.mem_cons_self _ _))
          · exact absurd ⟨h1, h2⟩ hB
          · exact List.mem_append_right _ (List.mem_cons_self _ _)
          · exact absurd ⟨h1, h2⟩ hC
        have hQr : i < n → r ≠ avlTree.nil → r ∈ Q := by
          intro h1 h2
          rw [← hQ]
          split_ifs with hA hB
          · exact List.mem_append_right _ (List.mem_cons_self _ _)
          · exact List.mem_append_right _ (List.mem_cons_self _ _)
          · exact absurd ⟨h1, h2⟩ hA
          · exact absurd ⟨h1, h2⟩ hA
        have hQsz : (Q.map treeSize).sum ≤ N := by
          rw [← hQ]
          split_ifs
          all_goals
            first
            | (simp only [List.map_append, List.sum_append, List.map_cons,
                List.sum_cons, List.map_nil, List.sum_nil]; omega)
            | omega
        have hQinv : ∀ t2 ∈ Q, QueueInv aux p n canon t2 := by
          intro t2 ht2
          rcases hQsub t2 ht2 with h2 | ⟨rfl, -, hnl⟩ | ⟨rfl, -, hnr⟩
          · exact hq t2 (List.mem_append_left _ h2)
          · exact ⟨hnl, hordl, hcanonL⟩
          · exact ⟨hnr, hordr, hcanonR⟩
        have hmemt : avlTree.node l i k ptr h r ∈ front0 ++ [avlTree.node l i k ptr h r] :=
          List.mem_append_right _ (List.mem_cons_self _ _)
        by_cases hc0 : k ∉ vis ∧ p ≤ i ∧ i ≤ n
        · have hck : chainPhi ((aux k).drop ptr) n = canon k :=
            hcanont (i, k, ptr) (List.mem_cons_self _ _) hc0.2.1 hc0.2.2
          simp only [if_pos hc0, hck]
          obtain ⟨ks2, heq2, hnd2, hmem2⟩ :=
            ih Q hQsz hQinv (k :: vis) (log ++ [canon k])
          rw [heq2]
          refine ⟨k :: ks2, by simp, ?_, ?_⟩
          · exact List.nodup_cons.mpr
              ⟨fun hkm => ((hmem2 k).mp hkm).1 (List.mem_cons_self _ _), hnd2⟩
          · intro k2
            constructor
            · intro hk2
              rcases List.mem_cons.mp hk2 with rfl | hk2
              · exact ⟨hc0.1, _, hmemt, (i, k2, ptr),
                  List.mem_cons_self _ _, rfl, hc0.2.1, hc0.2.2⟩
              · obtain ⟨hnv, t2, ht2, x, hx, hkey, hp2, hn2⟩ := (hmem2 k2).mp hk2
                rcases hQsub t2 ht2 with h2 | ⟨rfl, -, -⟩ | ⟨rfl, -, -⟩
                · exact ⟨fun hv => hnv (List.mem_cons_of_mem _ hv), t2,
                    List.mem_append_left _ h2, x, hx, hkey, hp2, hn2⟩
                · exact ⟨fun hv => hnv (List.mem_cons_of_mem _ hv), _,
                    hmemt, x, treeNodes_node_mem_left hx, hkey, hp2, hn2⟩
                · exact ⟨fun hv => hnv (List.mem_cons_of_mem _ hv), _,
                    hmemt, x, treeNodes_node_mem_right hx, hkey, hp2, hn2⟩
            · rintro ⟨hnv, t2, ht2, x, hx, hkey, hp2, hn2⟩
              by_cases hkk : k2 = k
              · exact List.mem_cons.mpr (Or.inl hkk)
              · have hnv1 : k2 ∉ k :: vis := by
                  intro hm
                  rcases List.mem_cons.mp hm with hm | hm
                  · exact hkk hm
                  · exact hnv hm
                refine List.mem_cons_of_mem _ ?_
                rcases List.mem_append.mp ht2 with ht2 | ht2
                · exact (hmem2 k2).mpr ⟨hnv1, t2, hQrest t2 ht2, x, hx, hkey, hp2, hn2⟩
                · rw [List.mem_singleton.mp ht2] at hx
                  have hx2 : x ∈ (i, k, ptr) :: (treeNodes l ++ treeNodes r) := hx
                  rcases List.mem_cons.mp hx2 with hx0 | hx1
                  · exfalso
                    rw [hx0] at hkey
                    exact hkk hkey.symm
                  · rcases List.mem_append.mp hx1 with hxl | hxr
                    · refine (hmem2 k2).mpr ⟨hnv1, l, ?_, x, hxl, hkey, hp2, hn2⟩
                      refine hQl ?_ (ne_nil_of_mem_nodes hxl)
                      have := hordl1 x.1 (List.mem_map_of_mem _ hxl)
                      omega
                    · refine (hmem2 k2).mpr ⟨hnv1, r, ?_, x, hxr, hkey, hp2, hn2⟩
                      refine hQr ?_ (ne_nil_of_mem_nodes hxr)
                      have := hordr1 x.1 (List.mem_map_of_mem _ hxr)
                      omega
        · simp only [if_neg hc0]
          obtain ⟨ks2, heq2, hnd2, hmem2⟩ := ih Q hQsz hQinv vis log
          rw [heq2]
          refine ⟨ks2, rfl, hnd2, ?_⟩
          intro k2
          constructor
          · intro hk2
            obtain ⟨hnv, t2, ht2, x, hx, hkey, hp2, hn2⟩ := (hmem2 k2).mp hk2
            rcases hQsub t2 ht2 with h2 | ⟨rfl, -, -⟩ | ⟨rfl, -, -⟩
            · exact ⟨hnv, t2, List.mem_append_left _ h2, x, hx, hkey, hp2, hn2⟩
            · exact ⟨hnv, _, hmemt, x, treeNodes_node_mem_left hx, hkey, hp2, hn2⟩
            · exact ⟨hnv, _, hmemt, x, treeNodes_node_mem_right hx, hkey, hp2, hn2⟩
          · rintro ⟨hnv, t2, ht2, x, hx, hkey, hp2, hn2⟩
            rcases List.mem_append.mp ht2 with ht2 | ht2
            · exact (hmem2 k2).mpr ⟨hnv, t2, hQrest t2 ht2, x, hx, hkey, hp2, hn2⟩
            · rw [List.mem_singleton.mp ht2] at hx
              have hx2 : x ∈ (i, k, ptr) :: (treeNodes l ++ treeNodes r) := hx
              rcases List.mem_cons.mp hx2 with hx0 | hx1
              · exfalso
                have hk2k : k = k2 := by rw [hx0] at hkey; exact hkey
                have hip : p ≤ i := by rw [hx0] at hp2; exact hp2
                have hin : i ≤ n := by rw [hx0] at hn2; exact hn2
                exact hc0 ⟨fun hkv => hnv (hk2k ▸ hkv), hip, hin⟩
              · rcases List.mem_append.mp hx1 with hxl | hxr
                · refine (hmem2 k2).mpr ⟨hnv, l, ?_, x, hxl, hkey, hp2, hn2⟩
                  refine hQl ?_ (ne_nil_of_mem_nodes hxl)
                  have := hordl1 x.1 (List.mem_map_of_mem _ hxl)
                  omega
                · refine (hmem2 k2).mpr ⟨hnv, r, ?_, x, hxr, hkey, hp2, hn2⟩
                  refine hQr ?_ (ne_nil_of_mem_nodes hxr)
                  have := hordr1 x.1 (List.mem_map_of_mem _ hxr)
                  omega

/-- C4: on every AVLTreeHT built from a strictly-increasing log with at least
one SET, the greedy, BFS and DFS reducers agree: the BFS and DFS loops return
`some` lists, every output has at most one command per key, and the three
outputs contain exactly the same commands (hence the same keys with the same
command per key). -/
theorem avl_reducers_equivalent (cmds : List Command) (p n : Nat)
    (hinc : StrictIncIds cmds) (hlen : 1 ≤ (AVLTreeHT.build cmds).len) :
    ∃ bfs dfs : List Command,
      IterBFSAVLTreeHT (AVLTreeHT.build cmds) p n = some bfs ∧
      IterDFSAVLTreeHT (AVLTreeHT.build cmds) p n = some dfs ∧
      ((GreedyAVLTreeHT (AVLTreeHT.build cmds) p n).map Command.key).Nodup ∧
      (bfs.map Command.key).Nodup ∧
      (dfs.map Command.key).Nodup ∧
      (∀ c, c ∈ bfs ↔ c ∈ GreedyAVLTreeHT (AVLTreeHT.build cmds) p n) ∧
      (∀ c, c ∈ dfs ↔ c ∈ GreedyAVLTreeHT (AVLTreeHT.build cmds) p n) := by
  obtain ⟨o1, o2, o3, o4, o5, o6, o7, o8⟩ := avlBuild_wf cmds hinc
  have hAS : allSets cmds ≠ [] := by
    intro h0
    rw [h0] at o8
    simp at o8
    omega
  obtain ⟨c0, hc0⟩ := List.exists_mem_of_ne_nil _ hAS
  obtain ⟨x0, hx0, -⟩ := o4 c0 hc0
  have hroot_ne : (AVLTreeHT.build cmds).root ≠ avlTree.nil := ne_nil_of_mem_nodes hx0
  have hpair : ∀ k, ((AVLTreeHT.build cmds).aux k).Pairwise
      (fun a b => a.ind < b.ind) := by
    intro k
    rw [o2 k, List.pairwise_map]
    exact List.Pairwise.sublist (List.filter_sublist _) hinc
  have hcanon : ∀ x ∈ treeNodes (AVLTreeHT.build cmds).root, p ≤ x.1 → x.1 ≤ n →
      chainPhi (((AVLTreeHT.build cmds).aux x.2.1).drop x.2.2) n
        = (fun k => chainPhi ((AVLTreeHT.build cmds).aux k) n) x.2.1 := by
    intro x hx hp2 hn2
    obtain ⟨st, tail, hsplit, hind⟩ := o5 x hx
    exact chainPhi_drop_eq _ _ st tail n hsplit (hpair _) (by omega)
  obtain ⟨ksg, hgeq, hgnd, hgmem⟩ :=
    greedyRecur_char (AVLTreeHT.build cmds).aux p n
      (fun k => chainPhi ((AVLTreeHT.build cmds).aux k) n)
      (AVLTreeHT.build cmds).root o1 hcanon [] []
  have hG : GreedyAVLTreeHT (AVLTreeHT.build cmds) p n =
      ksg.map (fun k => chainPhi ((AVLTreeHT.build cmds).aux k) n) := by
    unfold GreedyAVLTreeHT
    rw [hgeq]
    simp
  have hqi : ∀ t ∈ [(AVLTreeHT.build cmds).root],
      QueueInv (AVLTreeHT.build cmds).aux p n
        (fun k => chainPhi ((AVLTreeHT.build cmds).aux k) n) t := by
    intro t ht
    rw [List.mem_singleton] at ht
    subst ht
    exact ⟨hroot_ne, o1, hcanon⟩
  obtain ⟨ksb, hbeq, hbnd, hbmem⟩ :=
    iterBFSLoop_char (AVLTreeHT.build cmds).aux p n
      (fun k => chainPhi ((AVLTreeHT.build cmds).aux k) n)
      (treeSize (AVLTreeHT.build cmds).root) [(AVLTreeHT.build cmds).root]
      (by simp) hqi [] []
  obtain ⟨ksd, hdeq, hdnd, hdmem⟩ :=
    iterDFSLoop_char (AVLTreeHT.build cmds).aux p n
      (fun k => chainPhi ((AVLTreeHT.build cmds).aux k) n)
      (treeSize (AVLTreeHT.build cmds).root) [(AVLTreeHT.build cmds).root]
      (by simp) hqi [] []
  have hgP : ∀ k2, k2 ∈ ksg ↔
      ∃ x ∈ treeNodes (AVLTreeHT.build cmds).root, x.2.1 = k2 ∧ p ≤ x.1 ∧ x.1 ≤ n := by
    intro k2
    rw [hgmem k2]
    simp
  have hbP : ∀ k2, k2 ∈ ksb ↔
      ∃ x ∈ treeNodes (AVLTreeHT.build cmds).root, x.2.1 = k2 ∧ p ≤ x.1 ∧ x.1 ≤ n := by
    intro k2
    rw [hbmem k2]
    simp
  have hdP : ∀ k2, k2 ∈ ksd ↔
      ∃ x ∈ treeNodes (AVLTreeHT.build cmds).root, x.2.1 = k2 ∧ p ≤ x.1 ∧ x.1 ≤ n := by
    intro k2
    rw [hdmem k2]
    simp
  have hkey : ∀ k2,
      (∃ x ∈ treeNodes (AVLTreeHT.build cmds).root, x.2.1 = k2 ∧ p ≤ x.1 ∧ x.1 ≤ n) →
      (chainPhi ((AVLTreeHT.build cmds).aux k2) n).key = k2 := by
    rintro k2 ⟨x, hx, hkx, hp2, hn2⟩
    obtain ⟨st, tail, hsplit, hind⟩ := o5 x hx
    have hmemst : st ∈ (AVLTreeHT.build cmds).aux x.2.1 := by
      have h1 : st ∈ ((AVLTreeHT.build cmds).aux x.2.1).drop x.2.2 := by
        rw [hsplit]
        exact List.mem_cons_self _ _
      exact (List.drop_sublist _ _).subset h1
    rw [← hkx]
    apply chainPhi_mem_key
    · intro st2 hst2
      rw [o2] at hst2
      obtain ⟨c1, hc1, rfl⟩ := List.mem_map.mp hst2
      have h2 := (List.mem_filter.mp hc1).2
      simp only [Bool.and_eq_true, beq_iff_eq] at h2
      exact h2.2
    · exact takeWhile_ne_nil_of_le n _ (hpair _) st hmemst (by omega)
  have hkeymap : ∀ ks : List String,
      (∀ k2 ∈ ks, (chainPhi ((AVLTreeHT.build cmds).aux k2) n).key = k2) →
      ((ks.map (fun k => chainPhi ((AVLTreeHT.build cmds).aux k) n)).map
        Command.key) = ks := by
    intro ks hk
    rw [List.map_map]
    conv_rhs => rw [← List.map_id ks]
    exact List.map_congr_left (fun a ha => hk a ha)
  refine ⟨ksb.map (fun k => chainPhi ((AVLTreeHT.build cmds).aux k) n),
    ksd.map (fun k => chainPhi ((AVLTreeHT.build cmds).aux k) n),
    ?_, ?_, ?_, ?_, ?_, ?_, ?_⟩
  · unfold IterBFSAVLTreeHT
    rw [hbeq]
    simp
  · unfold IterDFSAVLTreeHT
    rw [hdeq]
    simp
  · rw [hG, hkeymap ksg (fun k2 hk2 => hkey k2 ((hgP k2).mp hk2))]
    exact hgnd
  · rw [hkeymap ksb (fun k2 hk2 => hkey k2 ((hbP k2).mp hk2))]
    exact hbnd
  · rw [hkeymap ksd (fun k2 hk2 => hkey k2 ((hdP k2).mp hk2))]
    exact hdnd
  · intro c
    rw [hG]
    simp only [List.mem_map]
    constructor
    · rintro ⟨k2, hk2, rfl⟩
      exact ⟨k2, (hgP k2).mpr ((hbP k2).mp hk2), rfl⟩
    · rintro ⟨k2, hk2, rfl⟩
      exact ⟨k2, (hbP k2).mpr ((hgP k2).mp hk2), rfl⟩
  · intro c
    rw [hG]
    simp only [List.mem_map]
    constructor
    · rintro ⟨k2, hk2, rfl⟩
      exact ⟨k2, (hgP k2).mpr ((hdP k2).mp hk2), rfl⟩
    · rintro ⟨k2, hk2, rfl⟩
      exact ⟨k2, (hdP k2).mpr ((hgP k2).mp hk2), rfl⟩

theorem avl_reducers_equivalent_witness :
    StrictIncIds [⟨1, Op.SET, "a", "1"⟩, ⟨2, Op.SET, "b", "2"⟩] ∧
    1 ≤ (AVLTreeHT.build [⟨1, Op.SET, "a", "1"⟩, ⟨2, Op.SET, "b", "2"⟩]).len ∧
    (∃ bfs dfs : List Command,
      IterBFSAVLTreeHT
        (AVLTreeHT.build [⟨1, Op.SET, "a", "1"⟩, ⟨2, Op.SET, "b", "2"⟩]) 1 2
        = some bfs ∧
      IterDFSAVLTreeHT
        (AVLTreeHT.build [⟨1, Op.SET, "a", "1"⟩, ⟨2, Op.SET, "b", "2"⟩]) 1 2
        = some dfs ∧
      ((GreedyAVLTreeHT
        (AVLTreeHT.build [⟨1, Op.SET, "a", "1"⟩, ⟨2, Op.SET, "b", "2"⟩]) 1 2).map
          Command.key).Nodup ∧
      (bfs.map Command.key).Nodup ∧
      (dfs.map Command.key).Nodup ∧
      (∀ c, c ∈ bfs ↔ c ∈ GreedyAVLTreeHT
        (AVLTreeHT.build [⟨1, Op.SET, "a", "1"⟩, ⟨2, Op.SET, "b", "2"⟩]) 1 2) ∧
      (∀ c, c ∈ dfs ↔ c ∈ GreedyAVLTreeHT
        (AVLTreeHT.build [⟨1, Op.SET, "a", "1"⟩, ⟨2, Op.SET, "b", "2"⟩]) 1 2)) :=
  ⟨by unfold StrictIncIds; decide, by decide,
    avl_reducers_equivalent [⟨1, Op.SET, "a", "1"⟩, ⟨2, Op.SET, "b", "2"⟩] 1 2
      (by unfold StrictIncIds; decide) (by decide)⟩

/-- On the empty structure (no SET logged, root nil) the claim fails: the
iterative traversals pop the nil root and dereference it (`none` in the
model, a panic in Go), while the greedy reducer returns `[]`; so pairwise
equivalence needs the tree to be non-empty. -/
theorem iterBFS_empty_tree_none :
    IterBFSAVLTreeHT (AVLTreeHT.build []) 0 0 = none ∧
    IterDFSAVLTreeHT (AVLTreeHT.build []) 0 0 = none ∧
    GreedyAVLTreeHT (AVLTreeHT.build []) 0 0 = [] := by
  refine ⟨?_, ?_, rfl⟩
  · simp [IterBFSAVLTreeHT, iterBFSLoop, AVLTreeHT.build, AVLTreeHT.init]
  · simp [IterDFSAVLTreeHT, iterDFSLoop, AVLTreeHT.build, AVLTreeHT.init]

/-! ### Execution lemmas (C1) -/

theorem applyCmds_key (cs : List Command) (store : String → Option String)
    (k : String) :
    applyCmds cs store k =
      match (setsOn cs k).getLast? with
      | some c => some c.value
      | none => store k := by
  induction cs using List.reverseRecOn generalizing store with
  | nil => rfl
  | append_singleton front c ih =>
    unfold applyCmds
    rw [List.foldl_append]
    show applyCmd (applyCmds front store) c k = _
    unfold applyCmd
    by_cases hop : c.op = Op.SET
    · rw [if_pos hop]
      by_cases hk : k = c.key
      · rw [if_pos hk, setsOn_append_set front c hop k, if_pos hk.symm]
        rw [List.getLast?_concat]
      · rw [if_neg hk, setsOn_append_set front c hop k,
          if_neg (fun hh => hk hh.symm), List.append_nil]
        exact ih store
    · rw [if_neg hop, setsOn_append_get front c hop k]
      exact ih store

theorem rawInterval_setsOn (cmds : List Command) (p n : Nat) (k : String) :
    setsOn (rawInterval cmds p n) k =
      (setsOn cmds k).filter (fun c => p ≤ c.id && c.id ≤ n) := by
  unfold setsOn rawInterval
  rw [List.filter_comm]

theorem rawInterval_all (cmds : List Command) (p n : Nat)
    (hcov : ∀ c ∈ cmds, p ≤ c.id ∧ c.id ≤ n) :
    rawInterval cmds p n = cmds := by
  unfold rawInterval
  rw [List.filter_eq_self]
  intro c hc
  obtain ⟨h1, h2⟩ := hcov c hc
  simp [h1, h2]

theorem takeWhile_eq_filter_sorted (n : Nat) :
    ∀ chain : List State, chain.Pairwise (fun a b => a.ind < b.ind) →
      chain.takeWhile (fun st => st.ind ≤ n) =
        chain.filter (fun st => st.ind ≤ n) := by
  intro chain
  induction chain with
  | nil => intro _; rfl
  | cons a tl ih =>
    intro hp
    obtain ⟨ha, htl⟩ := List.pairwise_cons.mp hp
    by_cases han : a.ind ≤ n
    · rw [List.takeWhile_cons_of_pos (by simpa), List.filter_cons_of_pos (by simpa),
        ih htl]
    · rw [List.takeWhile_cons_of_neg (by simp only [decide_eq_true_eq]; omega),
        List.filter_cons_of_neg (by simp only [decide_eq_true_eq]; omega)]
      symm
      rw [List.filter_eq_nil_iff]
      intro st hst
      have := ha st hst
      simp only [decide_eq_true_eq]
      omega

theorem getLast_filter_interval (p n : Nat) :
    ∀ S : List Command, S.Pairwise (fun a b => a.id < b.id) →
      (∃ c ∈ S, p ≤ c.id ∧ c.id ≤ n) →
      (S.filter (fun c => decide (c.id ≤ n))).getLast? =
        (S.filter (fun c => p ≤ c.id && c.id ≤ n)).getLast? := by
  intro S
  induction S using List.reverseRecOn with
  | nil => rintro - ⟨c, hc, -⟩; exact absurd hc (List.not_mem_nil c)
  | append_singleton front c ih =>
    rintro hp ⟨c1, hc1, hp1, hn1⟩
    have hp2 : front.Pairwise (fun a b => a.id < b.id) :=
      (List.pairwise_append.mp hp).1
    have hlt : ∀ c0 ∈ front, c0.id < c.id :=
      fun c0 h0 => (List.pairwise_append.mp hp).2.2 c0 h0 c (List.mem_cons_self _ _)
    rw [List.filter_append, List.filter_append, List.filter_singleton,
      List.filter_singleton]
    by_cases hcn : c.id ≤ n
    · have hcp : p ≤ c.id := by
        rcases List.mem_append.mp hc1 with hm | hm
        · have := hlt c1 hm
          omega
        · rw [List.mem_singleton.mp hm] at hp1
          exact hp1
      have hb1 : decide (c.id ≤ n) = true := by simpa using hcn
      have hb3 : decide (p ≤ c.id) = true := by simpa using hcp
      rw [hb1, hb3]
      simp only [Bool.and_true, cond_true]
      rw [List.getLast?_concat, List.getLast?_concat]
    · have hb1 : decide (c.id ≤ n) = false := by simpa using hcn
      rw [hb1]
      simp only [Bool.and_false, cond_false, List.append_nil]
      refine ih hp2 ⟨c1, ?_, hp1, hn1⟩
      rcases List.mem_append.mp hc1 with hm | hm
      · exact hm
      · rw [List.mem_singleton.mp hm] at hn1
        omega

theorem setsOn_map_canon (canon : String → Command) (k : String) :
    ∀ ks : List String, ks.Nodup →
      (∀ k2 ∈ ks, (canon k2).key = k2) → (∀ k2 ∈ ks, (canon k2).op = Op.SET) →
      setsOn (ks.map canon) k = if k ∈ ks then [canon k] else [] := by
  intro ks
  induction ks with
  | nil => intro _ _ _; simp [setsOn]
  | cons a tl ih =>
    intro hnd hkey hop
    obtain ⟨hna, hndtl⟩ := List.nodup_cons.mp hnd
    have ihr := ih hndtl (fun k2 h2 => hkey k2 (List.mem_cons_of_mem _ h2))
      (fun k2 h2 => hop k2 (List.mem_cons_of_mem _ h2))
    unfold setsOn at ihr ⊢
    rw [List.map_cons, List.filter_cons]
    by_cases hk : k = a
    · subst hk
      rw [if_pos (by
        simp [hop k (List.mem_cons_self _ _), hkey k (List.mem_cons_self _ _)])]
      rw [ihr, if_neg hna, if_pos (List.mem_cons_self _ _)]
    · rw [if_neg (by
        simp only [Bool.and_eq_true, beq_iff_eq, not_and]
        intro hx
        rw [hkey a (List.mem_cons_self _ _)]
        exact fun hh => hk hh.symm)]
      rw [ihr]
      by_cases hm : k ∈ tl
      · rw [if_pos hm, if_pos (List.mem_cons_of_mem _ hm)]
      · rw [if_neg hm, if_neg (by
          intro hh
          rcases List.mem_cons.mp hh with hh | hh
          · exact hk hh
          · exact hm hh)]

theorem sorted_getD_lt (ids : List Nat) (hs : ids.Pairwise (· < ·)) (i j : Nat)
    (hij : i < j) (hj : j < ids.length) : ids.getD i 0 < ids.getD j 0 := by
  have hi : i < ids.length := lt_trans hij hj
  rw [List.getD_eq_getElem?_getD, List.getD_eq_getElem?_getD,
    List.getElem?_eq_getElem hi, List.getElem?_eq_getElem hj]
  exact List.pairwise_iff_getElem.mp hs i j hi hj hij

theorem searchLoop_prefix_lt (ids : List Nat) (p : Nat)
    (hs : ids.Pairwise (· < ·)) :
    ∀ (fuel s l : Nat), l - s ≤ fuel → s < l → l < ids.length →
      (∀ i < s, ids.getD i 0 < p) →
      ∀ i < searchLoop ids p s l, ids.getD i 0 < p := by
  intro fuel
  induction fuel with
  | zero => intro s l h1 h2; omega
  | succ fuel ih =>
    intro s l hle hsl hlen hinv
    have hmge : s ≤ findMidInList s l := Nat.le_add_right _ _
    have hmlt : findMidInList s l < l := by
      unfold findMidInList
      omega
    rw [searchLoop, dif_pos hsl]
    simp only []
    by_cases h1 : ids.getD (findMidInList s l) 0 = p
    · rw [if_pos h1]
      intro i hi
      by_cases his : i < s
      · exact hinv i his
      · have := sorted_getD_lt ids hs i (findMidInList s l) (by omega) (by omega)
        omega
    · rw [if_neg h1]
      by_cases h2 : ids.getD (findMidInList s l) 0 < p
      · rw [if_pos h2]
        by_cases h3 : findMidInList s l + 1 = l
        · rw [if_pos h3]
          intro i hi
          by_cases his : i < s
          · exact hinv i his
          · have := sorted_getD_lt ids hs i (findMidInList s l) (by omega) (by omega)
            omega
        · rw [if_neg h3]
          refine ih (findMidInList s l + 1) l (by omega) (by omega) hlen ?_
          intro i hi
          by_cases his : i < s
          · exact hinv i his
          · rcases Nat.lt_or_ge i (findMidInList s l) with him | him
            · have := sorted_getD_lt ids hs i (findMidInList s l) (by omega) (by omega)
              omega
            · have hieq : i = findMidInList s l := by omega
              rw [hieq]
              exact h2
      · rw [if_neg h2]
        by_cases h3 : findMidInList s l = s
        · rw [if_pos h3]
          intro i hi
          exact hinv i (by omega)
        · rw [if_neg h3]
          exact ih s (findMidInList s l) (by omega) (by omega) (by omega) hinv

theorem greedyWalk_char (aux : stateTable) (n : Nat) (canon : String → Command) :
    ∀ es : List listEntry, es.Pairwise (fun a b => a.ind < b.ind) →
      (∀ e ∈ es, e.ind ≤ n → chainPhi ((aux e.key).drop e.ptr) n = canon e.key) →
      ∀ vis log, ∃ ks : List String,
        greedyWalk aux n es vis log = log ++ ks.map canon ∧
        ks.Nodup ∧
        (∀ k2, k2 ∈ ks ↔ k2 ∉ vis ∧ ∃ e ∈ es, e.key = k2 ∧ e.ind ≤ n) := by
  intro es
  induction es with
  | nil =>
    intro _ _ vis log
    exact ⟨[], by simp [greedyWalk], List.nodup_nil, fun k2 => by simp⟩
  | cons e rest ih =>
    intro hp hcanon vis log
    obtain ⟨he, hrest⟩ := List.pairwise_cons.mp hp
    have hcanonR : ∀ e2 ∈ rest, e2.ind ≤ n →
        chainPhi ((aux e2.key).drop e2.ptr) n = canon e2.key :=
      fun e2 h2 => hcanon e2 (List.mem_cons_of_mem _ h2)
    simp only [greedyWalk]
    by_cases hn : n < e.ind
    · rw [if_pos hn]
      refine ⟨[], by simp, List.nodup_nil, fun k2 => ?_⟩
      simp only [List.not_mem_nil, false_iff]
      rintro ⟨-, e2, he2, -, hind⟩
      rcases List.mem_cons.mp he2 with rfl | he2
      · omega
      · have := he e2 he2
        omega
    · rw [if_neg hn]
      by_cases hv : e.key ∈ vis
      · rw [if_pos hv]
        obtain ⟨ks2, heq2, hnd2, hmem2⟩ := ih hrest hcanonR vis log
        rw [heq2]
        refine ⟨ks2, rfl, hnd2, fun k2 => ?_⟩
        rw [hmem2 k2]
        constructor
        · rintro ⟨hnv, e2, he2, hkey, hind⟩
          exact ⟨hnv, e2, List.mem_cons_of_mem _ he2, hkey, hind⟩
        · rintro ⟨hnv, e2, he2, hkey, hind⟩
          rcases List.mem_cons.mp he2 with rfl | he2
          · exact absurd (hkey ▸ hv) hnv
          · exact ⟨hnv, e2, he2, hkey, hind⟩
      · rw [if_neg hv]
        have hck : chainPhi ((aux e.key).drop e.ptr) n = canon e.key :=
          hcanon e (List.mem_cons_self _ _) (by omega)
        rw [hck]
        obtain ⟨ks2, heq2, hnd2, hmem2⟩ :=
          ih hrest hcanonR (e.key :: vis) (log ++ [canon e.key])
        rw [heq2]
        refine ⟨e.key :: ks2, by simp, ?_, fun k2 => ?_⟩
        · exact List.nodup_cons.mpr
            ⟨fun hkm => ((hmem2 e.key).mp hkm).1 (List.mem_cons_self _ _), hnd2⟩
        · constructor
          · intro hk2
            rcases List.mem_cons.mp hk2 with rfl | hk2
            · exact ⟨hv, e, List.mem_cons_self _ _, rfl, by omega⟩
            · obtain ⟨hnv, e2, he2, hkey, hind⟩ := (hmem2 k2).mp hk2
              exact ⟨fun hm => hnv (List.mem_cons_of_mem _ hm), e2,
                List.mem_cons_of_mem _ he2, hkey, hind⟩
          · rintro ⟨hnv, e2, he2, hkey, hind⟩
            rcases List.mem_cons.mp he2 with rfl | he2
            · exact List.mem_cons.mpr (Or.inl hkey.symm)
            · by_cases hkk : k2 = e.key
              · exact List.mem_cons.mpr (Or.inl hkk)
              · refine List.mem_cons_of_mem _ ((hmem2 k2).mpr ⟨?_, e2, he2, hkey, hind⟩)
                intro hm
                rcases List.mem_cons.mp hm with hm | hm
                · exact hkk hm
                · exact hnv hm

theorem listBuild_inds_eq (cmds : List Command) :
    (ListHT.build cmds).entries.map listEntry.ind = (allSets cmds).map Command.id := by
  have h := congrArg (List.map Prod.fst) (listBuild_entries_eq cmds)
  simpa [List.map_map] using h

theorem chainPhi_build_value (cmds : List Command) (hinc : StrictIncIds cmds)
    (k : String) (n : Nat) :
    chainPhi ((ListHT.build cmds).aux k) n =
      match ((setsOn cmds k).filter (fun c => decide (c.id ≤ n))).getLast? with
      | some c => c
      | none => zeroCommand := by
  rw [listBuild_aux_eq]
  have hpair : ((setsOn cmds k).map mkState).Pairwise (fun a b => a.ind < b.ind) := by
    rw [List.pairwise_map]
    exact List.Pairwise.sublist (List.filter_sublist _) hinc
  unfold chainPhi
  rw [takeWhile_eq_filter_sorted n _ hpair]
  have hfm : ((setsOn cmds k).map mkState).filter (fun st => decide (st.ind ≤ n)) =
      ((setsOn cmds k).filter (fun c => decide (c.id ≤ n))).map mkState := by
    rw [List.filter_map]
    rfl
  rw [hfm, List.getLast?_map]
  cases hG : ((setsOn cmds k).filter (fun c => decide (c.id ≤ n))).getLast? with
  | none => rfl
  | some c => rfl

theorem setsOn_sub_allSets (cmds : List Command) (k : String) :
    ∀ c ∈ setsOn cmds k, c ∈ allSets cmds ∧ c.key = k ∧ c.op = Op.SET := by
  intro c hc
  obtain ⟨hm, hp⟩ := List.mem_filter.mp hc
  simp only [Bool.and_eq_true, beq_iff_eq] at hp
  exact ⟨List.mem_filter.mpr ⟨hm, by simp [hp.1]⟩, hp.2, hp.1⟩

theorem mem_setsOn_of_allSets (cmds : List Command) (c : Command) (k : String)
    (hc : c ∈ allSets cmds) (hk : c.key = k) : c ∈ setsOn cmds k := by
  obtain ⟨hm, hp⟩ := List.mem_filter.mp hc
  simp only [beq_iff_eq] at hp
  exact List.mem_filter.mpr ⟨hm, by simp [hp, hk]⟩

theorem greedyList_correct (cmds : List Command) (p n : Nat)
    (hinc : StrictIncIds cmds) (hlen : 2 ≤ (ListHT.build cmds).entries.length) :
    ((GreedyListHT (ListHT.build cmds) p n).map Command.key).Nodup ∧
    (∀ k, (∃ c ∈ allSets cmds, c.key = k ∧ p ≤ c.id ∧ c.id ≤ n) →
      applyCmds (GreedyListHT (ListHT.build cmds) p n) emptyStore k =
        applyCmds (rawInterval cmds p n) emptyStore k) := by
  have hids := listBuild_inds_eq cmds
  have hsortedids : ((ListHT.build cmds).entries.map listEntry.ind).Pairwise (· < ·) := by
    rw [hids, List.pairwise_map]
    exact List.Pairwise.sublist (List.filter_sublist _) hinc
  have hsorted_entries :
      (ListHT.build cmds).entries.Pairwise (fun a b => a.ind < b.ind) :=
    List.pairwise_map.mp hsortedids
  have hauxpair : ∀ k2, ((ListHT.build cmds).aux k2).Pairwise
      (fun a b => a.ind < b.ind) := by
    intro k2
    rw [listBuild_aux_eq, List.pairwise_map]
    exact List.Pairwise.sublist (List.filter_sublist _) hinc
  have hGL : GreedyListHT (ListHT.build cmds) p n =
      greedyWalk (ListHT.build cmds).aux n
        ((ListHT.build cmds).entries.drop
          (searchLoop ((ListHT.build cmds).entries.map listEntry.ind) p 0
            ((ListHT.build cmds).entries.length - 1))) [] [] := by
    unfold GreedyListHT searchEntryNodeByIndex
    rw [if_neg (by omega)]
  have hprefix : ∀ i < searchLoop ((ListHT.build cmds).entries.map listEntry.ind) p 0
      ((ListHT.build cmds).entries.length - 1),
      ((ListHT.build cmds).entries.map listEntry.ind).getD i 0 < p := by
    refine searchLoop_prefix_lt _ p hsortedids
      ((ListHT.build cmds).entries.length) 0 _ (by omega) (by omega) ?_ ?_
    · rw [List.length_map]
      omega
    · intro i hi
      omega
  have hcanonW : ∀ e ∈ (ListHT.build cmds).entries.drop
      (searchLoop ((ListHT.build cmds).entries.map listEntry.ind) p 0
        ((ListHT.build cmds).entries.length - 1)),
      e.ind ≤ n → chainPhi (((ListHT.build cmds).aux e.key).drop e.ptr) n =
        (fun k2 => chainPhi ((ListHT.build cmds).aux k2) n) e.key := by
    intro e he hen
    have hmem : e ∈ (ListHT.build cmds).entries := (List.drop_sublist _ _).subset he
    obtain ⟨st, tail, hsplit, hind⟩ := listBuild_ptr cmds e hmem
    exact chainPhi_drop_eq _ _ st tail n hsplit (hauxpair e.key) (by omega)
  obtain ⟨ks, hweq, hknd, hkmem⟩ :=
    greedyWalk_char (ListHT.build cmds).aux n
      (fun k2 => chainPhi ((ListHT.build cmds).aux k2) n) _
      (List.Pairwise.sublist (List.drop_sublist _ _) hsorted_entries) hcanonW [] []
  have hres : GreedyListHT (ListHT.build cmds) p n =
      ks.map (fun k2 => chainPhi ((ListHT.build cmds).aux k2) n) := by
    rw [hGL, hweq]
    simp
  have hentry_cmd : ∀ e ∈ (ListHT.build cmds).entries,
      ∃ c2 ∈ allSets cmds, c2.id = e.ind ∧ c2.key = e.key := by
    intro e he
    have h1 : (e.ind, e.key) ∈ (allSets cmds).map (fun c => (c.id, c.key)) := by
      rw [← listBuild_entries_eq]
      exact List.mem_map_of_mem _ he
    obtain ⟨c2, hc2, heq⟩ := List.mem_map.mp h1
    simp only [Prod.mk.injEq] at heq
    exact ⟨c2, hc2, heq.1, heq.2⟩
  have hcanonFacts : ∀ k2 ∈ ks,
      ((fun k2 => chainPhi ((ListHT.build cmds).aux k2) n) k2).key = k2 ∧
      ((fun k2 => chainPhi ((ListHT.build cmds).aux k2) n) k2).op = Op.SET := by
    intro k2 hk2
    obtain ⟨-, e, he, hkey, hen⟩ := (hkmem k2).mp hk2
    have hmem : e ∈ (ListHT.build cmds).entries := (List.drop_sublist _ _).subset he
    obtain ⟨c2, hc2, hcid, hckey⟩ := hentry_cmd e hmem
    have hc2s : c2 ∈ setsOn cmds k2 :=
      mem_setsOn_of_allSets cmds c2 k2 hc2 (by rw [hckey, hkey])
    have hc2f : c2 ∈ (setsOn cmds k2).filter (fun c => decide (c.id ≤ n)) :=
      List.mem_filter.mpr ⟨hc2s, by simp; omega⟩
    have hne : (setsOn cmds k2).filter (fun c => decide (c.id ≤ n)) ≠ [] := by
      intro h0
      rw [h0] at hc2f
      exact absurd hc2f (List.not_mem_nil c2)
    simp only []
    rw [chainPhi_build_value cmds hinc k2 n]
    cases hG : ((setsOn cmds k2).filter (fun c => decide (c.id ≤ n))).getLast? with
    | none => exact absurd (List.getLast?_eq_none_iff.mp hG) hne
    | some cg =>
      have hcg : cg ∈ setsOn cmds k2 :=
        (List.filter_sublist _).subset (List.mem_of_getLast?_eq_some hG)
      obtain ⟨-, hcgk, hcgo⟩ := setsOn_sub_allSets cmds k2 cg hcg
      exact ⟨hcgk, hcgo⟩
  constructor
  · rw [hres, List.map_map]
    have hmk : ks.map (Command.key ∘ fun k2 => chainPhi ((ListHT.build cmds).aux k2) n)
        = ks := by
      conv_rhs => rw [← List.map_id ks]
      exact List.map_congr_left (fun a ha => (hcanonFacts a ha).1)
    rw [hmk]
    exact hknd
  · rintro k ⟨c, hcall, hckey, hcp, hcn⟩
    have hcsets : c ∈ setsOn cmds k := mem_setsOn_of_allSets cmds c k hcall hckey
    -- the walked suffix contains an entry for c, so k is emitted
    obtain ⟨ec, hec, hecid, heckey⟩ : ∃ e ∈ (ListHT.build cmds).entries,
        e.ind = c.id ∧ e.key = c.key := by
      have h1 : (c.id, c.key) ∈ ((ListHT.build cmds).entries).map
          (fun e => (e.ind, e.key)) := by
        rw [listBuild_entries_eq]
        exact List.mem_map_of_mem _ hcall
      obtain ⟨e, he, heq⟩ := List.mem_map.mp h1
      simp only [Prod.mk.injEq] at heq
      exact ⟨e, he, heq.1, heq.2⟩
    have htake : ∀ e2 ∈ (ListHT.build cmds).entries.take
        (searchLoop ((ListHT.build cmds).entries.map listEntry.ind) p 0
          ((ListHT.build cmds).entries.length - 1)), e2.ind < p := by
      intro e2 he2
      obtain ⟨i, hi, hgt⟩ := List.mem_iff_getElem.mp he2
      have hi2 := hi
      rw [List.length_take] at hi2
      have hilen : i < (ListHT.build cmds).entries.length := by omega
      have hee : (ListHT.build cmds).entries[i] = e2 := by
        rw [← hgt, List.getElem_take]
      have hgd : ((ListHT.build cmds).entries.map listEntry.ind).getD i 0 = e2.ind := by
        rw [List.getD_eq_getElem?_getD, List.getElem?_map,
          List.getElem?_eq_getElem hilen, hee]
        rfl
      have := hprefix i (by omega)
      omega
    have hkinks : k ∈ ks := by
      refine (hkmem k).mpr ⟨List.not_mem_nil k, ec, ?_, by rw [heckey, hckey], by omega⟩
      have hsplit2 := List.take_append_drop
        (searchLoop ((ListHT.build cmds).entries.map listEntry.ind) p 0
          ((ListHT.build cmds).entries.length - 1)) (ListHT.build cmds).entries
      have : ec ∈ (ListHT.build cmds).entries.take
          (searchLoop ((ListHT.build cmds).entries.map listEntry.ind) p 0
            ((ListHT.build cmds).entries.length - 1)) ++
          (ListHT.build cmds).entries.drop
          (searchLoop ((ListHT.build cmds).entries.map listEntry.ind) p 0
            ((ListHT.build cmds).entries.length - 1)) := by
        rw [hsplit2]
        exact hec
      rcases List.mem_append.mp this with hm | hm
      · have := htake ec hm
        omega
      · exact hm
    have hexists2 : ∃ c2 ∈ setsOn cmds k, p ≤ c2.id ∧ c2.id ≤ n :=
      ⟨c, hcsets, hcp, hcn⟩
    -- raw side
    rw [applyCmds_key (rawInterval cmds p n) emptyStore k, rawInterval_setsOn,
      ← getLast_filter_interval p n (setsOn cmds k)
        (List.Pairwise.sublist (List.filter_sublist _) hinc) hexists2]
    -- reduced side
    rw [hres, applyCmds_key,
      setsOn_map_canon _ k ks hknd (fun k2 h2 => (hcanonFacts k2 h2).1)
        (fun k2 h2 => (hcanonFacts k2 h2).2),
      if_pos hkinks]
    simp only [List.getLast?_singleton]
    rw [chainPhi_build_value cmds hinc k n]
    have hcf : c ∈ (setsOn cmds k).filter (fun c => decide (c.id ≤ n)) :=
      List.mem_filter.mpr ⟨hcsets, by simp; omega⟩
    cases hG : ((setsOn cmds k).filter (fun c => decide (c.id ≤ n))).getLast? with
    | none =>
      rw [List.getLast?_eq_none_iff.mp hG] at hcf
      exact absurd hcf (List.not_mem_nil c)
    | some cg => rfl

/-! ### CircBuffHT build characterization (C1) -/

theorem modInt_small (a b : Int) (h0 : 0 ≤ a) (hab : a < b) : modInt a b = a := by
  unfold modInt
  rw [Int.emod_eq_of_lt h0 hab]
  simp [h0]

theorem circBuild_append (cap : Nat) (front : List Command) (c : Command) :
    CircBuffHT.build cap (front ++ [c]) =
      CircBuffHT.Log (CircBuffHT.build cap front) c := by
  unfold CircBuffHT.build
  rw [List.foldl_append]
  rfl

theorem circLog_get (cb : CircBuffHT) (c : Command) (hop : c.op ≠ Op.SET)
    (hne : cb.len ≠ cb.cap) :
    CircBuffHT.Log cb c = { cb with last := c.id } := by
  unfold CircBuffHT.Log
  rw [if_pos hop]
  rw [if_pos hne]

theorem circLog_set (cb : CircBuffHT) (c : Command) (hop : c.op = Op.SET)
    (hne : cb.len + 1 ≠ cb.cap) :
    CircBuffHT.Log cb c =
      { cb with
          aux := fun k => if k = c.key then some ⟨c.id, c⟩ else cb.aux k,
          first := if cb.len = 0 then c.id else cb.first,
          buff := cb.buff.set cb.cur ⟨c.id, c.key⟩,
          cur := (modInt ((cb.cur : Int) + 1) ((cb.cap : Int))).toNat,
          last := c.id, len := cb.len + 1 } := by
  unfold CircBuffHT.Log
  rw [if_neg (show ¬(c.op ≠ Op.SET) from not_not_intro hop)]
  rw [if_pos hne]

theorem getD_append_left9 {α : Type} (l1 l2 : List α) (j : Nat) (d : α)
    (h : j < l1.length) : (l1 ++ l2).getD j d = l1.getD j d := by
  rw [List.getD_eq_getElem?_getD, List.getD_eq_getElem?_getD,
    List.getElem?_append_left h]

theorem getD_set_ne9 {α : Type} (l : List α) (i j : Nat) (a d : α) (h : i ≠ j) :
    (l.set i a).getD j d = l.getD j d := by
  rw [List.getD_eq_getElem?_getD, List.getD_eq_getElem?_getD,
    List.getElem?_set_ne h]

theorem getD_set_self9 {α : Type} (l : List α) (i : Nat) (a d : α)
    (h : i < l.length) : (l.set i a).getD i d = a := by
  rw [List.getD_eq_getElem?_getD, List.getElem?_set_self h]
  rfl

theorem getD_append_last9 {α : Type} (l1 : List α) (a d : α) :
    (l1 ++ [a]).getD l1.length d = a := by
  rw [List.getD_eq_getElem?_getD, List.getElem?_append_right (le_refl _)]
  simp

theorem circBuild_wf (cap : Nat) :
    ∀ cmds : List Command, (allSets cmds).length < cap →
      (CircBuffHT.build cap cmds).cap = cap ∧
      (CircBuffHT.build cap cmds).len = (allSets cmds).length ∧
      (CircBuffHT.build cap cmds).cur = (allSets cmds).length ∧
      (CircBuffHT.build cap cmds).buff.length = cap ∧
      (∀ j, j < (allSets cmds).length →
        (CircBuffHT.build cap cmds).buff.getD j ⟨0, ""⟩ =
          ⟨((allSets cmds).getD j zeroCommand).id,
            ((allSets cmds).getD j zeroCommand).key⟩) ∧
      (∀ k, (CircBuffHT.build cap cmds).aux k =
        ((setsOn cmds k).getLast?).map mkState) := by
  intro cmds
  induction cmds using List.reverseRecOn with
  | nil =>
    intro hlt
    refine ⟨rfl, rfl, rfl, by simp [CircBuffHT.build, CircBuffHT.init], ?_, ?_⟩
    · intro j hj
      exact absurd hj (by simp [allSets])
    · intro k
      rfl
  | append_singleton front c ih =>
    intro hlt
    by_cases hop : c.op = Op.SET
    · have hAS : allSets (front ++ [c]) = allSets front ++ [c] :=
        allSets_append_set front c hop
      have hlen2 : (allSets (front ++ [c])).length = (allSets front).length + 1 := by
        rw [hAS, List.length_append]
        rfl
      have hlt2 : (allSets front).length < cap := by
        rw [hlen2] at hlt
        omega
      obtain ⟨w1, w2, w3, w4, w5, w6⟩ := ih hlt2
      have hnech : (CircBuffHT.build cap front).len + 1 ≠
          (CircBuffHT.build cap front).cap := by
        rw [w1, w2]
        rw [hlen2] at hlt
        omega
      rw [circBuild_append, circLog_set _ c hop hnech]
      have hm1cap : (allSets front).length + 1 < cap := by
        rw [hlen2] at hlt
        omega
      have hcur : ((modInt (((CircBuffHT.build cap front).cur : Int) + 1)
          (((CircBuffHT.build cap front).cap : Int)))).toNat =
          (allSets front).length + 1 := by
        rw [w1, w3, modInt_small _ _ (by omega) (by push_cast; omega)]
        omega
      refine ⟨w1, ?_, ?_, ?_, ?_, ?_⟩
      · show (CircBuffHT.build cap front).len + 1 = _
        rw [hlen2, w2]
      · show ((modInt (((CircBuffHT.build cap front).cur : Int) + 1)
          (((CircBuffHT.build cap front).cap : Int)))).toNat = _
        rw [hlen2]
        exact hcur
      · show ((CircBuffHT.build cap front).buff.set
          (CircBuffHT.build cap front).cur ⟨c.id, c.key⟩).length = cap
        rw [List.length_set]
        exact w4
      · intro j hj
        rw [hlen2] at hj
        show ((CircBuffHT.build cap front).buff.set
          (CircBuffHT.build cap front).cur ⟨c.id, c.key⟩).getD j ⟨0, ""⟩ = _
        rw [w3, hAS]
        by_cases hjm : j = (allSets front).length
        · subst hjm
          rw [getD_set_self9 _ _ _ _ (by rw [w4]; omega), getD_append_last9]
        · have hjlt : j < (allSets front).length := by omega
          rw [getD_set_ne9 _ _ _ _ _ (fun hh => hjm hh.symm),
            getD_append_left9 _ _ _ _ hjlt]
          exact w5 j hjlt
      · intro k
        show (if k = c.key then some ⟨c.id, c⟩ else (CircBuffHT.build cap front).aux k)
          = _
        by_cases hk : k = c.key
        · rw [if_pos hk, hk, setsOn_append_set front c hop c.key, if_pos rfl,
            List.getLast?_concat]
          rfl
        · rw [if_neg hk, setsOn_append_set front c hop k,
            if_neg (fun hh => hk hh.symm), List.append_nil]
          exact w6 k
    · have hAS : allSets (front ++ [c]) = allSets front :=
        allSets_append_get front c hop
      have hlt2 : (allSets front).length < cap := by
        rw [hAS] at hlt
        exact hlt
      obtain ⟨w1, w2, w3, w4, w5, w6⟩ := ih hlt2
      have hnech : (CircBuffHT.build cap front).len ≠
          (CircBuffHT.build cap front).cap := by
        rw [w1, w2]
        omega
      rw [circBuild_append, circLog_get _ c hop hnech, hAS]
      refine ⟨w1, w2, w3, w4, w5, ?_⟩
      intro k
      rw [setsOn_append_get front c hop k]
      exact w6 k

theorem iterCircLoop_char (cp : CircBuffHT) :
    ∀ (fuel i : Nat), cp.len - i ≤ fuel → ∀ vis log,
      ∃ ks : List String,
        iterCircLoop cp i vis log = log ++ ks.map
          (fun k => ((cp.aux k).getD ⟨0, zeroCommand⟩).cmd) ∧
        ks.Nodup ∧
        (∀ k2, k2 ∈ ks ↔ k2 ∉ vis ∧ ∃ j, i ≤ j ∧ j < cp.len ∧
          (cp.buff.getD ((modInt ((cp.cur : Int) - 1 - (j : Int))
            ((cp.cap : Int))).toNat) ⟨0, ""⟩).key = k2) := by
  intro fuel
  induction fuel with
  | zero =>
    intro i hle vis log
    have hi : ¬ i < cp.len := by omega
    rw [iterCircLoop, if_neg hi]
    refine ⟨[], by simp, List.nodup_nil, fun k2 => ?_⟩
    simp only [List.not_mem_nil, false_iff]
    rintro ⟨-, j, hij, hjl, -⟩
    omega
  | succ fuel ih =>
    intro i hle vis log
    by_cases hi : i < cp.len
    · rw [iterCircLoop, if_pos hi]
      simp only []
      by_cases hv : (cp.buff.getD ((modInt ((cp.cur : Int) - 1 - (i : Int))
          ((cp.cap : Int))).toNat) ⟨0, ""⟩).key ∈ vis
      · rw [if_pos hv]
        obtain ⟨ks2, heq2, hnd2, hmem2⟩ := ih (i + 1) (by omega) vis log
        rw [heq2]
        refine ⟨ks2, rfl, hnd2, fun k2 => ?_⟩
        rw [hmem2 k2]
        constructor
        · rintro ⟨hnv, j, hij, hjl, hkey⟩
          exact ⟨hnv, j, by omega, hjl, hkey⟩
        · rintro ⟨hnv, j, hij, hjl, hkey⟩
          refine ⟨hnv, j, ?_, hjl, hkey⟩
          by_cases hji : j = i
          · subst hji
            exact absurd (hkey ▸ hv) hnv
          · omega
      · rw [if_neg hv]
        obtain ⟨ks2, heq2, hnd2, hmem2⟩ := ih (i + 1) (by omega)
          ((cp.buff.getD ((modInt ((cp.cur : Int) - 1 - (i : Int))
            ((cp.cap : Int))).toNat) ⟨0, ""⟩).key :: vis)
          (log ++ [((cp.aux (cp.buff.getD ((modInt ((cp.cur : Int) - 1 - (i : Int))
            ((cp.cap : Int))).toNat) ⟨0, ""⟩).key).getD ⟨0, zeroCommand⟩).cmd])
        rw [heq2]
        refine ⟨(cp.buff.getD ((modInt ((cp.cur : Int) - 1 - (i : Int))
            ((cp.cap : Int))).toNat) ⟨0, ""⟩).key :: ks2, by simp, ?_, fun k2 => ?_⟩
        · exact List.nodup_cons.mpr
            ⟨fun hkm => ((hmem2 _).mp hkm).1 (List.mem_cons_self _ _), hnd2⟩
        · constructor
          · intro hk2
            rcases List.mem_cons.mp hk2 with rfl | hk2
            · exact ⟨hv, i, le_refl i, hi, rfl⟩
            · obtain ⟨hnv, j, hij, hjl, hkey⟩ := (hmem2 k2).mp hk2
              exact ⟨fun hm => hnv (List.mem_cons_of_mem _ hm), j, by omega, hjl, hkey⟩
          · rintro ⟨hnv, j, hij, hjl, hkey⟩
            by_cases hkk : k2 = (cp.buff.getD ((modInt ((cp.cur : Int) - 1 - (i : Int))
                ((cp.cap : Int))).toNat) ⟨0, ""⟩).key
            · exact List.mem_cons.mpr (Or.inl hkk)
            · refine List.mem_cons_of_mem _ ((hmem2 k2).mpr ⟨?_, j, ?_, hjl, hkey⟩)
              · intro hm
                rcases List.mem_cons.mp hm with hm | hm
                · exact hkk hm
                · exact hnv hm
              · by_cases hji : j = i
                · subst hji
                  exact absurd hkey.symm hkk
                · omega
    · rw [iterCircLoop, if_neg hi]
      refine ⟨[], by simp, List.nodup_nil, fun k2 => ?_⟩
      simp only [List.not_mem_nil, false_iff]
      rintro ⟨-, j, hij, hjl, -⟩
      omega

theorem iterCirc_correct (cap : Nat) (cmds : List Command) (p n : Nat)
    (hinc : StrictIncIds cmds) (hlt : (allSets cmds).length < cap)
    (hcov : ∀ c ∈ cmds, p ≤ c.id ∧ c.id ≤ n) :
    ((IterCircBuffHT (CircBuffHT.build cap cmds)).map Command.key).Nodup ∧
    (∀ k, (∃ c ∈ allSets cmds, c.key = k ∧ p ≤ c.id ∧ c.id ≤ n) →
      applyCmds (IterCircBuffHT (CircBuffHT.build cap cmds)) emptyStore k =
        applyCmds (rawInterval cmds p n) emptyStore k) := by
  obtain ⟨w1, w2, w3, w4, w5, w6⟩ := circBuild_wf cap cmds hlt
  obtain ⟨ks, hequ, hnd, hmem⟩ :=
    iterCircLoop_char (CircBuffHT.build cap cmds)
      (CircBuffHT.build cap cmds).len 0 (by omega) [] []
  have hres : IterCircBuffHT (CircBuffHT.build cap cmds) =
      ks.map (fun k => (((CircBuffHT.build cap cmds).aux k).getD
        ⟨0, zeroCommand⟩).cmd) := by
    unfold IterCircBuffHT
    rw [hequ]
    simp
  -- translate the loop positions into allSets positions
  have hposkey : ∀ j, j < (allSets cmds).length →
      ((CircBuffHT.build cap cmds).buff.getD
        ((modInt (((CircBuffHT.build cap cmds).cur : Int) - 1 - (j : Int))
          (((CircBuffHT.build cap cmds).cap : Int))).toNat) ⟨0, ""⟩).key =
      ((allSets cmds).getD ((allSets cmds).length - 1 - j) zeroCommand).key := by
    intro j hj
    rw [w3, w1]
    have hmod : (modInt (((allSets cmds).length : Int) - 1 - (j : Int))
        ((cap : Int))).toNat = (allSets cmds).length - 1 - j := by
      rw [modInt_small _ _ (by omega) (by omega)]
      omega
    rw [hmod, w5 _ (by omega)]
  have hmem2 : ∀ k2, k2 ∈ ks ↔ ∃ c ∈ allSets cmds, c.key = k2 := by
    intro k2
    rw [hmem k2]
    constructor
    · rintro ⟨-, j, -, hjl, hkey⟩
      rw [w2] at hjl
      rw [hposkey j hjl] at hkey
      refine ⟨(allSets cmds).getD ((allSets cmds).length - 1 - j) zeroCommand,
        ?_, hkey⟩
      have hlt2 : (allSets cmds).length - 1 - j < (allSets cmds).length := by omega
      rw [List.getD_eq_getElem?_getD, List.getElem?_eq_getElem hlt2]
      exact List.getElem_mem _
    · rintro ⟨c, hc, hkey⟩
      obtain ⟨j2, hj2, hg⟩ := List.mem_iff_getElem.mp hc
      refine ⟨List.not_mem_nil k2, (allSets cmds).length - 1 - j2, by omega, ?_, ?_⟩
      · rw [w2]
        omega
      · rw [hposkey _ (by omega)]
        have hj2e : (allSets cmds).length - 1 - ((allSets cmds).length - 1 - j2)
            = j2 := by omega
        rw [hj2e, List.getD_eq_getElem?_getD, List.getElem?_eq_getElem hj2]
        simp only [Option.getD_some]
        rw [hg, hkey]
  have hcanonFacts : ∀ k2 ∈ ks,
      ((fun k => (((CircBuffHT.build cap cmds).aux k).getD
        ⟨0, zeroCommand⟩).cmd) k2).key = k2 ∧
      ((fun k => (((CircBuffHT.build cap cmds).aux k).getD
        ⟨0, zeroCommand⟩).cmd) k2).op = Op.SET ∧
      (setsOn cmds k2).getLast? =
        some ((fun k => (((CircBuffHT.build cap cmds).aux k).getD
          ⟨0, zeroCommand⟩).cmd) k2) := by
    intro k2 hk2
    obtain ⟨c, hc, hkey⟩ := (hmem2 k2).mp hk2
    have hcs : c ∈ setsOn cmds k2 := mem_setsOn_of_allSets cmds c k2 hc hkey
    have hne : setsOn cmds k2 ≠ [] := by
      intro h0
      rw [h0] at hcs
      exact absurd hcs (List.not_mem_nil c)
    simp only []
    rw [w6 k2]
    cases hG : (setsOn cmds k2).getLast? with
    | none => exact absurd (List.getLast?_eq_none_iff.mp hG) hne
    | some cl =>
      have hcl : cl ∈ setsOn cmds k2 := List.mem_of_getLast?_eq_some hG
      obtain ⟨-, hclk, hclo⟩ := setsOn_sub_allSets cmds k2 cl hcl
      exact ⟨hclk, hclo, rfl⟩
  constructor
  · rw [hres, List.map_map]
    have hmk : ks.map (Command.key ∘ fun k =>
        (((CircBuffHT.build cap cmds).aux k).getD ⟨0, zeroCommand⟩).cmd) = ks := by
      conv_rhs => rw [← List.map_id ks]
      exact List.map_congr_left (fun a ha => (hcanonFacts a ha).1)
    rw [hmk]
    exact hnd
  · rintro k ⟨c, hc, hkey, -, -⟩
    have hkin : k ∈ ks := (hmem2 k).mpr ⟨c, hc, hkey⟩
    rw [rawInterval_all cmds p n hcov]
    rw [hres, applyCmds_key, applyCmds_key,
      setsOn_map_canon _ k ks hnd (fun k2 h2 => (hcanonFacts k2 h2).1)
        (fun k2 h2 => (hcanonFacts k2 h2).2.1),
      if_pos hkin]
    rw [(hcanonFacts k hkin).2.2]
    simp [List.getLast?_singleton]

/-- With a single logged SET the list structure cannot answer at all:
`searchEntryNodeByIndex` needs two entries for its loop and returns a nil
node, so `GreedyListHT` returns `[]` even though key "a" has a SET inside
`[1, 1]` — executing the reduced log loses the key's value. -/
theorem greedyList_singleton_misses_key :
    GreedyListHT (ListHT.build [⟨1, Op.SET, "a", "1"⟩]) 1 1 = [] ∧
    applyCmds (rawInterval [⟨1, Op.SET, "a", "1"⟩] 1 1) emptyStore "a" = some "1" ∧
    applyCmds (GreedyListHT (ListHT.build [⟨1, Op.SET, "a", "1"⟩]) 1 1)
      emptyStore "a" = none := by
  refine ⟨rfl, rfl, rfl⟩

/-- C1: amended functional correctness of the two cited reducers.  For
`GreedyListHT` the property holds once the structure has at least two entries
(one entry returns `[]`, see the counterexample); for `IterCircBuffHT` — which
ignores `[p, n]` and always reduces its whole current window — it holds for
intervals covering the window, while the buffer has not wrapped. -/
theorem reduce_preserves_final_values :
    (∀ (cmds : List Command) (p n : Nat), StrictIncIds cmds → p ≤ n →
      2 ≤ (ListHT.build cmds).entries.length →
      ((GreedyListHT (ListHT.build cmds) p n).map Command.key).Nodup ∧
      (∀ k, (∃ c ∈ allSets cmds, c.key = k ∧ p ≤ c.id ∧ c.id ≤ n) →
        applyCmds (GreedyListHT (ListHT.build cmds) p n) emptyStore k =
          applyCmds (rawInterval cmds p n) emptyStore k)) ∧
    (∀ (cap : Nat) (cmds : List Command) (p n : Nat), StrictIncIds cmds →
      (allSets cmds).length < cap →
      (∀ c ∈ cmds, p ≤ c.id ∧ c.id ≤ n) →
      ((IterCircBuffHT (CircBuffHT.build cap cmds)).map Command.key).Nodup ∧
      (∀ k, (∃ c ∈ allSets cmds, c.key = k ∧ p ≤ c.id ∧ c.id ≤ n) →
        applyCmds (IterCircBuffHT (CircBuffHT.build cap cmds)) emptyStore k =
          applyCmds (rawInterval cmds p n) emptyStore k)) :=
  ⟨fun cmds p n hinc _ hlen => greedyList_correct cmds p n hinc hlen,
   fun cap cmds p n hinc hlt hcov => iterCirc_correct cap cmds p n hinc hlt hcov⟩

theorem reduce_preserves_final_values_witness :
    (((GreedyListHT
        (ListHT.build [⟨1, Op.SET, "a", "1"⟩, ⟨2, Op.SET, "b", "2"⟩]) 1 2).map
        Command.key).Nodup ∧
      (∀ k, (∃ c ∈ allSets [⟨1, Op.SET, "a", "1"⟩, ⟨2, Op.SET, "b", "2"⟩],
          c.key = k ∧ 1 ≤ c.id ∧ c.id ≤ 2) →
        applyCmds (GreedyListHT
          (ListHT.build [⟨1, Op.SET, "a", "1"⟩, ⟨2, Op.SET, "b", "2"⟩]) 1 2)
          emptyStore k =
        applyCmds (rawInterval [⟨1, Op.SET, "a", "1"⟩, ⟨2, Op.SET, "b", "2"⟩] 1 2)
          emptyStore k)) ∧
    (((IterCircBuffHT
        (CircBuffHT.build 3 [⟨1, Op.SET, "a", "1"⟩, ⟨2, Op.SET, "b", "2"⟩])).map
        Command.key).Nodup ∧
      (∀ k, (∃ c ∈ allSets [⟨1, Op.SET, "a", "1"⟩, ⟨2, Op.SET, "b", "2"⟩],
          c.key = k ∧ 1 ≤ c.id ∧ c.id ≤ 2) →
        applyCmds (IterCircBuffHT
          (CircBuffHT.build 3 [⟨1, Op.SET, "a", "1"⟩, ⟨2, Op.SET, "b", "2"⟩]))
          emptyStore k =
        applyCmds (rawInterval [⟨1, Op.SET, "a", "1"⟩, ⟨2, Op.SET, "b", "2"⟩] 1 2)
          emptyStore k)) :=
  ⟨reduce_preserves_final_values.1 [⟨1, Op.SET, "a", "1"⟩, ⟨2, Op.SET, "b", "2"⟩]
      1 2 (by unfold StrictIncIds; decide) (by decide) (by decide),
   reduce_preserves_final_values.2 3 [⟨1, Op.SET, "a", "1"⟩, ⟨2, Op.SET, "b", "2"⟩]
      1 2 (by unfold StrictIncIds; decide) (by decide) (by decide)⟩

end Beelog
